import Mathlib

/-!
# The nondeterministic level-5 encoder of package flate (`flate/nondeterministic.go`)

A shallow embedding of `fastEncL5ND` (its `Rng`, `InitRNG` and `Encode`) and of the
token sink it writes into, followed by the theorems that settle the claims of the
specification.

Conventions of the embedding.

* Bytes are `Fin 256`; a byte slice is a `List Byte`.
* `int32` values (`s`, `t`, `l`, `nextS`, `nextEmit`, `cur`, the stored offsets) are `Int`.
  In every state reached from a fresh encoder `cur` plus the length of the window is
  below `2^31` (part of the invariant `Inv`), so that every intermediate value stays
  inside the `int32` range and no wrap-around is modelled for them.  Unsigned
  values whose wrap-around the code relies on (hash products, the `uint16` counters of
  the sink, the two `byte` cursors of the bit source, the `uint32` conversions of a
  match length and a match offset) carry an explicit `% 2 ^ w`.
* A run-time panic (an index or a slice out of range, a failed read of the random source)
  is `Except.error Err.panic`.  Every loop is a structurally recursive function over a
  fuel argument; running out of fuel is `Except.error Err.fuel`.
* The fixed-size arrays `table`, `bTable`, `rngTab`, `tokens` and `litHist` are total
  functions over their index; every index the code builds is below the array size.
-/

set_option linter.dupNamespace false
set_option linter.unusedVariables false
set_option linter.unreachableTactic false
set_option linter.unusedTactic false

namespace flate

/-! ## Constants -/

/-- A byte. -/
abbrev Byte := Fin 256

/-- Abnormal ends of a run: a Go panic, or an exhausted fuel argument of a loop. -/
inductive Err where
  | panic
  | fuel
deriving DecidableEq, Repr

/-- Results of fallible code. -/
abbrev M := Except Err

/-- Modelled from the spec: `maxStoreBlockSize` is declared outside nondeterministic.go;
it is the caller's bound on a block (the sink holds `maxStoreBlockSize + 1` tokens and
its counter is a `uint16`). -/
def maxStoreBlockSize : Nat := 65535

/-- Modelled from the spec: `tableBits`, the hash table size exponent, is declared outside
nondeterministic.go; the spec leaves its value open, 15 is the value of the package. -/
def tableBits : Nat := 15

/-- Modelled from the spec: `tableSize = 2 ^ tableBits`, declared outside
nondeterministic.go. -/
def tableSize : Nat := 2 ^ tableBits

/-- Modelled from the spec: `maxMatchOffset`, the sliding window size (32768), is declared
outside nondeterministic.go. -/
def maxMatchOffset : Int := 32768

/-- Modelled from the spec: `maxMatchLength` (258) is declared outside
nondeterministic.go. -/
def maxMatchLength : Int := 258

/-- Modelled from the spec: `baseMatchLength`, the minimum encodable match length (3), is
declared outside nondeterministic.go. -/
def baseMatchLength : Int := 3

/-- Modelled from the spec: `baseMatchOffset`, the bias of an encoded distance (1), is
declared outside nondeterministic.go. -/
def baseMatchOffset : Int := 1

/-- Modelled from the spec: `allocHistory`, the preallocated history size, is declared
outside nondeterministic.go; the spec leaves its value open, `maxStoreBlockSize * 5` is
the value of the package. -/
def allocHistory : Nat := maxStoreBlockSize * 5

/-- Modelled from the spec: `bufferReset`, the rebase threshold, is declared outside
nondeterministic.go; the spec leaves its value open,
`(1 << 31) - allocHistory - maxStoreBlockSize - 1` is the value of the package. -/
def bufferReset : Int := 2 ^ 31 - (allocHistory : Int) - (maxStoreBlockSize : Int) - 1

/-- The constant `inputMargin = 12 - 1` of `Encode`. -/
def inputMargin : Int := 12 - 1

/-- The constant `minNonLiteralBlockSize = 1 + 1 + inputMargin` of `Encode`. -/
def minNonLiteralBlockSize : Int := 1 + 1 + inputMargin

/-- The constant `skipLog = 6` of the scan loop. -/
def skipLog : Nat := 6

/-- The constant `doEvery = 1` of the scan loop. -/
def doEvery : Int := 1

/-- The constant `hashEvery = 3` of the refresh loop. -/
def hashEvery : Int := 3

/-- Modelled from the spec: the multiplier of the 4-byte hash, declared outside
nondeterministic.go; the spec leaves it open, this is the value of the package.  No
theorem below depends on it. -/
def prime4bytes : Nat := 2654435761

/-- Modelled from the spec: the multiplier of the 7-byte hash, declared outside
nondeterministic.go; the spec leaves it open, this is the value of the package.  No
theorem below depends on it. -/
def prime7bytes : Nat := 58295818150454627

/-! ## Window reads -/

/-- The byte of `b` at the signed index `i`, as a number; 0 outside the slice (the
fallible reads below never use that default). -/
def byteAt (b : List Byte) (i : Int) : Nat :=
  if i < 0 then 0 else (b.getD i.toNat 0).val

/-- Little-endian value of the 4 bytes of `b` from index `i`. -/
def le32 (b : List Byte) (i : Int) : Nat :=
  byteAt b i + 256 * byteAt b (i + 1) + 65536 * byteAt b (i + 2) + 16777216 * byteAt b (i + 3)

/-- Little-endian value of the 8 bytes of `b` from index `i`. -/
def le64 (b : List Byte) (i : Int) : Nat :=
  le32 b i + 4294967296 * le32 b (i + 4)

/-- Modelled from the spec: `load3232(b, i)` is declared outside nondeterministic.go; it
reads the 4 literal bytes at `i` (`binary.LittleEndian.Uint32(b[i:])`) and panics when
they are not all inside `b`. -/
def load3232 (b : List Byte) (i : Int) : M Nat :=
  if 0 ≤ i ∧ i + 4 ≤ b.length then .ok (le32 b i) else .error .panic

/-- Modelled from the spec: `load6432(b, i)` is declared outside nondeterministic.go; it
reads the 8 bytes at `i` (`binary.LittleEndian.Uint64(b[i:])`) and panics when they are
not all inside `b`. -/
def load6432 (b : List Byte) (i : Int) : M Nat :=
  if 0 ≤ i ∧ i + 8 ≤ b.length then .ok (le64 b i) else .error .panic

/-- The indexing `b[i]`: panics outside the slice. -/
def index (b : List Byte) (i : Int) : M Byte :=
  if i < 0 then .error .panic
  else match b[i.toNat]? with
    | some v => .ok v
    | none => .error .panic

/-- The slicing `b[lo:hi]`: panics unless `0 ≤ lo ≤ hi ≤ len(b)`. -/
def slice (b : List Byte) (lo hi : Int) : M (List Byte) :=
  if 0 ≤ lo ∧ lo ≤ hi ∧ hi ≤ b.length then .ok ((b.drop lo.toNat).take (hi - lo).toNat)
  else .error .panic

/-! ## Hashes -/

/-- Modelled from the spec: `hash4x64(u, h)` is declared outside nondeterministic.go; the
slot index of the short table is a hash of the 4-byte prefix of `u` reduced to `h` bits:
`(uint32(u) * prime4bytes) >> (32 - h)`. -/
def hash4x64 (u : Nat) (h : Nat) : Nat :=
  ((u % 2 ^ 32) * prime4bytes % 2 ^ 32) >>> ((32 - h) % 32)

/-- Modelled from the spec: `hash4u(u, h)` is declared outside nondeterministic.go; the
4-byte hash of a `uint32`: `(u * prime4bytes) >> (32 - h)`. -/
def hash4u (u : Nat) (h : Nat) : Nat :=
  ((u % 2 ^ 32) * prime4bytes % 2 ^ 32) >>> (32 - h)

/-- Modelled from the spec: `hash7(u, h)` is declared outside nondeterministic.go; the slot
index of the chained table is a hash of the 7-byte prefix of `u` reduced to `h` bits:
`uint32(((u << 8) * prime7bytes) >> (64 - h))`. -/
def hash7 (u : Nat) (h : Nat) : Nat :=
  ((((u * 256) % 2 ^ 64) * prime7bytes % 2 ^ 64) >>> ((64 - h) % 64)) % 2 ^ 32

/-! ## Match length -/

/-- Modelled from the spec: `matchLen(a, b)` is declared outside nondeterministic.go; it
extends a match maximally forward while bytes match, over the whole of `a`; indexing `b`
past its end panics. -/
def matchLen : List Byte → List Byte → M Nat
  | [], _ => .ok 0
  | _ :: _, [] => .error .panic
  | x :: a, y :: b =>
    if x = y then
      match matchLen a b with
      | .ok n => .ok (n + 1)
      | .error err => .error err
    else .ok 0

/-- Modelled from the spec: `fastGen.matchlen(s, t, src)` is declared outside
nondeterministic.go; the forward extension capped at `maxMatchLength - 4` bytes:
`matchLen(src[s:s1], src[t:])` with `s1 = min(s + maxMatchLength - 4, len(src))`. -/
def matchlen (s t : Int) (src : List Byte) : M Int := do
  let s1 := if s + maxMatchLength - 4 > src.length then (src.length : Int)
            else s + maxMatchLength - 4
  let a ← slice src s s1
  let b ← slice src t src.length
  let n ← matchLen a b
  pure (n : Int)

/-- Modelled from the spec: `fastGen.matchlenLong(s, t, src)` is declared outside
nondeterministic.go; the uncapped forward extension `matchLen(src[s:], src[t:])`. -/
def matchlenLong (s t : Int) (src : List Byte) : M Int := do
  let a ← slice src s src.length
  let b ← slice src t src.length
  let n ← matchLen a b
  pure (n : Int)

/-! ## The token sink -/

/-- Modelled from the spec: the type `token` is declared outside nondeterministic.go.  A
literal token holds one byte; a match token holds a length and a distance, both biased:
its fields are the `uint32` values `length - baseMatchLength` and
`distance - baseMatchOffset` that the code packs into the token. -/
inductive token where
  | literal (b : Byte)
  | matchTok (xlength : Nat) (xoffset : Nat)
deriving DecidableEq, Repr

/-- Modelled from the spec: the type `tokens` is declared outside nondeterministic.go: the
caller-owned sink, an array of `maxStoreBlockSize + 1` tokens, the `uint16` count `n` of
tokens written and the 256-entry literal histogram `litHist` of `uint16` counters.  (The
length and offset code histograms of the entropy coder are outside the spec and are not
modelled.) -/
structure tokens where
  litHist : Nat → Nat
  n : Nat
  tokens : Nat → token

/-- Functional update of an array slot. -/
def upd {α : Type} (f : Nat → α) (i : Nat) (v : α) : Nat → α :=
  fun j => if j = i then v else f j

/-- Modelled from the spec: `AddLiteral(lit)` is declared outside nondeterministic.go; it
appends a literal token and increments that byte's histogram count (the same three
statements as the literal loop of `Encode`). -/
def AddLiteral (t : tokens) (lit : Byte) : tokens :=
  { tokens := upd t.tokens t.n (token.literal lit)
    litHist := upd t.litHist lit.val ((t.litHist lit.val + 1) % 2 ^ 16)
    n := (t.n + 1) % 2 ^ 16 }

/-- Modelled from the spec: `emitLiteral(dst, lit)` is declared outside
nondeterministic.go; one literal token per byte of `lit`, in order. -/
def emitLiteral (dst : tokens) (lit : List Byte) : tokens :=
  lit.foldl AddLiteral dst

/-- Modelled from the spec: `AddMatch(xlength, xoffset)` is declared outside
nondeterministic.go; it appends one match token; `xlength` already has the base
subtracted. -/
def AddMatch (t : tokens) (xlength xoffset : Nat) : tokens :=
  { t with
    tokens := upd t.tokens t.n (token.matchTok xlength xoffset)
    n := (t.n + 1) % 2 ^ 16 }

/-- Modelled from the spec: `AddMatchLong(xlength, xoffset)` is declared outside
nondeterministic.go; it appends the match tokens of a match whose length may exceed
`maxMatchLength`: chunks of 258 while more than `258 + baseMatchLength` remain, a chunk
of `258 - baseMatchLength` when between 259 and 261 remain, so that at least
`baseMatchLength` is left for the next chunk.  `xlength` does not have the base
subtracted. -/
def AddMatchLong : Nat → tokens → Int → Nat → M tokens
  | 0, t, xlength, _ => if xlength > 0 then .error .fuel else .ok t
  | fuel + 1, t, xlength, xoffset =>
    if xlength > 0 then
      let xl := if xlength > 258 then
                  (if xlength > 258 + baseMatchLength then 258 else 258 - baseMatchLength)
                else xlength
      let xlength := xlength - xl
      let xl := xl - baseMatchLength
      AddMatchLong fuel (AddMatch t ((xl % 2 ^ 32).toNat) xoffset) xlength xoffset
    else .ok t

/-- The tokens the sink holds: `tokens[0..n)`. -/
def toks (t : tokens) : List token :=
  (List.range t.n).map t.tokens

/-! ## The encoder state and its bit source -/

/-- The type `tableEntryPrev`, a slot of the chained table: the two most recent positions,
each a `tableEntry` (one `int32` offset, here an `Int`). -/
structure tableEntryPrev where
  Cur : Int
  Prev : Int
deriving DecidableEq, Repr

/-- The type `fastEncL5ND`.  `hist` and `cur` are the fields of the embedded `fastGen`;
`rngInit` is the state of the `sync.Once` (true once `InitRNG` has run through it). -/
structure fastEncL5ND where
  hist : List Byte
  cur : Int
  table : Nat → Int
  bTable : Nat → tableEntryPrev
  rngInit : Bool
  rngTab : Nat → Byte
  rngPos : Nat
  rngBit : Nat

/-- The method `Rng`: the next bit of the table, and the encoder with its cursors
advanced. -/
def Rng (e : fastEncL5ND) : Bool × fastEncL5ND :=
  let b := ((e.rngTab e.rngPos).val >>> e.rngBit) &&& 1
  let rngBit := (e.rngBit + 1) % 2 ^ 8
  let e := if rngBit ≥ 8 then { e with rngBit := 0, rngPos := (e.rngPos + 1) % 2 ^ 8 }
           else { e with rngBit := rngBit }
  (b != 0, e)

/-- The loop `for i := range e.rngTab[:] { e.rngTab[i] = e.rngTab[i&(rngBytes-1)] }` of
`InitRNG` (`rngBytes = 4`): every entry `i` of the 256 is overwritten, in index order,
with entry `i & 3`. -/
def tile (tab : Nat → Byte) : Nat → Byte :=
  (List.range 256).foldl (fun tab i => upd tab i (tab (i &&& 3))) tab

/-- The method `InitRNG`; `rnd` is what `crand.Read` delivers for the first `rngBytes = 4`
bytes of the table (`none` when it fails, which panics). -/
def InitRNG (e : fastEncL5ND) (rnd : Option (Nat → Byte)) : M fastEncL5ND :=
  match rnd with
  | none => .error .panic
  | some seed => .ok { e with rngTab := tile (fun i => if i < 4 then seed i else e.rngTab i) }

/-- The call `e.rngInit.Do(e.InitRNG)`: runs `InitRNG` the first time only. -/
def rngInitDo (e : fastEncL5ND) (rnd : Option (Nat → Byte)) : M fastEncL5ND :=
  if e.rngInit then .ok e
  else match InitRNG e rnd with
    | .ok e => .ok { e with rngInit := true }
    | .error err => .error err

/-- Store `v` in slot `h` of the short table: `e.table[h] = tableEntry{offset: v}`. -/
def setTable (e : fastEncL5ND) (h : Nat) (v : Int) : fastEncL5ND :=
  { e with table := upd e.table h v }

/-- Push `v` on slot `h` of the chained table:
`eLong := &e.bTable[h]; eLong.Cur, eLong.Prev = tableEntry{offset: v}, eLong.Cur`. -/
def pushLong (e : fastEncL5ND) (h : Nat) (v : Int) : fastEncL5ND :=
  { e with bTable := upd e.bTable h ⟨v, (e.bTable h).Cur⟩ }

/-! ## `Encode`: the rebasing prelude and `addBlock` -/

/-- One iteration of the loop `for e.cur >= bufferReset` (lines 58-96): with an empty
history both tables are cleared, otherwise every stored position is shifted down or
zeroed; `cur` becomes `maxMatchOffset`. -/
def rebaseStep (e : fastEncL5ND) : fastEncL5ND :=
  if e.hist.length = 0 then
    { e with table := fun _ => 0, bTable := fun _ => ⟨0, 0⟩, cur := maxMatchOffset }
  else
    let minOff := e.cur + (e.hist.length : Int) - maxMatchOffset
    { e with
      table := fun i =>
        let v := e.table i
        if v ≤ minOff then 0 else v - e.cur + maxMatchOffset
      bTable := fun i =>
        let v := e.bTable i
        if v.Cur ≤ minOff then ⟨0, 0⟩
        else ⟨v.Cur - e.cur + maxMatchOffset,
              if v.Prev ≤ minOff then 0 else v.Prev - e.cur + maxMatchOffset⟩
      cur := maxMatchOffset }

/-- The loop `for e.cur >= bufferReset { ... }` of lines 58-96; the empty-history branch
leaves it through `break`. -/
def rebaseLoop : Nat → fastEncL5ND → M fastEncL5ND
  | 0, e => if e.cur ≥ bufferReset then .error .fuel else .ok e
  | fuel + 1, e =>
    if e.cur ≥ bufferReset then
      if e.hist.length = 0 then .ok (rebaseStep e)
      else rebaseLoop fuel (rebaseStep e)
    else .ok e

/-- Modelled from the spec: `fastGen.addBlock(src)` is declared outside
nondeterministic.go.  `Append(bytes)` returns the starting position of the appended
region.  The buffer holds `allocHistory` bytes: when the block does not fit behind the
history, the history is first moved down, so that its last `maxMatchOffset` bytes are what
is kept, and the number of bytes dropped is added to `cur` (the logical position counter
advances, the absolute position of every byte kept stays what it was).  Moving down a
history of less than `maxMatchOffset` bytes is a slice out of range.  The buffer is taken
never to grow: the caller bounds a block by `maxStoreBlockSize`, and a moved-down history
followed by such a block fits the `allocHistory` bytes. -/
def addBlock (e : fastEncL5ND) (src : List Byte) : M (Int × fastEncL5ND) :=
  if e.hist.length + src.length > allocHistory then
    let offset := (e.hist.length : Int) - maxMatchOffset
    if offset < 0 then .error .panic
    else
      let e := { e with cur := e.cur + offset, hist := e.hist.drop offset.toNat }
      .ok ((e.hist.length : Int), { e with hist := e.hist ++ src })
  else .ok ((e.hist.length : Int), { e with hist := e.hist ++ src })

/-! ## `Encode`: the probe loop (lines 127-219) -/

/-- How the inner loop is left: `remainder` is `goto emitRemainder`, `found` is a `break`
with the match `(s, t, l)` and the loop's `nextS`. -/
inductive Found where
  | remainder (e : fastEncL5ND)
  | found (e : fastEncL5ND) (s t l nextS : Int)

/-- How one pass of the inner loop ends: `next` falls through to `cv = next` and loops,
`done` leaves the loop. -/
inductive Probe where
  | next (e : fastEncL5ND) (cv : Nat) (nextS : Int)
  | done (r : Found)

/-- The test `s-t < maxMatchOffset && want == load3232(src, t)`; the load is made only
when the first operand holds. -/
def inWindowEq (src : List Byte) (want : Nat) (s t : Int) : M Bool :=
  if s - t < maxMatchOffset then do
    let c ← load3232 src t
    pure (decide (want = c))
  else pure false

/-- The test `ml > l || (ml == l && e.Rng())`; the bit is drawn only on a tie. -/
def pick (e : fastEncL5ND) (ml l : Int) : Bool × fastEncL5ND :=
  if ml > l then (true, e)
  else if ml = l then Rng e
  else (false, e)

/-- The statements "Store the next match" (lines 152-154, 172-174, 186-188). -/
def storeNext (e : fastEncL5ND) (nextHashS nextHashL : Nat) (nextS : Int) : fastEncL5ND :=
  pushLong (setTable e nextHashS (nextS + e.cur)) nextHashL (nextS + e.cur)

/-- Lines 148-177: the two candidates of the chained table.  `none` falls through to the
short candidate. -/
def probeLong (e : fastEncL5ND) (src : List Byte) (cv : Nat) (s nextS : Int)
    (lCandidate : tableEntryPrev) (nextHashS nextHashL : Nat) : M (Option Found) := do
  let t := lCandidate.Cur - e.cur
  if s - t < maxMatchOffset then do
    let c ← load3232 src (lCandidate.Cur - e.cur)
    if cv % 2 ^ 32 = c then do
      let e := storeNext e nextHashS nextHashL nextS
      let t2 := lCandidate.Prev - e.cur
      let b ← inWindowEq src (cv % 2 ^ 32) s t2
      if b then do
        let l ← matchlen (s + 4) (t + 4) src
        let l := l + 4
        let ml1 ← matchlen (s + 4) (t2 + 4) src
        let ml1 := ml1 + 4
        let p := pick e ml1 l
        if p.1 then pure (some (.found p.2 s t2 ml1 nextS))
        else pure (some (.found p.2 s t l nextS))
      else pure (some (.found e s t 0 nextS))
    else do
      let t := lCandidate.Prev - e.cur
      let b ← inWindowEq src (cv % 2 ^ 32) s t
      if b then pure (some (.found (storeNext e nextHashS nextHashL nextS) s t 0 nextS))
      else pure none
  else pure none

/-- Lines 179-217: the candidate of the short table, with the look-ahead at `nextS`.
`none` is no match at `s`. -/
def probeShort (e : fastEncL5ND) (src : List Byte) (cv next : Nat) (s nextS : Int)
    (sCandidate : Int) (nextHashS nextHashL : Nat) : M (Option Found) := do
  let t := sCandidate - e.cur
  let b ← inWindowEq src (cv % 2 ^ 32) s t
  if b then do
    let l ← matchlen (s + 4) (t + 4) src
    let l := l + 4
    let lCandidate := e.bTable nextHashL
    let e := storeNext e nextHashS nextHashL nextS
    let t2 := lCandidate.Cur - e.cur
    if nextS - t2 < maxMatchOffset then do
      let c ← load3232 src (lCandidate.Cur - e.cur)
      let first : Option Found × fastEncL5ND ←
        (if c = next % 2 ^ 32 then do
          let ml ← matchlen (nextS + 4) (t2 + 4) src
          let ml := ml + 4
          let p := pick e ml l
          if p.1 then pure (some (.found p.2 nextS t2 ml nextS), p.2)
          else pure (none, p.2)
        else pure (none, e) : M (Option Found × fastEncL5ND))
      match first with
      | (some r, _) => pure (some r)
      | (none, e) =>
        let t2 := lCandidate.Prev - e.cur
        let b ← inWindowEq src (next % 2 ^ 32) nextS t2
        if b then do
          let ml ← matchlen (nextS + 4) (t2 + 4) src
          let ml := ml + 4
          let p := pick e ml l
          if p.1 then pure (some (.found p.2 nextS t2 ml nextS))
          else pure (some (.found p.2 s t l nextS))
        else pure (some (.found e s t l nextS))
    else pure (some (.found e s t l nextS))
  else pure none

/-- One pass of the inner loop (lines 128-218), entered with the loop's `nextS` and `cv`. -/
def probeStep (e : fastEncL5ND) (src : List Byte) (sLimit nextEmit : Int) (cv : Nat)
    (nextS : Int) : M Probe := do
  let nextHashS := hash4x64 cv tableBits
  let nextHashL := hash7 cv tableBits
  let s := nextS
  let nextS := s + doEvery + ((s - nextEmit) >>> skipLog)
  if nextS > sLimit then pure (.done (.remainder e))
  else do
    let sCandidate := e.table nextHashS
    let lCandidate := e.bTable nextHashL
    let next ← load6432 src nextS
    let entry := s + e.cur
    let e := pushLong (setTable e nextHashS entry) nextHashL entry
    let nextHashS := hash4x64 next tableBits
    let nextHashL := hash7 next tableBits
    let r ← probeLong e src cv s nextS lCandidate nextHashS nextHashL
    match r with
    | some p => pure (.done p)
    | none =>
      let r ← probeShort e src cv next s nextS sCandidate nextHashS nextHashL
      match r with
      | some p => pure (.done p)
      | none => pure (.next e next nextS)

/-- The inner loop `for { ... }` of lines 127-219. -/
def probe : Nat → fastEncL5ND → List Byte → Int → Int → Nat → Int → M Found
  | 0, _, _, _, _, _, _ => .error .fuel
  | fuel + 1, e, src, sLimit, nextEmit, cv, nextS =>
    match probeStep e src sLimit nextEmit cv nextS with
    | .error err => .error err
    | .ok (.next e cv nextS) => probe fuel e src sLimit nextEmit cv nextS
    | .ok (.done r) => .ok r

/-! ## `Encode`: after a match is found (lines 225-361) -/

/-- Lines 225-230: the forward extension of the match.  Returns the new `l`. -/
def extendForward (src : List Byte) (s t l : Int) : M Int :=
  if l = 0 then do
    let m ← matchlenLong (s + 4) (t + 4) src
    pure (m + 4)
  else if l = maxMatchLength then do
    let m ← matchlenLong (s + l) (t + l) src
    pure (l + m)
  else pure l

/-- Lines 232-244: the look-ahead improvement at the end of the match.  Returns the new
`(t, l)`. -/
def lookAhead (e : fastEncL5ND) (src : List Byte) (sLimit s t l : Int) : M (Int × Int) := do
  let sAt := s + l
  if l < 30 ∧ sAt < sLimit then do
    let x ← load6432 src sAt
    let eLong := (e.bTable (hash7 x tableBits)).Cur
    let t2 := eLong - e.cur - l
    let off := s - t2
    if t2 ≥ 0 ∧ off < maxMatchOffset ∧ off > 0 then do
      let l2 ← matchlenLong s t2 src
      if l2 > l then pure (t2, l2) else pure (t, l)
    else pure (t, l)
  else pure (t, l)

/-- The loop condition `t > 0 && s > nextEmit && src[t-1] == src[s-1]` of line 247. -/
def backCond (src : List Byte) (nextEmit s t : Int) : M Bool :=
  if t > 0 ∧ s > nextEmit then do
    let a ← index src (t - 1)
    let b ← index src (s - 1)
    pure (decide (a = b))
  else pure false

/-- The loop "Extend backwards" of lines 247-251.  Returns the new `(s, t, l)`. -/
def extendBack : Nat → List Byte → Int → Int → Int → Int → M (Int × Int × Int)
  | 0, src, nextEmit, s, t, l => do
    let c ← backCond src nextEmit s t
    if c then .error .fuel else pure (s, t, l)
  | fuel + 1, src, nextEmit, s, t, l => do
    let c ← backCond src nextEmit s t
    if c then extendBack fuel src nextEmit (s - 1) (t - 1) (l + 1) else pure (s, t, l)

/-- Lines 252-262: the randomized one-byte shave.  Returns the encoder (its bit source
advanced) and the new `(s, t, l)`. -/
def shave (e : fastEncL5ND) (s t l : Int) : fastEncL5ND × Int × Int × Int :=
  if l > baseMatchLength + 1 then
    let r1 := Rng e
    if r1.1 then
      let r2 := Rng r1.2
      if r2.1 then (r2.2, s + 1, t + 1, l - 1) else (r2.2, s, t, l - 1)
    else (r1.2, s, t, l)
  else (e, s, t, l)

/-- Lines 263-273: the literal run `src[nextEmit:s]` before the match. -/
def emitPending (dst : tokens) (src : List Byte) (nextEmit s : Int) : M tokens :=
  if nextEmit < s then do
    let lit ← slice src nextEmit s
    pure (emitLiteral dst lit)
  else pure dst

/-- The loop `for toEmit > 0 { ... }` of lines 288-305, which writes the match in chunks;
`off` is the `uint32` offset of line 285.  The fuel of the inner `AddMatchLong` is the
length it is handed. -/
def emitMatch : Nat → fastEncL5ND → tokens → List Byte → Int → Int → Nat →
    M (fastEncL5ND × tokens)
  | 0, e, dst, _, _, toEmit, _ => if toEmit > 0 then .error .fuel else .ok (e, dst)
  | fuel + 1, e, dst, src, s, toEmit, off =>
    if toEmit > 0 then
      if toEmit > maxMatchLength + baseMatchLength then
        let r := Rng e
        if r.1 then
          let dst := AddMatch dst (maxMatchLength - baseMatchLength).toNat off
          emitMatch fuel r.2 dst src (s + maxMatchLength) (toEmit - maxMatchLength) off
        else
          match index src s with
          | .error err => .error err
          | .ok v =>
            let dst := AddLiteral dst v
            let dst := AddMatch dst (maxMatchLength - baseMatchLength).toNat off
            emitMatch fuel r.2 dst src (s + 1 + maxMatchLength) (toEmit - 1 - maxMatchLength) off
      else
        match AddMatchLong toEmit.toNat dst toEmit off with
        | .error err => .error err
        | .ok dst => .ok (e, dst)
    else .ok (e, dst)

/-- The loop `for ; i < s-1; i += hashEvery { if e.Rng() { ... } }` of lines 339-348. -/
def refreshLoop : Nat → fastEncL5ND → List Byte → Int → Int → M fastEncL5ND
  | 0, e, _, i, s => if i < s - 1 then .error .fuel else .ok e
  | fuel + 1, e, src, i, s =>
    if i < s - 1 then
      let r := Rng e
      if r.1 then
        match load6432 src i with
        | .error err => .error err
        | .ok cv =>
          let t := i + r.2.cur
          let t2 := t + 1
          let e := pushLong r.2 (hash7 cv tableBits) t
          let e := setTable e (hash4u ((cv >>> 8) % 2 ^ 32) tableBits) t2
          refreshLoop fuel e src (i + hashEvery) s
      else refreshLoop fuel r.2 src (i + hashEvery) s
    else .ok e

/-- Lines 315-350: "Store every 3rd hash in-between"; `s` is the new scan position and
`l` the length of the match just written. -/
def refresh (fuel : Nat) (e : fastEncL5ND) (src : List Byte) (s l : Int) : M fastEncL5ND := do
  let i := s - l + 1
  if i < s - 1 then do
    let cv ← load6432 src i
    let t := i + e.cur
    let e := setTable e (hash4x64 cv tableBits) t
    let e := pushLong e (hash7 cv tableBits) t
    let cv := cv >>> 8
    let t := t + 1
    let e := pushLong e (hash7 cv tableBits) t
    let cv := cv >>> 8
    let t := t + 1
    let e := setTable e (hash4x64 cv tableBits) t
    refreshLoop fuel e src (i + 4) s
  else pure e

/-- Lines 354-361: the hash update at `s - 1`; returns the encoder and the new `cv`. -/
def reinsert (e : fastEncL5ND) (src : List Byte) (s : Int) : M (fastEncL5ND × Nat) := do
  let x ← load6432 src (s - 1)
  let o := e.cur + s - 1
  let e := setTable e (hash4x64 x tableBits) o
  let e := pushLong e (hash7 x tableBits) o
  pure (e, x >>> 8)

/-! ## `Encode`: the outer loop and the whole call -/

/-- How one pass of the outer loop ends: `again` loops with the new `nextEmit`, `cv` and
`s`; `finish` is `goto emitRemainder` with the final `nextEmit`. -/
inductive Outer where
  | again (e : fastEncL5ND) (dst : tokens) (nextEmit : Int) (cv : Nat) (s : Int)
  | finish (e : fastEncL5ND) (dst : tokens) (nextEmit : Int)

/-- Lines 225-361, entered with the match `(s, t, l)` the probe loop found and its
`nextS`.  The debug assertions of lines 274-284 are compiled out (`debugDeflate` is a
false constant). -/
def afterMatch (fuel : Nat) (e : fastEncL5ND) (dst : tokens) (src : List Byte)
    (sLimit nextEmit s t l nextS : Int) : M Outer := do
  let l ← extendForward src s t l
  let (t, l) ← lookAhead e src sLimit s t l
  let (s, t, l) ← extendBack fuel src nextEmit s t l
  let (e, s, t, l) := shave e s t l
  let dst ← emitPending dst src nextEmit s
  let off := ((s - t - baseMatchOffset) % 2 ^ 32).toNat
  let nextEmit := s + l
  let (e, dst) ← emitMatch fuel e dst src s l off
  let s := nextEmit
  let s := if nextS ≥ s then nextS + 1 else s
  if s ≥ sLimit then pure (.finish e dst nextEmit)
  else do
    let e ← refresh fuel e src s l
    let (e, cv) ← reinsert e src s
    pure (.again e dst nextEmit cv s)

/-- One pass of the outer loop (lines 120-362). -/
def outerStep (fuel : Nat) (e : fastEncL5ND) (dst : tokens) (src : List Byte)
    (sLimit nextEmit : Int) (cv : Nat) (s : Int) : M Outer := do
  let r ← probe fuel e src sLimit nextEmit cv s
  match r with
  | .remainder e => pure (.finish e dst nextEmit)
  | .found e s t l nextS => afterMatch fuel e dst src sLimit nextEmit s t l nextS

/-- The outer loop `for { ... }` of lines 120-362: runs until `goto emitRemainder`.  The
first argument bounds its passes, the second is the fuel handed to the inner loops. -/
def outer : Nat → Nat → fastEncL5ND → tokens → List Byte → Int → Int → Nat → Int →
    M (fastEncL5ND × tokens × Int)
  | 0, _, _, _, _, _, _, _, _ => .error .fuel
  | n + 1, fuel, e, dst, src, sLimit, nextEmit, cv, s =>
    match outerStep fuel e dst src sLimit nextEmit cv s with
    | .error err => .error err
    | .ok (.again e dst nextEmit cv s) => outer n fuel e dst src sLimit nextEmit cv s
    | .ok (.finish e dst nextEmit) => .ok (e, dst, nextEmit)

/-- The label `emitRemainder` (lines 364-372). -/
def emitRemainder (dst : tokens) (src : List Byte) (nextEmit : Int) : M tokens :=
  if nextEmit < src.length then
    if dst.n = 0 then pure dst
    else do
      let lit ← slice src nextEmit src.length
      pure (emitLiteral dst lit)
  else pure dst

/-- The method `Encode(dst, src)`.  `rnd` is what the random source delivers should
`InitRNG` run.  Every loop gets the fuel `len(hist) + len(src) + 1`. -/
def Encode (e : fastEncL5ND) (dst : tokens) (src : List Byte) (rnd : Option (Nat → Byte)) :
    M (fastEncL5ND × tokens) := do
  let fuel := e.hist.length + src.length + 1
  let e ← rngInitDo e rnd
  let e ← rebaseLoop fuel e
  let (s, e) ← addBlock e src
  if (src.length : Int) < minNonLiteralBlockSize then
    pure (e, { dst with n := src.length % 2 ^ 16 })
  else do
    let src := e.hist
    let nextEmit := s
    let sLimit := (src.length : Int) - inputMargin
    let cv ← load6432 src s
    let (e, dst, nextEmit) ← outer fuel fuel e dst src sLimit nextEmit cv s
    let dst ← emitRemainder dst src nextEmit
    pure (e, dst)

/-! ## A standard LZ77 decoder -/

/-- Copy `n` bytes from `dist` bytes back, one at a time (the copy may overlap its own
output); fails when the source is not inside the bytes produced. -/
def copyBack (out : List Byte) (dist : Nat) : Nat → Option (List Byte)
  | 0 => some out
  | n + 1 =>
    if 0 < dist ∧ dist ≤ out.length then
      copyBack (out ++ [out.getD (out.length - dist) 0]) dist n
    else none

/-- Decode a token stream onto the bytes already produced: a literal appends its byte,
a match copies `length` bytes from `distance` bytes back. -/
def decode : List token → List Byte → Option (List Byte)
  | [], out => some out
  | token.literal b :: r, out => decode r (out ++ [b])
  | token.matchTok xl xo :: r, out =>
    match copyBack out (xo + baseMatchOffset.toNat) (xl + baseMatchLength.toNat) with
    | some out => decode r out
    | none => none

/-- A fresh sink: no token, an all-zero histogram, all slots zero-valued. -/
def emptyTokens : tokens :=
  { litHist := fun _ => 0, n := 0, tokens := fun _ => token.literal 0 }

/-- A fresh encoder: empty history, all-zero tables, `cur = c`; the bit source holds the
table `tab` with both cursors at 0. -/
def freshEnc (c : Int) (tab : Nat → Byte) : fastEncL5ND :=
  { hist := [], cur := c, table := fun _ => 0, bTable := fun _ => ⟨0, 0⟩,
    rngInit := true, rngTab := tab, rngPos := 0, rngBit := 0 }
/-! ## Predicates of the specification -/

/-- A match of length `l` between the window positions `s` and `t`. -/
def MatchAt (src : List Byte) (s t l : Int) : Prop :=
  ∀ k : Int, 0 ≤ k → k < l → byteAt src (t + k) = byteAt src (s + k)

/-- A stored position `v` is either out of every window (at least `maxMatchOffset` behind
the start of the buffer) or the absolute position of a window index below `bound`. -/
def Valid (cur bound v : Int) : Prop :=
  v - cur ≤ -maxMatchOffset ∨ (0 ≤ v - cur ∧ v - cur < bound)

/-- Every entry of both tables is `Valid` for the bound. -/
def TabOK (e : fastEncL5ND) (bound : Int) : Prop :=
  ∀ i, Valid e.cur bound (e.table i) ∧ Valid e.cur bound (e.bTable i).Cur ∧
    Valid e.cur bound (e.bTable i).Prev

/-- A stored position `v`, seen from a scan that never goes below the window index `lo`:
either it fails the window test of every scan position (its window index is at least
`maxMatchOffset` below `lo`), or it is the absolute position of a window index below
`bound`. -/
def ValidFrom (lo cur bound v : Int) : Prop :=
  v - cur ≤ lo - maxMatchOffset ∨ (0 ≤ v - cur ∧ v - cur < bound)

/-- Every entry of both tables is `ValidFrom lo` for the bound, and `lo` is a window
index. -/
def TabFrom (lo : Int) (e : fastEncL5ND) (bound : Int) : Prop :=
  0 ≤ lo ∧ ∀ i, ValidFrom lo e.cur bound (e.table i) ∧
    ValidFrom lo e.cur bound (e.bTable i).Cur ∧ ValidFrom lo e.cur bound (e.bTable i).Prev

/-- The fields a scan never changes. -/
def Same (e e' : fastEncL5ND) : Prop :=
  e'.hist = e.hist ∧ e'.cur = e.cur ∧ e'.rngInit = e.rngInit ∧ e'.rngTab = e.rngTab

/-- The token list `L` is an LZ77 parse of the window bytes from index `a` up to index
`b`: a literal is the byte at its position; a match has a length in
`[baseMatchLength, maxMatchLength]`, a distance in `[1, maxMatchOffset]` that does not
reach before the start of the window, and repeats the bytes found that far back. -/
def Parse (src : List Byte) : Int → List token → Int → Prop
  | a, [], b => a = b
  | a, token.literal v :: L, b =>
    0 ≤ a ∧ a < src.length ∧ v.val = byteAt src a ∧ Parse src (a + 1) L b
  | a, token.matchTok xl xo :: L, b =>
    xl ≤ 255 ∧ xo < 32768 ∧ (xo : Int) + 1 ≤ a ∧ a + xl + 3 ≤ src.length ∧
    MatchAt src a (a - (xo + 1)) (xl + 3) ∧ Parse src (a + xl + 3) L b

/-- The sink, filled from empty, holds exactly the token list `L`. -/
def Sink (dst : tokens) (L : List token) : Prop :=
  dst.n = L.length ∧ toks dst = L ∧
    ∀ w : Byte, dst.litHist w.val = L.count (token.literal w)

/-- What the probe loop guarantees when it leaves pass `(s0, nextS0)` with a match: the
match starts at `s0` or at `nextS0`, its source is an earlier window position inside the
window, its first four bytes agree, and a length already computed is the length of a
match. -/
def FoundOK (lo : Int) (src : List Byte) (e : fastEncL5ND) (s0 nextS0 : Int) : Found → Prop
  | .remainder _ => False
  | .found e' s t l nextS =>
    Same e e' ∧ TabFrom lo e' (nextS + 1) ∧ nextS = nextS0 ∧ s0 ≤ s ∧ s ≤ nextS0 ∧
    0 ≤ t ∧ t < s ∧ s - t < maxMatchOffset ∧ MatchAt src s t 4 ∧
    (l = 0 ∨ (4 ≤ l ∧ l ≤ maxMatchLength ∧ s + l ≤ src.length ∧ MatchAt src s t l))

/-- What one pass of the probe loop at `s` guarantees. -/
def ProbeOK (lo : Int) (src : List Byte) (e : fastEncL5ND) (sLimit s : Int) : Probe → Prop
  | .next e' cv' nextS' =>
    Same e e' ∧ TabFrom lo e' nextS' ∧ s < nextS' ∧ nextS' ≤ sLimit ∧
      cv' % 2 ^ 32 = le32 src nextS'
  | .done (.remainder e') => e' = e
  | .done (.found e' s' t l nextS) =>
    s < nextS ∧ nextS ≤ sLimit ∧ FoundOK lo src e s nextS (.found e' s' t l nextS)

/-- What the probe loop entered at `s` guarantees. -/
def LoopOK (lo : Int) (src : List Byte) (e : fastEncL5ND) (sLimit s : Int) : Found → Prop
  | .remainder e' => Same e e' ∧ TabFrom lo e' (sLimit + 1)
  | .found e' s' t l nextS =>
    s < nextS ∧ nextS ≤ sLimit ∧ FoundOK lo src e s nextS (.found e' s' t l nextS)

/-- The sink, filled from empty, holds an LZ77 parse of the window bytes from `s0` up to
`a`; the encoded offset of every match token in it satisfies `Q`; and, when `m` holds, it
holds at least one match token. -/
def Emit (Q : Nat → Prop) (m : Prop) (src : List Byte) (s0 : Int) (dst : tokens) (a : Int) :
    Prop :=
  ∃ L, Sink dst L ∧ Parse src s0 L a ∧ (∀ xl xo, token.matchTok xl xo ∈ L → Q xo) ∧
    (m → ∃ xl xo, token.matchTok xl xo ∈ L)

/-- The fields a scan never changes, and both tables. -/
def SameT (e e' : fastEncL5ND) : Prop :=
  Same e e' ∧ e'.table = e.table ∧ e'.bTable = e.bTable

/-- Writing into the sink extends a parse up to `a` to a parse up to `a'`, as long as
the block fits the sink (`maxStoreBlockSize` bytes). -/
def Emits (Q : Nat → Prop) (m m' : Prop) (src : List Byte) (s0 : Int) (dst : tokens) (a : Int)
    (dst' : tokens) (a' : Int) : Prop :=
  (src.length : Int) - s0 ≤ 65535 → Emit Q m src s0 dst a → Emit Q m' src s0 dst' a'

/-- What one pass of the outer loop, entered at `s` with `nextEmit` and the sink `dst`,
guarantees. -/
def OuterOK (lo : Int) (Q : Nat → Prop) (m : Prop) (src : List Byte) (s0 : Int)
    (e : fastEncL5ND) (dst : tokens) (sLimit nextEmit s : Int) : Outer → Prop
  | .again e' dst' nextEmit' cv' s' =>
    Same e e' ∧ TabFrom lo e' s' ∧ Emits Q m m src s0 dst nextEmit dst' nextEmit' ∧
      nextEmit < nextEmit' ∧ nextEmit' ≤ s' ∧ s < s' ∧ s' < sLimit ∧
      cv' % 2 ^ 32 = le32 src s'
  | .finish e' dst' nextEmit' =>
    Same e e' ∧ TabFrom lo e' (sLimit + 1) ∧ Emits Q m m src s0 dst nextEmit dst' nextEmit' ∧
      nextEmit ≤ nextEmit' ∧ nextEmit' ≤ src.length

/-- The invariant of the encoder states reachable from a fresh encoder: `cur` is at least
`maxMatchOffset`; every stored position is the position of a byte of the history, or lies
at least `maxMatchOffset` before its end (so that no later scan position accepts it); the
history fits its buffer; and the absolute position of its end is an `int32`. -/
def Inv (e : fastEncL5ND) : Prop :=
  maxMatchOffset ≤ e.cur ∧ TabFrom e.hist.length e e.hist.length ∧
    e.hist.length ≤ allocHistory ∧ e.cur + (e.hist.length : Int) < 2 ^ 31

/-! ## Vocabulary of the claims -/

/-- A fresh encoder: empty history, all-zero hash tables, `cur ≥ maxMatchOffset` (and
`cur` an `int32`); the bit source is in any state. -/
def Fresh (e : fastEncL5ND) : Prop :=
  e.hist = [] ∧ (∀ i, e.table i = 0) ∧ (∀ i, e.bTable i = ⟨0, 0⟩) ∧ maxMatchOffset ≤ e.cur ∧
    e.cur < 2 ^ 31

/-- An empty sink: no token counted and an all-zero literal histogram (the slots of the
token array may hold anything). -/
def EmptySink (dst : tokens) : Prop :=
  dst.n = 0 ∧ ∀ w : Byte, dst.litHist w.val = 0

/-- The encoder states reached from a fresh encoder by calls of `Encode` that returned,
each on a block within the caller's bound `maxStoreBlockSize` (the capacity of the sink).
The history of such a state has been moved down whenever a block did not fit behind it. -/
inductive Reachable : fastEncL5ND → Prop where
  | fresh (e : fastEncL5ND) : Fresh e → Reachable e
  | step (e : fastEncL5ND) (dst : tokens) (S : List Byte) (rnd : Option (Nat → Byte))
      (e' : fastEncL5ND) (dst' : tokens) :
      Reachable e → S.length ≤ maxStoreBlockSize → Encode e dst S rnd = .ok (e', dst') →
      Reachable e'

/-- `Encode` followed by a standard LZ77 decoder run over `dst.tokens[0..dst.n)`, started
on the history the encoder held before the call. -/
def encodeDecode (e : fastEncL5ND) (dst : tokens) (S : List Byte)
    (rnd : Option (Nat → Byte)) : Option (List Byte) :=
  match Encode e dst S rnd with
  | .ok (_, dst') => decode (toks dst') e.hist
  | .error _ => none

/-- The token count `dst.n` that `Encode` leaves (`none` when it does not return). -/
def encodeCount (e : fastEncL5ND) (dst : tokens) (S : List Byte)
    (rnd : Option (Nat → Byte)) : Option Nat :=
  match Encode e dst S rnd with
  | .ok (_, dst') => some dst'.n
  | .error _ => none

/-- The bounds of the match tokens of a token stream written from window index `pos` on:
every match has a length in `[baseMatchLength, maxMatchLength]` (its length field, which
holds `uint32(length - baseMatchLength)`, did not wrap), a distance `d` with
`0 < d ≤ maxMatchOffset`, and a copy source `t = s - d` with `0 ≤ t < s`, where `s` is the
window index at which the match is emitted. -/
def MatchBounds : Int → List token → Prop
  | _, [] => True
  | s, token.literal _ :: L => MatchBounds (s + 1) L
  | s, token.matchTok xl xo :: L =>
    baseMatchLength ≤ (xl : Int) + baseMatchLength ∧
    (xl : Int) + baseMatchLength ≤ maxMatchLength ∧
    0 < (xo : Int) + baseMatchOffset ∧ (xo : Int) + baseMatchOffset ≤ maxMatchOffset ∧
    0 ≤ s - ((xo : Int) + baseMatchOffset) ∧ s - ((xo : Int) + baseMatchOffset) < s ∧
    MatchBounds (s + xl + baseMatchLength) L

/-- The tokens a call of `Encode` on an empty sink wrote: none for a block below
`minNonLiteralBlockSize`, else `dst.tokens[0..dst.n)`. -/
def written (S : List Byte) (dst' : tokens) : List token :=
  if (S.length : Int) < minNonLiteralBlockSize then [] else toks dst'

/-- Whether a token is a literal. -/
def token.isLiteral : token → Bool
  | token.literal _ => true
  | token.matchTok _ _ => false

/-- An encoder state due for rebasing (one byte of history, so `minOff = cur - 32767`)
whose chained slots hold a `Cur` that has left the window (`cur - 32768`) and a later
`Prev` that is still inside it (`cur - 32766`). -/
def staleCurState : fastEncL5ND :=
  { hist := [0], cur := bufferReset, table := fun _ => 0,
    bTable := fun _ => ⟨bufferReset - 32768, bufferReset - 32766⟩,
    rngInit := true, rngTab := fun _ => 0, rngPos := 0, rngBit := 0 }

/-- The bytes `a, a + 1, ..., a + n - 1` (modulo 256). -/
def ascending (a n : Nat) : List Byte := (List.range n).map fun j => Fin.ofNat (a + j)

/-- A block on which `Encode` leaves a chained slot whose `Prev` is later than its `Cur`:
128 bytes without a repeated 4-gram, holding `ca ba bx` at 10, then `ca ba ba ba ba`
at 128.  The scan reaches 128 with a step of 3, stores 128 and 131, and the refresh after
the match stores 129 into the slot that already holds 131. -/
def crossedBlock : List Byte :=
  ascending 0 10 ++ [202, 200, 201, 200, 201, 203] ++ ascending 16 112 ++
  [202, 200, 201, 200, 201, 200, 201, 200, 201, 200, 50] ++ ascending 139 30

/-- Slot `i` of the chained table after `Encode` (`none` when it does not return). -/
def encodeSlot (e : fastEncL5ND) (dst : tokens) (S : List Byte)
    (rnd : Option (Nat → Byte)) (i : Nat) : Option tableEntryPrev :=
  match Encode e dst S rnd with
  | .ok (e', _) => some (e'.bTable i)
  | .error _ => none

/-- The `Prev` field of slot `i` of the chained table after the rebasing prelude. -/
def rebasedPrev (e : fastEncL5ND) (i : Nat) : Option Int :=
  match rebaseLoop 1 e with
  | .ok e' => some (e'.bTable i).Prev
  | .error _ => none

/-- What rebasing `e` into `e'` guarantees for a stored position `v` that became `v'`: a
non-zero `v'` has the window index `v` had, and that index is greater than
`len(hist) - maxMatchOffset`; a `v` at or before `cur + len(hist) - maxMatchOffset` became
zero. -/
def Kept (e e' : fastEncL5ND) (v v' : Int) : Prop :=
  (v' ≠ 0 → v' - e'.cur = v - e.cur ∧ v - e.cur > (e.hist.length : Int) - maxMatchOffset) ∧
  (v ≤ e.cur + (e.hist.length : Int) - maxMatchOffset → v' = 0)

/-- The token stream `dst.tokens[0..dst.n)` that `Encode` leaves (`none` when it does not
return). -/
def encodeToks (e : fastEncL5ND) (dst : tokens) (S : List Byte)
    (rnd : Option (Nat → Byte)) : Option (List token) :=
  match Encode e dst S rnd with
  | .ok (_, dst') => some (toks dst')
  | .error _ => none

/-- Both hash tables are all-zero and `cur ≥ maxMatchOffset`. -/
def ZeroTables (e : fastEncL5ND) : Prop :=
  (∀ i, e.table i = 0) ∧ (∀ i, e.bTable i = ⟨0, 0⟩) ∧ maxMatchOffset ≤ e.cur
/-! ## Vocabulary of the claims on the bit source, the scan and the emission -/

/-- The encoder after `k` calls of `Rng`. -/
def rngIter : Nat → fastEncL5ND → fastEncL5ND
  | 0, e => e
  | k + 1, e => rngIter k (Rng e).2

/-- The bit that call number `k` of `Rng` returns (`k = 0` is the first call). -/
def draw (e : fastEncL5ND) (k : Nat) : Bool :=
  (Rng (rngIter k e)).1

/-- Bit `j` of the byte `b`, bit 0 being the least significant. -/
def bitOf (b : Byte) (j : Nat) : Bool :=
  decide (b.val / 2 ^ j % 2 = 1)

/-- The encoder with its bit cursor set to `(pos, bit)`. -/
def atCursor (e : fastEncL5ND) (pos bit : Nat) : fastEncL5ND :=
  { e with rngPos := pos, rngBit := bit }

/-- `Encode` up to the label `emitRemainder` (lines 47-362), for a block of at least
`minNonLiteralBlockSize` bytes: the seeding, the rebasing prelude, `addBlock` and the scan.
Returns the encoder, the sink and `nextEmit` as they are when the scan position has passed
the safe limit. -/
def scanBlock (e : fastEncL5ND) (dst : tokens) (src : List Byte) (rnd : Option (Nat → Byte)) :
    M (fastEncL5ND × tokens × Int) := do
  let fuel := e.hist.length + src.length + 1
  let e ← rngInitDo e rnd
  let e ← rebaseLoop fuel e
  let (s, e) ← addBlock e src
  let src := e.hist
  let nextEmit := s
  let sLimit := (src.length : Int) - inputMargin
  let cv ← load6432 src s
  outer fuel fuel e dst src sLimit nextEmit cv s

/-- The `nextEmit` with which the scan of `Encode` reaches `emitRemainder` (`none` when
the scan does not return). -/
def scanNextEmit (e : fastEncL5ND) (dst : tokens) (src : List Byte)
    (rnd : Option (Nat → Byte)) : Option Int :=
  match scanBlock e dst src rnd with
  | .ok (_, _, nextEmit) => some nextEmit
  | .error _ => none

/-- The number of window bytes a token stands for. -/
def spanOf : List token → Int
  | [] => 0
  | token.literal _ :: L => 1 + spanOf L
  | token.matchTok xl _ :: L => (xl : Int) + baseMatchLength + spanOf L

/-- The token list `L` is the chunked form of one match with encoded offset `off` over the
window bytes from index `a` up to index `b`: match tokens that all carry `off` and have a
length in `[baseMatchLength, maxMatchLength]`, a literal only as the single byte at its
window index in front of a chunk of `maxMatchLength`. -/
def Chunks (src : List Byte) (off : Nat) : Int → List token → Int → Prop
  | a, [], b => a = b
  | a, token.matchTok xl xo :: L, b =>
    xo = off ∧ baseMatchLength ≤ (xl : Int) + baseMatchLength ∧
    (xl : Int) + baseMatchLength ≤ maxMatchLength ∧
    Chunks src off (a + ((xl : Int) + baseMatchLength)) L b
  | a, token.literal v :: token.matchTok xl xo :: L, b =>
    0 ≤ a ∧ a < src.length ∧ v.val = byteAt src a ∧ xo = off ∧
    (xl : Int) + baseMatchLength = maxMatchLength ∧
    Chunks src off (a + 1 + maxMatchLength) L b
  | _, token.literal _ :: _, _ => False

/-- The sink `dst'` is the sink `dst` with the tokens `L` appended. -/
def Wrote (dst dst' : tokens) (L : List token) : Prop :=
  toks dst' = toks dst ++ L ∧ dst'.n = dst.n + L.length

/-- A valid match in the window, not yet emitted: `(s, t, l)` with `0 ≤ t < s`,
`s - t < maxMatchOffset`, `l ≥ 4`, `s ≥ nextEmit`, inside the window, whose `l` bytes at
`s` repeat those at `t`. -/
def ValidMatch (src : List Byte) (nextEmit s t l : Int) : Prop :=
  0 ≤ t ∧ t < s ∧ s - t < maxMatchOffset ∧ 4 ≤ l ∧ nextEmit ≤ s ∧ s + l ≤ src.length ∧
    MatchAt src s t l

/-- The match tokens of a token stream written from window index `s` on, each as the pair
of the window index at which it starts and its distance. -/
def matchStarts : Int → List token → List (Int × Int)
  | _, [] => []
  | s, token.literal _ :: L => matchStarts (s + 1) L
  | s, token.matchTok xl xo :: L =>
    (s, (xo : Int) + baseMatchOffset) :: matchStarts (s + xl + baseMatchLength) L

/-- The sink with which a pass of the outer loop ends. -/
def Outer.sink : Outer → tokens
  | .again _ dst _ _ _ => dst
  | .finish _ dst _ => dst

theorem byteAt_lt (b : List Byte) (i : Int) : byteAt b i < 256 := by
  unfold byteAt
  split
  · omega
  · exact (b.getD i.toNat 0).isLt

theorem load3232_ok (b : List Byte) (i : Int) (h0 : 0 ≤ i) (h1 : i + 4 ≤ b.length) :
    load3232 b i = .ok (le32 b i) := by
  unfold load3232
  rw [if_pos ⟨h0, h1⟩]

theorem load6432_ok (b : List Byte) (i : Int) (h0 : 0 ≤ i) (h1 : i + 8 ≤ b.length) :
    load6432 b i = .ok (le64 b i) := by
  unfold load6432
  rw [if_pos ⟨h0, h1⟩]

/-- Two equal 4-byte loads read the same four bytes. -/
theorem le32_eq_bytes (b : List Byte) (i j : Int) (h : le32 b i = le32 b j) :
    byteAt b i = byteAt b j ∧ byteAt b (i + 1) = byteAt b (j + 1) ∧
    byteAt b (i + 2) = byteAt b (j + 2) ∧ byteAt b (i + 3) = byteAt b (j + 3) := by
  unfold le32 at h
  have a0 := byteAt_lt b i
  have a1 := byteAt_lt b (i + 1)
  have a2 := byteAt_lt b (i + 2)
  have a3 := byteAt_lt b (i + 3)
  have b0 := byteAt_lt b j
  have b1 := byteAt_lt b (j + 1)
  have b2 := byteAt_lt b (j + 2)
  have b3 := byteAt_lt b (j + 3)
  omega

theorem le32_lt (b : List Byte) (i : Int) : le32 b i < 4294967296 := by
  unfold le32
  have a0 := byteAt_lt b i
  have a1 := byteAt_lt b (i + 1)
  have a2 := byteAt_lt b (i + 2)
  have a3 := byteAt_lt b (i + 3)
  omega

/-- The low four bytes of an 8-byte load. -/
theorem le64_mod (b : List Byte) (i : Int) : le64 b i % 2 ^ 32 = le32 b i := by
  unfold le64
  have h := le32_lt b i
  norm_num
  omega

/-- Shifting an 8-byte load right by one byte gives, in its low four bytes, the load one
position on. -/
theorem le64_shift_mod (b : List Byte) (i : Int) :
    (le64 b i >>> 8) % 2 ^ 32 = le32 b (i + 1) := by
  rw [Nat.shiftRight_eq_div_pow]
  unfold le64 le32
  have a0 := byteAt_lt b i
  have a1 := byteAt_lt b (i + 1)
  have a2 := byteAt_lt b (i + 2)
  have a3 := byteAt_lt b (i + 3)
  have a4 := byteAt_lt b (i + 4)
  have e1 : i + 1 + 1 = i + 2 := by ring
  have e2 : i + 1 + 2 = i + 3 := by ring
  have e3 : i + 1 + 3 = i + 4 := by ring
  have e4 : i + 4 + 1 = i + 5 := by ring
  have e5 : i + 4 + 2 = i + 6 := by ring
  have e6 : i + 4 + 3 = i + 7 := by ring
  rw [e1, e2, e3, e4, e5, e6]
  have a5 := byteAt_lt b (i + 5)
  have a6 := byteAt_lt b (i + 6)
  have a7 := byteAt_lt b (i + 7)
  norm_num
  omega


theorem MatchAt_of_le32 (src : List Byte) (s t : Int) (h : le32 src s = le32 src t) :
    MatchAt src s t 4 := by
  obtain ⟨h0, h1, h2, h3⟩ := le32_eq_bytes src s t h
  intro k hk0 hk4
  have : k = 0 ∨ k = 1 ∨ k = 2 ∨ k = 3 := by omega
  rcases this with rfl | rfl | rfl | rfl
  · simpa using h0.symm
  · exact h1.symm
  · exact h2.symm
  · exact h3.symm

theorem MatchAt_mono (src : List Byte) (s t l l' : Int) (h : MatchAt src s t l) (hl : l' ≤ l) :
    MatchAt src s t l' := fun k h0 h1 => h k h0 (by omega)

/-- Gluing a match to its continuation. -/
theorem MatchAt_append (src : List Byte) (s t l m : Int) (h1 : MatchAt src s t l)
    (h2 : MatchAt src (s + l) (t + l) m) : MatchAt src s t (l + m) := by
  intro k hk0 hk
  by_cases hkl : k < l
  · exact h1 k hk0 hkl
  · have := h2 (k - l) (by omega) (by omega)
    have e1 : t + l + (k - l) = t + k := by ring
    have e2 : s + l + (k - l) = s + k := by ring
    rwa [e1, e2] at this

theorem MatchAt_shift (src : List Byte) (s t l : Int) (h : MatchAt src s t l) :
    MatchAt src (s + 1) (t + 1) (l - 1) := by
  intro k hk0 hk
  have := h (k + 1) (by omega) (by omega)
  have e1 : t + (k + 1) = t + 1 + k := by ring
  have e2 : s + (k + 1) = s + 1 + k := by ring
  rwa [e1, e2] at this

theorem MatchAt_back (src : List Byte) (s t l : Int) (h : MatchAt src s t l)
    (hb : byteAt src (t - 1) = byteAt src (s - 1)) : MatchAt src (s - 1) (t - 1) (l + 1) := by
  intro k hk0 hk
  by_cases hk1 : k = 0
  · subst hk1; simpa using hb
  · have := h (k - 1) (by omega) (by omega)
    have e1 : t + (k - 1) = t - 1 + k := by ring
    have e2 : s + (k - 1) = s - 1 + k := by ring
    rwa [e1, e2] at this

theorem matchLen_spec : ∀ (a b : List Byte), a.length ≤ b.length →
    ∃ n, matchLen a b = .ok n ∧ n ≤ a.length ∧ ∀ k, k < n → a.getD k 0 = b.getD k 0
  | [], b, _ => ⟨0, by simp [matchLen], by simp, by intro k hk; omega⟩
  | x :: a, [], h => by simp at h
  | x :: a, y :: b, h => by
    have h' : a.length ≤ b.length := by simpa using h
    obtain ⟨n, hn, hle, hk⟩ := matchLen_spec a b h'
    by_cases hxy : x = y
    · refine ⟨n + 1, by simp [matchLen, hxy, hn], by simp; omega, ?_⟩
      intro k hk'
      cases k with
      | zero => simp [hxy]
      | succ k => simpa using hk k (by omega)
    · exact ⟨0, by simp [matchLen, hxy], by simp, by intro k hk; omega⟩

theorem byteAt_drop (src : List Byte) (s : Int) (k : Nat) (hs : 0 ≤ s) :
    ((src.drop s.toNat).getD k 0).val = byteAt src (s + k) := by
  unfold byteAt
  have h : ¬ (s + (k : Int) < 0) := by omega
  rw [if_neg h]
  have e : (s + (k : Int)).toNat = s.toNat + k := by omega
  rw [e]
  simp [List.getD_eq_getElem?_getD, List.getElem?_drop]

theorem slice_ok (b : List Byte) (lo hi : Int) (h0 : 0 ≤ lo) (h1 : lo ≤ hi)
    (h2 : hi ≤ b.length) :
    slice b lo hi = .ok ((b.drop lo.toNat).take (hi - lo).toNat) := by
  unfold slice
  rw [if_pos ⟨h0, h1, h2⟩]

theorem slice_length (b : List Byte) (lo hi : Int) (h0 : 0 ≤ lo) (h1 : lo ≤ hi)
    (h2 : hi ≤ b.length) :
    (((b.drop lo.toNat).take (hi - lo).toNat).length : Int) = hi - lo := by
  simp
  omega

theorem slice_getD (b : List Byte) (lo hi : Int) (k : Nat) (h0 : 0 ≤ lo)
    (hk : (k : Int) < hi - lo) :
    (((b.drop lo.toNat).take (hi - lo).toNat).getD k 0).val = byteAt b (lo + k) := by
  rw [← byteAt_drop b lo k h0]
  have : k < (hi - lo).toNat := by omega
  simp [List.getD_eq_getElem?_getD, List.getElem?_take, this]

/-- The capped forward extension: it succeeds for a source `t ≤ s` inside the window and
returns the length of a match. -/
theorem matchlen_spec (src : List Byte) (s t : Int) (ht : 0 ≤ t) (hts : t ≤ s)
    (hs : s ≤ src.length) :
    ∃ m, matchlen s t src = .ok m ∧ 0 ≤ m ∧ m ≤ maxMatchLength - 4 ∧ s + m ≤ src.length ∧
      MatchAt src s t m := by
  unfold matchlen
  set s1 : Int := if s + maxMatchLength - 4 > src.length then (src.length : Int)
            else s + maxMatchLength - 4 with hs1
  have hs1a : s ≤ s1 := by
    rw [hs1]; unfold maxMatchLength; split <;> omega
  have hs1b : s1 ≤ src.length := by
    rw [hs1]; unfold maxMatchLength; split <;> omega
  have hs1c : s1 - s ≤ maxMatchLength - 4 := by
    rw [hs1]; unfold maxMatchLength; split <;> omega
  have hlen : ((src.drop s.toNat).take (s1 - s).toNat).length ≤
      ((src.drop t.toNat).take ((src.length : Int) - t).toNat).length := by
    have e1 := slice_length src s s1 (by omega) hs1a hs1b
    have e2 := slice_length src t src.length ht (by omega) (le_refl _)
    omega
  obtain ⟨n, hn, hle, hk⟩ := matchLen_spec _ _ hlen
  have e1 := slice_length src s s1 (by omega) hs1a hs1b
  refine ⟨(n : Int), ?_, by omega, by omega, by omega, ?_⟩
  · simp only [slice_ok src s s1 (by omega) hs1a hs1b,
      slice_ok src t src.length ht (by omega) (le_refl _), hn, bind, Except.bind, pure,
      Except.pure]
  · intro k hk0 hkn
    have hkk := hk k.toNat (by omega)
    have hv := congrArg Fin.val hkk
    rw [slice_getD src s s1 k.toNat (by omega) (by omega),
      slice_getD src t src.length k.toNat ht (by omega)] at hv
    have ek : ((k.toNat : Nat) : Int) = k := by omega
    rw [ek] at hv
    exact hv.symm

/-- The uncapped forward extension. -/
theorem matchlenLong_spec (src : List Byte) (s t : Int) (ht : 0 ≤ t) (hts : t ≤ s)
    (hs : s ≤ src.length) :
    ∃ m, matchlenLong s t src = .ok m ∧ 0 ≤ m ∧ s + m ≤ src.length ∧ MatchAt src s t m := by
  unfold matchlenLong
  have hlen : ((src.drop s.toNat).take ((src.length : Int) - s).toNat).length ≤
      ((src.drop t.toNat).take ((src.length : Int) - t).toNat).length := by
    have e1 := slice_length src s src.length (by omega) hs (le_refl _)
    have e2 := slice_length src t src.length ht (by omega) (le_refl _)
    omega
  obtain ⟨n, hn, hle, hk⟩ := matchLen_spec _ _ hlen
  have e1 := slice_length src s src.length (by omega) hs (le_refl _)
  refine ⟨(n : Int), ?_, by omega, by omega, ?_⟩
  · simp only [slice_ok src s src.length (by omega) hs (le_refl _),
      slice_ok src t src.length ht (by omega) (le_refl _), hn, bind, Except.bind, pure,
      Except.pure]
  · intro k hk0 hkn
    have hkk := hk k.toNat (by omega)
    have hv := congrArg Fin.val hkk
    rw [slice_getD src s src.length k.toNat (by omega) (by omega),
      slice_getD src t src.length k.toNat ht (by omega)] at hv
    have ek : ((k.toNat : Nat) : Int) = k := by omega
    rw [ek] at hv
    exact hv.symm
/-! ## The bit source and the tables -/

@[simp]
theorem Rng_hist (e : fastEncL5ND) : (Rng e).2.hist = e.hist := by
  unfold Rng; simp only; split <;> rfl
@[simp]
theorem Rng_cur (e : fastEncL5ND) : (Rng e).2.cur = e.cur := by
  unfold Rng; simp only; split <;> rfl
@[simp]
theorem Rng_table (e : fastEncL5ND) : (Rng e).2.table = e.table := by
  unfold Rng; simp only; split <;> rfl
@[simp]
theorem Rng_bTable (e : fastEncL5ND) : (Rng e).2.bTable = e.bTable := by
  unfold Rng; simp only; split <;> rfl
@[simp]
theorem Rng_rngTab (e : fastEncL5ND) : (Rng e).2.rngTab = e.rngTab := by
  unfold Rng; simp only; split <;> rfl
@[simp]
theorem Rng_rngInit (e : fastEncL5ND) : (Rng e).2.rngInit = e.rngInit := by
  unfold Rng; simp only; split <;> rfl

theorem Same.sRefl (e : fastEncL5ND) : Same e e := ⟨rfl, rfl, rfl, rfl⟩

theorem Same.sTrans {e1 e2 e3 : fastEncL5ND} (h1 : Same e1 e2) (h2 : Same e2 e3) :
    Same e1 e3 :=
  ⟨h2.1.trans h1.1, h2.2.1.trans h1.2.1, h2.2.2.1.trans h1.2.2.1, h2.2.2.2.trans h1.2.2.2⟩

theorem Same_Rng (e : fastEncL5ND) : Same e (Rng e).2 :=
  ⟨Rng_hist e, Rng_cur e, Rng_rngInit e, Rng_rngTab e⟩

theorem Same_setTable (e : fastEncL5ND) (h : Nat) (v : Int) : Same e (setTable e h v) :=
  ⟨rfl, rfl, rfl, rfl⟩

theorem Same_pushLong (e : fastEncL5ND) (h : Nat) (v : Int) : Same e (pushLong e h v) :=
  ⟨rfl, rfl, rfl, rfl⟩

theorem Same_storeNext (e : fastEncL5ND) (h1 h2 : Nat) (v : Int) :
    Same e (storeNext e h1 h2 v) :=
  ⟨rfl, rfl, rfl, rfl⟩

theorem Valid_pos {cur b p : Int} (h0 : 0 ≤ p) (h1 : p < b) : Valid cur b (p + cur) :=
  Or.inr ⟨by omega, by omega⟩

theorem TabOK_Rng {e : fastEncL5ND} {b : Int} (h : TabOK e b) : TabOK (Rng e).2 b := by
  intro i
  simp only [Rng_cur, Rng_table, Rng_bTable]
  exact h i

theorem TabOK_setTable {e : fastEncL5ND} {b : Int} (h : TabOK e b) (k : Nat) (v : Int)
    (hv : Valid e.cur b v) : TabOK (setTable e k v) b := by
  intro i
  refine ⟨?_, (h i).2.1, (h i).2.2⟩
  show Valid e.cur b (upd e.table k v i)
  unfold upd
  split
  · exact hv
  · exact (h i).1

theorem TabOK_pushLong {e : fastEncL5ND} {b : Int} (h : TabOK e b) (k : Nat) (v : Int)
    (hv : Valid e.cur b v) : TabOK (pushLong e k v) b := by
  intro i
  refine ⟨(h i).1, ?_, ?_⟩
  · show Valid e.cur b (upd e.bTable k ⟨v, (e.bTable k).Cur⟩ i).Cur
    unfold upd
    split
    · exact hv
    · exact (h i).2.1
  · show Valid e.cur b (upd e.bTable k ⟨v, (e.bTable k).Cur⟩ i).Prev
    unfold upd
    split
    · exact (h k).2.1
    · exact (h i).2.2

theorem TabOK_storeNext {e : fastEncL5ND} {b : Int} (h : TabOK e b) (k1 k2 : Nat) (p : Int)
    (h0 : 0 ≤ p) (h1 : p < b) : TabOK (storeNext e k1 k2 p) b := by
  unfold storeNext
  exact TabOK_pushLong (TabOK_setTable h k1 _ (Valid_pos h0 h1)) k2 _ (Valid_pos h0 h1)

/-- A `Valid` entry that passes the window test is a real earlier position. -/
theorem Valid_window {cur b v s : Int} (h : Valid cur b v) (hs : 0 ≤ s)
    (hw : s - (v - cur) < maxMatchOffset) : 0 ≤ v - cur ∧ v - cur < b := by
  rcases h with h | h
  · omega
  · exact h

/-- The candidate test on a `Valid` entry never reads outside the window, and accepts only
an earlier position holding the wanted four bytes. -/
theorem inWindowEq_spec (src : List Byte) (want : Nat) (s cur b v : Int)
    (hv : Valid cur b v) (hs : 0 ≤ s) (hb : b ≤ s) (hl : s + 4 ≤ src.length) :
    ∃ r, inWindowEq src want s (v - cur) = .ok r ∧
      (r = true → 0 ≤ v - cur ∧ v - cur < b ∧ s - (v - cur) < maxMatchOffset ∧
        want = le32 src (v - cur)) := by
  unfold inWindowEq
  by_cases hw : s - (v - cur) < maxMatchOffset
  · obtain ⟨h0, h1⟩ := Valid_window hv hs hw
    rw [if_pos hw, load3232_ok src _ h0 (by omega)]
    refine ⟨decide (want = le32 src (v - cur)), rfl, ?_⟩
    intro hd
    exact ⟨h0, h1, hw, of_decide_eq_true hd⟩
  · rw [if_neg hw]
    exact ⟨false, rfl, by simp⟩

theorem pick_Same (e : fastEncL5ND) (ml l : Int) : Same e (pick e ml l).2 := by
  unfold pick
  split
  · exact Same.sRefl e
  · split
    · exact Same_Rng e
    · exact Same.sRefl e

theorem pick_TabOK {e : fastEncL5ND} {b : Int} (h : TabOK e b) (ml l : Int) :
    TabOK (pick e ml l).2 b := by
  unfold pick
  split
  · exact h
  · split
    · exact TabOK_Rng h
    · exact h

/-! ### The tables seen from a scan that starts at `lo` -/

theorem ValidFrom_mono {lo lo' cur b b' v : Int} (h : ValidFrom lo cur b v) (hl : lo ≤ lo')
    (hb : b ≤ b') : ValidFrom lo' cur b' v := by
  rcases h with h | h
  · exact Or.inl (by omega)
  · exact Or.inr ⟨h.1, by omega⟩

theorem ValidFrom_pos {lo cur b p : Int} (h0 : 0 ≤ p) (h1 : p < b) :
    ValidFrom lo cur b (p + cur) :=
  Or.inr ⟨by omega, by omega⟩

theorem TabFrom_mono {lo : Int} {e : fastEncL5ND} {b b' : Int} (h : TabFrom lo e b)
    (hb : b ≤ b') : TabFrom lo e b' :=
  ⟨h.1, fun i => ⟨ValidFrom_mono (h.2 i).1 (le_refl _) hb,
    ValidFrom_mono (h.2 i).2.1 (le_refl _) hb, ValidFrom_mono (h.2 i).2.2 (le_refl _) hb⟩⟩

theorem TabFrom_raise {lo lo' : Int} {e : fastEncL5ND} {b b' : Int} (h : TabFrom lo e b)
    (hl : lo ≤ lo') (hb : b ≤ b') : TabFrom lo' e b' :=
  ⟨le_trans h.1 hl, fun i => ⟨ValidFrom_mono (h.2 i).1 hl hb,
    ValidFrom_mono (h.2 i).2.1 hl hb, ValidFrom_mono (h.2 i).2.2 hl hb⟩⟩

theorem TabFrom_Rng {lo : Int} {e : fastEncL5ND} {b : Int} (h : TabFrom lo e b) :
    TabFrom lo (Rng e).2 b := by
  refine ⟨h.1, fun i => ?_⟩
  simp only [Rng_cur, Rng_table, Rng_bTable]
  exact h.2 i

theorem TabFrom_setTable {lo : Int} {e : fastEncL5ND} {b : Int} (h : TabFrom lo e b) (k : Nat)
    (v : Int) (hv : ValidFrom lo e.cur b v) : TabFrom lo (setTable e k v) b := by
  refine ⟨h.1, fun i => ⟨?_, (h.2 i).2.1, (h.2 i).2.2⟩⟩
  show ValidFrom lo e.cur b (upd e.table k v i)
  unfold upd
  split
  · exact hv
  · exact (h.2 i).1

theorem TabFrom_pushLong {lo : Int} {e : fastEncL5ND} {b : Int} (h : TabFrom lo e b) (k : Nat)
    (v : Int) (hv : ValidFrom lo e.cur b v) : TabFrom lo (pushLong e k v) b := by
  refine ⟨h.1, fun i => ⟨(h.2 i).1, ?_, ?_⟩⟩
  · show ValidFrom lo e.cur b (upd e.bTable k ⟨v, (e.bTable k).Cur⟩ i).Cur
    unfold upd
    split
    · exact hv
    · exact (h.2 i).2.1
  · show ValidFrom lo e.cur b (upd e.bTable k ⟨v, (e.bTable k).Cur⟩ i).Prev
    unfold upd
    split
    · exact (h.2 k).2.1
    · exact (h.2 i).2.2

theorem TabFrom_storeNext {lo : Int} {e : fastEncL5ND} {b : Int} (h : TabFrom lo e b)
    (k1 k2 : Nat) (p : Int) (h0 : 0 ≤ p) (h1 : p < b) : TabFrom lo (storeNext e k1 k2 p) b := by
  unfold storeNext
  exact TabFrom_pushLong (TabFrom_setTable h k1 _ (ValidFrom_pos h0 h1)) k2 _
    (ValidFrom_pos h0 h1)

/-- An entry that passes the window test of a scan position at or above `lo` is a real
earlier position. -/
theorem ValidFrom_window {lo cur b v s : Int} (h : ValidFrom lo cur b v) (hs : lo ≤ s)
    (hw : s - (v - cur) < maxMatchOffset) : 0 ≤ v - cur ∧ v - cur < b := by
  rcases h with h | h
  · omega
  · exact h

/-- The candidate test on an entry never reads outside the window, and accepts only an
earlier position holding the wanted four bytes. -/
theorem inWindowEq_from (src : List Byte) (want : Nat) (lo s cur b v : Int)
    (hv : ValidFrom lo cur b v) (hs : lo ≤ s) (hb : b ≤ s) (hl : s + 4 ≤ src.length) :
    ∃ r, inWindowEq src want s (v - cur) = .ok r ∧
      (r = true → 0 ≤ v - cur ∧ v - cur < b ∧ s - (v - cur) < maxMatchOffset ∧
        want = le32 src (v - cur)) := by
  unfold inWindowEq
  by_cases hw : s - (v - cur) < maxMatchOffset
  · obtain ⟨h0, h1⟩ := ValidFrom_window hv hs hw
    rw [if_pos hw, load3232_ok src _ h0 (by omega)]
    refine ⟨decide (want = le32 src (v - cur)), rfl, ?_⟩
    intro hd
    exact ⟨h0, h1, hw, of_decide_eq_true hd⟩
  · rw [if_neg hw]
    exact ⟨false, rfl, by simp⟩

theorem pick_TabFrom {lo : Int} {e : fastEncL5ND} {b : Int} (h : TabFrom lo e b) (ml l : Int) :
    TabFrom lo (pick e ml l).2 b := by
  unfold pick
  split
  · exact h
  · split
    · exact TabFrom_Rng h
    · exact h
/-! ## The probe loop -/

/-- The capped extension behind a confirmed 4-byte match yields a match of length
`4 ≤ l ≤ maxMatchLength`. -/
theorem matchlen4_spec (src : List Byte) (s t : Int) (ht : 0 ≤ t) (hts : t ≤ s)
    (hs : s + 4 ≤ src.length) (h4 : MatchAt src s t 4) :
    ∃ m, matchlen (s + 4) (t + 4) src = .ok m ∧ 4 ≤ m + 4 ∧ m + 4 ≤ maxMatchLength ∧
      s + (m + 4) ≤ src.length ∧ MatchAt src s t (m + 4) := by
  obtain ⟨m, hm, h0, h1, h2, h3⟩ := matchlen_spec src (s + 4) (t + 4) (by omega) (by omega) hs
  refine ⟨m, hm, by omega, by omega, by omega, ?_⟩
  have := MatchAt_append src s t 4 m h4 h3
  rwa [add_comm] at this

theorem probeLong_spec {lo : Int} (e : fastEncL5ND) (src : List Byte) (cv : Nat)
    (s nextS : Int) (lC : tableEntryPrev) (k1 k2 : Nat)
    (hs0 : lo ≤ s) (hsn : s < nextS) (hn : nextS + 8 ≤ src.length) (hT : TabFrom lo e (s + 1))
    (hC : ValidFrom lo e.cur s lC.Cur) (hP : ValidFrom lo e.cur s lC.Prev)
    (hcv : cv % 2 ^ 32 = le32 src s) :
    ∃ r, probeLong e src cv s nextS lC k1 k2 = .ok r ∧
      ∀ f, r = some f → FoundOK lo src e s nextS f := by
  have hlo := hT.1
  have hT' : TabFrom lo (storeNext e k1 k2 nextS) (nextS + 1) :=
    TabFrom_storeNext (TabFrom_mono hT (by omega)) k1 k2 nextS (by omega) (by omega)
  unfold probeLong
  by_cases hw : s - (lC.Cur - e.cur) < maxMatchOffset
  · obtain ⟨h0, h1⟩ := ValidFrom_window hC hs0 hw
    simp only [hw, if_true, load3232_ok src _ h0 (by omega), bind, Except.bind]
    by_cases hc : cv % 2 ^ 32 = le32 src (lC.Cur - e.cur)
    · have h4 : MatchAt src s (lC.Cur - e.cur) 4 := MatchAt_of_le32 src _ _ (by omega)
      simp only [hc, if_true]
      obtain ⟨b, hb, hb'⟩ := inWindowEq_from src (le32 src (lC.Cur - e.cur)) lo s e.cur s
        lC.Prev hP hs0 (le_refl _) (by omega)
      have hcur : (storeNext e k1 k2 nextS).cur = e.cur := rfl
      rw [hcur, hb]
      cases b with
      | false =>
        refine ⟨_, rfl, ?_⟩
        intro f hf
        simp only [Bool.false_eq_true, if_false, pure, Except.pure, Option.some.injEq] at hf
        subst hf
        exact ⟨Same_storeNext e k1 k2 nextS, hT', rfl, le_refl _, by omega, h0, h1, hw, h4,
          Or.inl rfl⟩
      | true =>
        obtain ⟨p0, p1, pw, pe⟩ := hb' rfl
        have h4' : MatchAt src s (lC.Prev - e.cur) 4 := MatchAt_of_le32 src _ _ (by omega)
        obtain ⟨m, hm, m0, m1, m2, m3⟩ := matchlen4_spec src s (lC.Cur - e.cur) h0
          (by omega) (by omega) h4
        obtain ⟨m', hm', m0', m1', m2', m3'⟩ := matchlen4_spec src s (lC.Prev - e.cur) p0
          (by omega) (by omega) h4'
        simp only [if_true, hm, hm']
        have hS := pick_Same (storeNext e k1 k2 nextS) (m' + 4) (m + 4)
        have hTp := pick_TabFrom hT' (m' + 4) (m + 4)
        by_cases hp : (pick (storeNext e k1 k2 nextS) (m' + 4) (m + 4)).1 = true
        · refine ⟨_, by simp only [hp, if_true]; rfl, ?_⟩
          intro f hf
          simp only [Option.some.injEq] at hf
          subst hf
          exact ⟨(Same_storeNext e k1 k2 nextS).sTrans hS, hTp, rfl, le_refl _, by omega,
            p0, p1, pw, h4', Or.inr ⟨m0', m1', m2', m3'⟩⟩
        · refine ⟨_, by simp only [hp]; rfl, ?_⟩
          intro f hf
          simp only [Option.some.injEq] at hf
          subst hf
          exact ⟨(Same_storeNext e k1 k2 nextS).sTrans hS, hTp, rfl, le_refl _, by omega,
            h0, h1, hw, h4, Or.inr ⟨m0, m1, m2, m3⟩⟩
    · simp only [hc, if_false]
      obtain ⟨b, hb, hb'⟩ := inWindowEq_from src (cv % 2 ^ 32) lo s e.cur s
        lC.Prev hP hs0 (le_refl _) (by omega)
      rw [hb]
      cases b with
      | false =>
        refine ⟨_, rfl, ?_⟩
        intro f hf
        simp [pure, Except.pure] at hf
      | true =>
        obtain ⟨p0, p1, pw, pe⟩ := hb' rfl
        have h4' : MatchAt src s (lC.Prev - e.cur) 4 := MatchAt_of_le32 src _ _ (by omega)
        refine ⟨_, rfl, ?_⟩
        intro f hf
        simp only [if_true, pure, Except.pure, Option.some.injEq] at hf
        subst hf
        exact ⟨Same_storeNext e k1 k2 nextS, hT', rfl, le_refl _, by omega, p0, p1, pw, h4',
          Or.inl rfl⟩
  · simp only [hw, if_false]
    exact ⟨none, rfl, by intro f hf; simp at hf⟩

theorem probeShort_spec {lo : Int} (e : fastEncL5ND) (src : List Byte) (cv next : Nat)
    (s nextS : Int) (sC : Int) (k1 k2 : Nat)
    (hs0 : lo ≤ s) (hsn : s < nextS) (hn : nextS + 8 ≤ src.length) (hT : TabFrom lo e (s + 1))
    (hC : ValidFrom lo e.cur s sC)
    (hcv : cv % 2 ^ 32 = le32 src s) (hnx : next % 2 ^ 32 = le32 src nextS) :
    ∃ r, probeShort e src cv next s nextS sC k1 k2 = .ok r ∧
      ∀ f, r = some f → FoundOK lo src e s nextS f := by
  have hlo := hT.1
  have hT' : TabFrom lo (storeNext e k1 k2 nextS) (nextS + 1) :=
    TabFrom_storeNext (TabFrom_mono hT (by omega)) k1 k2 nextS (by omega) (by omega)
  have hSt := Same_storeNext e k1 k2 nextS
  have hcur : (storeNext e k1 k2 nextS).cur = e.cur := rfl
  unfold probeShort
  obtain ⟨b, hb, hb'⟩ := inWindowEq_from src (cv % 2 ^ 32) lo s e.cur s sC hC hs0 (le_refl _)
    (by omega)
  simp only [hb, bind, Except.bind]
  cases b with
  | false => exact ⟨none, rfl, by intro f hf; simp at hf⟩
  | true =>
    obtain ⟨t0, t1, tw, te⟩ := hb' rfl
    have h4 : MatchAt src s (sC - e.cur) 4 := MatchAt_of_le32 src _ _ (by omega)
    obtain ⟨m, hm, m0, m1, m2, m3⟩ := matchlen4_spec src s (sC - e.cur) t0
      (by omega) (by omega) h4
    simp only [if_true, hm, hcur]
    -- the fall-back result: the match at `s`
    have hback : ∀ e', Same e e' → TabFrom lo e' (nextS + 1) →
        FoundOK lo src e s nextS (.found e' s (sC - e.cur) (m + 4) nextS) := fun e' h1 h2 =>
      ⟨h1, h2, rfl, le_refl _, by omega, t0, t1, tw, h4, Or.inr ⟨m0, m1, m2, m3⟩⟩
    have hVC := (hT.2 k2).2.1
    have hVP := (hT.2 k2).2.2
    by_cases hw : nextS - ((e.bTable k2).Cur - e.cur) < maxMatchOffset
    · obtain ⟨c0, c1⟩ := ValidFrom_window hVC (by omega : lo ≤ nextS) hw
      simp only [hw, if_true, load3232_ok src _ c0 (by omega)]
      -- the second look-ahead candidate, common to both outcomes of the first
      have hsecond : ∀ e', Same e e' → TabFrom lo e' (nextS + 1) →
          ∃ r, (do
            let b ← inWindowEq src (next % 2 ^ 32) nextS ((e.bTable k2).Prev - e'.cur)
            if b = true then do
              let ml ← matchlen (nextS + 4) ((e.bTable k2).Prev - e'.cur + 4) src
              let p := pick e' (ml + 4) (m + 4)
              if p.1 = true then
                pure (some (Found.found p.2 nextS ((e.bTable k2).Prev - e'.cur) (ml + 4) nextS))
              else pure (some (Found.found p.2 s (sC - e.cur) (m + 4) nextS))
            else pure (some (Found.found e' s (sC - e.cur) (m + 4) nextS)) : M (Option Found))
            = .ok r ∧ ∀ f, r = some f → FoundOK lo src e s nextS f := by
        intro e' hS hTe
        rw [hS.2.1]
        obtain ⟨b2, hb2, hb2'⟩ := inWindowEq_from src (next % 2 ^ 32) lo nextS e.cur (s + 1)
          (e.bTable k2).Prev hVP (by omega) (by omega) (by omega)
        simp only [hb2, bind, Except.bind]
        cases b2 with
        | false =>
          refine ⟨_, rfl, ?_⟩
          intro f hf
          simp only [Bool.false_eq_true, if_false, pure, Except.pure, Option.some.injEq] at hf
          subst hf
          exact hback e' hS hTe
        | true =>
          obtain ⟨q0, q1, qw, qe⟩ := hb2' rfl
          have h4q : MatchAt src nextS ((e.bTable k2).Prev - e.cur) 4 :=
            MatchAt_of_le32 src _ _ (by omega)
          obtain ⟨m', hm', m0', m1', m2', m3'⟩ := matchlen4_spec src nextS
            ((e.bTable k2).Prev - e.cur) q0 (by omega) (by omega) h4q
          simp only [if_true, hm']
          have hS2 := pick_Same e' (m' + 4) (m + 4)
          have hT2 := pick_TabFrom hTe (m' + 4) (m + 4)
          by_cases hp : (pick e' (m' + 4) (m + 4)).1 = true
          · refine ⟨_, by simp only [hp, if_true]; rfl, ?_⟩
            intro f hf
            simp only [Option.some.injEq] at hf
            subst hf
            exact ⟨hS.sTrans hS2, hT2, rfl, by omega, le_refl _, q0, by omega, qw, h4q,
              Or.inr ⟨m0', m1', m2', m3'⟩⟩
          · refine ⟨_, by simp only [hp]; rfl, ?_⟩
            intro f hf
            simp only [Option.some.injEq] at hf
            subst hf
            exact hback _ (hS.sTrans hS2) hT2
      by_cases hc : le32 src ((e.bTable k2).Cur - e.cur) = next % 2 ^ 32
      · have h4c : MatchAt src nextS ((e.bTable k2).Cur - e.cur) 4 :=
          MatchAt_of_le32 src _ _ (by omega)
        obtain ⟨m', hm', m0', m1', m2', m3'⟩ := matchlen4_spec src nextS
          ((e.bTable k2).Cur - e.cur) c0 (by omega) (by omega) h4c
        simp only [hc, if_true, hm']
        have hS2 := pick_Same (storeNext e k1 k2 nextS) (m' + 4) (m + 4)
        have hT2 := pick_TabFrom hT' (m' + 4) (m + 4)
        by_cases hp : (pick (storeNext e k1 k2 nextS) (m' + 4) (m + 4)).1 = true
        · refine ⟨_, by simp only [hp, if_true]; rfl, ?_⟩
          intro f hf
          simp only [Option.some.injEq] at hf
          subst hf
          exact ⟨hSt.sTrans hS2, hT2, rfl, by omega, le_refl _, c0, by omega, hw, h4c,
            Or.inr ⟨m0', m1', m2', m3'⟩⟩
        · simp only [hp, Bool.false_eq_true, if_false, pure, Except.pure]
          exact hsecond _ (hSt.sTrans hS2) hT2
      · simp only [hc, if_false, pure, Except.pure]
        exact hsecond _ hSt hT'
    · simp only [hw, if_false]
      refine ⟨_, rfl, ?_⟩
      intro f hf
      simp only [pure, Except.pure, Option.some.injEq] at hf
      subst hf
      exact hback _ hSt hT'

theorem shift_nonneg (m : Int) (h : 0 ≤ m) : 0 ≤ m >>> skipLog := by
  rw [Int.shiftRight_eq_div_pow]
  exact Int.ediv_nonneg h (by positivity)

theorem FoundOK_weaken {lo : Int} (src : List Byte) (e e1 : fastEncL5ND) (s s1 nextS : Int) (f : Found)
    (hS : Same e e1) (hs : s ≤ s1) (h : FoundOK lo src e1 s1 nextS f) :
    FoundOK lo src e s nextS f := by
  cases f with
  | remainder e' => exact h
  | found e' s' t l nextS' =>
    obtain ⟨a1, a2, a3, a4, a5, a6⟩ := h
    exact ⟨hS.sTrans a1, a2, a3, by omega, a5, a6⟩

theorem probeStep_spec {lo : Int} (e : fastEncL5ND) (src : List Byte) (sLimit nextEmit : Int)
    (cv : Nat) (s : Int) (hne : lo ≤ nextEmit) (hs : nextEmit ≤ s) (hL : sLimit + 8 ≤ src.length)
    (hT : TabFrom lo e s) (hcv : cv % 2 ^ 32 = le32 src s) :
    ∃ r, probeStep e src sLimit nextEmit cv s = .ok r ∧ ProbeOK lo src e sLimit s r := by
  unfold probeStep
  have hlo := hT.1
  have hsh := shift_nonneg (s - nextEmit) (by omega)
  simp only []
  by_cases hlim : s + doEvery + ((s - nextEmit) >>> skipLog) > sLimit
  · simp only [hlim, if_true]
    exact ⟨_, rfl, rfl⟩
  · generalize hN : s + doEvery + ((s - nextEmit) >>> skipLog) = nextS at hlim
    have hsn : s < nextS := by unfold doEvery at hN; omega
    have hnl : nextS ≤ sLimit := by omega
    simp only [hlim, if_false, load6432_ok src nextS (by omega) (by omega), bind, Except.bind]
    have hT1 : TabFrom lo (pushLong (setTable e (hash4x64 cv tableBits) (s + e.cur))
        (hash7 cv tableBits) (s + e.cur)) (s + 1) :=
      TabFrom_pushLong (TabFrom_setTable (TabFrom_mono hT (by omega)) _ _
        (ValidFrom_pos (by omega) (by omega))) _ _ (ValidFrom_pos (by omega) (by omega))
    have hS1 : Same e (pushLong (setTable e (hash4x64 cv tableBits) (s + e.cur))
        (hash7 cv tableBits) (s + e.cur)) := ⟨rfl, rfl, rfl, rfl⟩
    obtain ⟨r1, hr1, hf1⟩ := probeLong_spec _ src cv s nextS (e.bTable (hash7 cv tableBits))
      (hash4x64 (le64 src nextS) tableBits) (hash7 (le64 src nextS) tableBits)
      (by omega) hsn (by omega) hT1 (hT.2 _).2.1 (hT.2 _).2.2 hcv
    rw [hr1]
    cases r1 with
    | some f =>
      refine ⟨_, rfl, ?_⟩
      have hF := FoundOK_weaken src e _ s s nextS f hS1 (le_refl _) (hf1 f rfl)
      cases f with
      | remainder e' => exact hF.elim
      | found e' s' t l nextS' =>
        have : nextS' = nextS := hF.2.2.1
        subst this
        exact ⟨hsn, hnl, hF⟩
    | none =>
      obtain ⟨r2, hr2, hf2⟩ := probeShort_spec _ src cv (le64 src nextS) s nextS
        (e.table (hash4x64 cv tableBits))
        (hash4x64 (le64 src nextS) tableBits) (hash7 (le64 src nextS) tableBits)
        (by omega) hsn (by omega) hT1 (hT.2 _).1 hcv (le64_mod src nextS)
      simp only [hr2]
      cases r2 with
      | some f =>
        refine ⟨_, rfl, ?_⟩
        have hF := FoundOK_weaken src e _ s s nextS f hS1 (le_refl _) (hf2 f rfl)
        cases f with
        | remainder e' => exact hF.elim
        | found e' s' t l nextS' =>
          have : nextS' = nextS := hF.2.2.1
          subst this
          exact ⟨hsn, hnl, hF⟩
      | none =>
        exact ⟨_, rfl, hS1, TabFrom_mono hT1 (by omega), hsn, hnl, le64_mod src nextS⟩

theorem probe_spec {lo : Int} (src : List Byte) (sLimit nextEmit : Int) (hne : lo ≤ nextEmit)
    (hL : sLimit + 8 ≤ src.length) :
    ∀ (fuel : Nat) (e : fastEncL5ND) (cv : Nat) (s : Int), nextEmit ≤ s → s ≤ sLimit →
      TabFrom lo e s → cv % 2 ^ 32 = le32 src s → sLimit - s + 1 ≤ fuel →
      ∃ r, probe fuel e src sLimit nextEmit cv s = .ok r ∧ LoopOK lo src e sLimit s r
  | 0, e, cv, s, hs, hsl, hT, hcv, hf => by omega
  | fuel + 1, e, cv, s, hs, hsl, hT, hcv, hf => by
    obtain ⟨r, hr, hok⟩ := probeStep_spec e src sLimit nextEmit cv s hne hs hL hT hcv
    unfold probe
    rw [hr]
    cases r with
    | next e' cv' nextS' =>
      obtain ⟨h1, h2, h3, h4, h5⟩ := hok
      obtain ⟨r', hr', hok'⟩ := probe_spec src sLimit nextEmit hne hL fuel e' cv' nextS'
        (by omega) h4 h2 h5 (by push_cast at hf ⊢; omega)
      refine ⟨r', hr', ?_⟩
      cases r' with
      | remainder e'' => exact ⟨h1.sTrans hok'.1, hok'.2⟩
      | found e'' s' t l nextS =>
        exact ⟨by have := hok'.1; omega, hok'.2.1, FoundOK_weaken src e e' s nextS' nextS _ h1 (by omega)
          hok'.2.2⟩
    | done f =>
      refine ⟨f, rfl, ?_⟩
      cases f with
      | remainder e' =>
        have : e' = e := hok
        subst this
        exact ⟨Same.sRefl _, TabFrom_mono hT (by omega)⟩
      | found e' s' t l nextS => exact hok
/-! ## The sink -/

theorem toks_write (t : tokens) (tok : token) (lh : Nat → Nat) (h : t.n + 1 < 2 ^ 16) :
    toks { tokens := upd t.tokens t.n tok, litHist := lh, n := (t.n + 1) % 2 ^ 16 } =
      toks t ++ [tok] := by
  unfold toks
  simp only [Nat.mod_eq_of_lt h, List.range_succ, List.map_append, List.map_cons,
    List.map_nil]
  congr 1
  · apply List.map_congr_left
    intro j hj
    have : j ≠ t.n := by
      have := List.mem_range.mp hj
      omega
    simp [upd, this]
  · simp [upd]

theorem Sink_AddLiteral (dst : tokens) (L : List token) (v : Byte) (h : Sink dst L)
    (hn : L.length + 1 < 2 ^ 16) : Sink (AddLiteral dst v) (L ++ [token.literal v]) := by
  obtain ⟨h1, h2, h3⟩ := h
  have hn' : dst.n + 1 < 2 ^ 16 := by omega
  refine ⟨?_, ?_, ?_⟩
  · show (dst.n + 1) % 2 ^ 16 = _
    rw [Nat.mod_eq_of_lt hn']
    simp [h1]
  · unfold AddLiteral
    rw [toks_write dst _ _ hn', h2]
  · intro w
    show upd dst.litHist v.val ((dst.litHist v.val + 1) % 2 ^ 16) w.val = _
    unfold upd
    by_cases hw : w = v
    · subst hw
      have hc : List.count (token.literal w) L ≤ L.length := List.count_le_length _ _
      simp only [if_true, h3 w, List.count_append, List.count_singleton_self]
      exact Nat.mod_eq_of_lt (by omega)
    · have hv : w.val ≠ v.val := fun hh => hw (Fin.ext hh)
      have hne : (token.literal v == token.literal w) = false := by
        simp only [beq_eq_false_iff_ne, ne_eq, token.literal.injEq]
        exact fun hh => hw hh.symm
      simp only [hv, if_false, h3 w, List.count_append, List.count_cons, List.count_nil, hne]
      simp

theorem Sink_AddMatch (dst : tokens) (L : List token) (xl xo : Nat) (h : Sink dst L)
    (hn : L.length + 1 < 2 ^ 16) : Sink (AddMatch dst xl xo) (L ++ [token.matchTok xl xo]) := by
  obtain ⟨h1, h2, h3⟩ := h
  have hn' : dst.n + 1 < 2 ^ 16 := by omega
  refine ⟨?_, ?_, ?_⟩
  · show (dst.n + 1) % 2 ^ 16 = _
    rw [Nat.mod_eq_of_lt hn']
    simp [h1]
  · unfold AddMatch
    rw [toks_write dst _ _ hn', h2]
  · intro w
    show dst.litHist w.val = _
    have hne : (token.matchTok xl xo == token.literal w) = false := by
      simp
    simp only [h3 w, List.count_append, List.count_cons, List.count_nil, hne]
    simp

theorem Sink_emitLiteral : ∀ (lit : List Byte) (dst : tokens) (L : List token), Sink dst L →
    L.length + lit.length < 2 ^ 16 →
    Sink (emitLiteral dst lit) (L ++ lit.map token.literal)
  | [], dst, L, h, _ => by simpa [emitLiteral] using h
  | v :: lit, dst, L, h, hn => by
    have h1 := Sink_AddLiteral dst L v h (by simp at hn; omega)
    have h2 := Sink_emitLiteral lit (AddLiteral dst v) _ h1 (by simp at hn ⊢; omega)
    simpa [emitLiteral] using h2

/-! ## Parses -/

theorem Parse_append (src : List Byte) : ∀ (L1 L2 : List token) (a b c : Int),
    Parse src a L1 b → Parse src b L2 c → Parse src a (L1 ++ L2) c
  | [], L2, a, b, c, h1, h2 => by
    have : a = b := h1
    subst this
    simpa using h2
  | token.literal v :: L1, L2, a, b, c, h1, h2 => by
    obtain ⟨p1, p2, p3, p4⟩ := h1
    exact ⟨p1, p2, p3, Parse_append src L1 L2 _ b c p4 h2⟩
  | token.matchTok xl xo :: L1, L2, a, b, c, h1, h2 => by
    obtain ⟨p1, p2, p3, p4, p5, p6⟩ := h1
    exact ⟨p1, p2, p3, p4, p5, Parse_append src L1 L2 _ b c p6 h2⟩

/-- A parse never has more tokens than bytes. -/
theorem Parse_length (src : List Byte) : ∀ (L : List token) (a b : Int),
    Parse src a L b → (L.length : Int) ≤ b - a
  | [], a, b, h => by
    have : a = b := h
    subst this
    simp
  | token.literal v :: L, a, b, h => by
    have := Parse_length src L _ b h.2.2.2
    simp only [List.length_cons]
    push_cast
    omega
  | token.matchTok xl xo :: L, a, b, h => by
    have := Parse_length src L _ b h.2.2.2.2.2
    simp only [List.length_cons]
    push_cast
    omega

theorem Parse_literals (src : List Byte) : ∀ (n : Nat) (a b : Int), 0 ≤ a → b ≤ src.length →
    (b - a).toNat = n → a ≤ b →
    Parse src a (((src.drop a.toNat).take (b - a).toNat).map token.literal) b
  | 0, a, b, ha, hb, hn, hab => by
    rw [hn]
    simp only [List.take_zero, List.map_nil]
    show a = b
    omega
  | n + 1, a, b, ha, hb, hn, hab => by
    have hlt : a.toNat < src.length := by omega
    rw [hn, List.drop_eq_getElem_cons hlt, List.take_succ_cons, List.map_cons]
    refine ⟨ha, by omega, ?_, ?_⟩
    · unfold byteAt
      rw [if_neg (by omega)]
      simp [List.getD_eq_getElem?_getD, List.getElem?_eq_getElem hlt]
    · have := Parse_literals src n (a + 1) b (by omega) hb (by omega) (by omega)
      have e1 : (a + 1).toNat = a.toNat + 1 := by omega
      have e2 : (b - (a + 1)).toNat = n := by omega
      rwa [e1, e2] at this

theorem MatchAt_shiftk (src : List Byte) (s t l k : Int) (h : MatchAt src s t l) (hk : 0 ≤ k) :
    MatchAt src (s + k) (t + k) (l - k) := by
  intro j hj0 hj
  have := h (j + k) (by omega) (by omega)
  have e1 : t + (j + k) = t + k + j := by ring
  have e2 : s + (j + k) = s + k + j := by ring
  rwa [e1, e2] at this

theorem Emit_literal (Q : Nat → Prop) (m : Prop) (src : List Byte) (s0 : Int) (dst : tokens) (a : Int)
    (v : Byte) (h : Emit Q m src s0 dst a) (h0 : 0 ≤ a) (h1 : a < src.length)
    (hv : v.val = byteAt src a) (hB : (src.length : Int) - s0 ≤ 65535) :
    Emit Q m src s0 (AddLiteral dst v) (a + 1) := by
  obtain ⟨L, hS, hP, hQ, hM⟩ := h
  have hl := Parse_length src L s0 a hP
  refine ⟨L ++ [token.literal v], Sink_AddLiteral dst L v hS (by norm_num; omega), ?_, ?_,
    ?_⟩
  · exact Parse_append src L _ s0 a _ hP ⟨h0, h1, hv, rfl⟩
  · intro xl xo hm
    rcases List.mem_append.mp hm with hm | hm
    · exact hQ xl xo hm
    · simp at hm
  · intro hm
    obtain ⟨xl, xo, hx⟩ := hM hm
    exact ⟨xl, xo, List.mem_append_left _ hx⟩

theorem Emit_match (Q : Nat → Prop) (m : Prop) (src : List Byte) (s0 : Int) (dst : tokens) (a : Int)
    (xl xo : Nat) (h : Emit Q m src s0 dst a) (hq : Q xo) (hxl : xl ≤ 255) (hxo : xo < 32768)
    (hd : (xo : Int) + 1 ≤ a) (hlen : a + xl + 3 ≤ src.length)
    (hm : MatchAt src a (a - (xo + 1)) (xl + 3)) (hB : (src.length : Int) - s0 ≤ 65535) :
    Emit Q True src s0 (AddMatch dst xl xo) (a + xl + 3) := by
  obtain ⟨L, hS, hP, hQ, hM⟩ := h
  have hl := Parse_length src L s0 a hP
  refine ⟨L ++ [token.matchTok xl xo], Sink_AddMatch dst L xl xo hS (by norm_num; omega),
    ?_, ?_, ?_⟩
  · exact Parse_append src L _ s0 a _ hP ⟨hxl, hxo, hd, hlen, hm, rfl⟩
  · intro xl' xo' hm'
    rcases List.mem_append.mp hm' with hm' | hm'
    · exact hQ xl' xo' hm'
    · simp only [List.mem_singleton, token.matchTok.injEq] at hm'
      rw [hm'.2]
      exact hq
  · intro _
    exact ⟨xl, xo, List.mem_append_right _ (List.mem_singleton.mpr rfl)⟩

theorem Emit_literals (Q : Nat → Prop) (m : Prop) (src : List Byte) (s0 : Int) (dst : tokens)
    (a b : Int) (h : Emit Q m src s0 dst a) (h0 : 0 ≤ a) (hab : a ≤ b) (hb : b ≤ src.length)
    (hB : (src.length : Int) - s0 ≤ 65535) :
    Emit Q m src s0 (emitLiteral dst ((src.drop a.toNat).take (b - a).toNat)) b := by
  obtain ⟨L, hS, hP, hQ, hM⟩ := h
  have hl := Parse_length src L s0 a hP
  have hlen := slice_length src a b h0 hab hb
  refine ⟨_, Sink_emitLiteral _ dst L hS (by norm_num; omega), ?_, ?_, ?_⟩
  · exact Parse_append src L _ s0 a _ hP (Parse_literals src _ a b h0 hb rfl hab)
  · intro xl xo hm
    rcases List.mem_append.mp hm with hm | hm
    · exact hQ xl xo hm
    · obtain ⟨v, _, hv⟩ := List.mem_map.mp hm
      cases hv
  · intro hm
    obtain ⟨xl, xo, hx⟩ := hM hm
    exact ⟨xl, xo, List.mem_append_left _ hx⟩

theorem Emit_pos (Q : Nat → Prop) (m : Prop) (src : List Byte) (s0 : Int) (dst : tokens) (a : Int)
    (h : Emit Q m src s0 dst a) (ha : s0 < a) : 0 < dst.n := by
  obtain ⟨L, hS, hP, _, _⟩ := h
  rw [hS.1]
  cases L with
  | nil =>
    have : s0 = a := hP
    omega
  | cons x L => simp

theorem Emit_weaken (Q : Nat → Prop) (m : Prop) (src : List Byte) (s0 : Int) (dst : tokens)
    (a : Int) (h : Emit Q True src s0 dst a) : Emit Q m src s0 dst a := by
  obtain ⟨L, hS, hP, hQ, hM⟩ := h
  exact ⟨L, hS, hP, hQ, fun _ => hM trivial⟩
/-! ## After a match is found -/

theorem SameT.tRefl (e : fastEncL5ND) : SameT e e := ⟨Same.sRefl e, rfl, rfl⟩

theorem SameT.tTrans {e1 e2 e3 : fastEncL5ND} (h1 : SameT e1 e2) (h2 : SameT e2 e3) :
    SameT e1 e3 :=
  ⟨h1.1.sTrans h2.1, h2.2.1.trans h1.2.1, h2.2.2.trans h1.2.2⟩

theorem SameT_Rng (e : fastEncL5ND) : SameT e (Rng e).2 :=
  ⟨Same_Rng e, Rng_table e, Rng_bTable e⟩

theorem TabOK_SameT {e e' : fastEncL5ND} {b : Int} (h : TabOK e b) (hS : SameT e e') :
    TabOK e' b := by
  intro i
  rw [hS.1.2.1, hS.2.1, hS.2.2]
  exact h i

theorem TabFrom_SameT {lo : Int} {e e' : fastEncL5ND} {b : Int} (h : TabFrom lo e b)
    (hS : SameT e e') : TabFrom lo e' b := by
  refine ⟨h.1, fun i => ?_⟩
  rw [hS.1.2.1, hS.2.1, hS.2.2]
  exact h.2 i

theorem index_ok (src : List Byte) (i : Int) (h0 : 0 ≤ i) (h1 : i < src.length) :
    ∃ v, index src i = .ok v ∧ v.val = byteAt src i := by
  have hlt : i.toNat < src.length := by omega
  refine ⟨src[i.toNat], ?_, ?_⟩
  · unfold index
    rw [if_neg (by omega), List.getElem?_eq_getElem hlt]
  · unfold byteAt
    rw [if_neg (by omega)]
    simp [List.getD_eq_getElem?_getD, List.getElem?_eq_getElem hlt]

theorem extendForward_spec (src : List Byte) (s t l : Int) (ht : 0 ≤ t) (hts : t < s)
    (hs : s + 4 ≤ src.length) (h4 : MatchAt src s t 4)
    (hl : l = 0 ∨ (4 ≤ l ∧ l ≤ maxMatchLength ∧ s + l ≤ src.length ∧ MatchAt src s t l)) :
    ∃ l', extendForward src s t l = .ok l' ∧ 4 ≤ l' ∧ s + l' ≤ src.length ∧
      MatchAt src s t l' := by
  unfold extendForward
  by_cases h0 : l = 0
  · obtain ⟨m, hm, m0, m1, m2⟩ := matchlenLong_spec src (s + 4) (t + 4) (by omega) (by omega) hs
    simp only [h0, if_true, hm, bind, Except.bind]
    refine ⟨m + 4, rfl, by omega, by omega, ?_⟩
    have := MatchAt_append src s t 4 m h4 m2
    rwa [add_comm] at this
  · rcases hl with hl | ⟨l4, l258, hlen, hm⟩
    · exact absurd hl h0
    · by_cases hmax : l = maxMatchLength
      · obtain ⟨m, hm', m0, m1, m2⟩ := matchlenLong_spec src (s + l) (t + l) (by omega)
          (by omega) hlen
        simp only [h0, hmax, if_true, if_false]
        rw [hmax] at hm'
        simp only [hm', bind, Except.bind]
        refine ⟨maxMatchLength + m, rfl, by omega, by omega, ?_⟩
        rw [← hmax]
        exact MatchAt_append src s t l m hm m2
      · simp only [h0, hmax, if_false]
        exact ⟨l, rfl, l4, hlen, hm⟩

theorem lookAhead_spec (e : fastEncL5ND) (src : List Byte) (sLimit s t l : Int) (ht : 0 ≤ t)
    (hts : t < s) (hw : s - t < maxMatchOffset) (hL : sLimit + 8 ≤ src.length) (h4 : 4 ≤ l)
    (hlen : s + l ≤ src.length) (hm : MatchAt src s t l) :
    ∃ t' l', lookAhead e src sLimit s t l = .ok (t', l') ∧ 0 ≤ t' ∧ t' < s ∧
      s - t' < maxMatchOffset ∧ 4 ≤ l' ∧ s + l' ≤ src.length ∧ MatchAt src s t' l' := by
  unfold lookAhead
  simp only []
  by_cases hc : l < 30 ∧ s + l < sLimit
  · simp only [hc, and_self, if_true, load6432_ok src (s + l) (by omega) (by omega), bind,
      Except.bind]
    generalize (e.bTable (hash7 (le64 src (s + l)) tableBits)).Cur - e.cur - l = t2
    by_cases hc2 : t2 ≥ 0 ∧ s - t2 < maxMatchOffset ∧ s - t2 > 0
    · obtain ⟨m, hm', m0, m1, m2⟩ := matchlenLong_spec src s t2 hc2.1 (by omega) (by omega)
      simp only [hc2, and_self, if_true, hm']
      by_cases hgt : m > l
      · simp only [hgt, if_true]
        exact ⟨t2, m, rfl, hc2.1, by omega, hc2.2.1, by omega, m1, m2⟩
      · simp only [hgt, if_false]
        exact ⟨t, l, rfl, ht, hts, hw, h4, hlen, hm⟩
    · simp only [hc2, if_false]
      exact ⟨t, l, rfl, ht, hts, hw, h4, hlen, hm⟩
  · simp only [hc, if_false]
    exact ⟨t, l, rfl, ht, hts, hw, h4, hlen, hm⟩

theorem backCond_spec (src : List Byte) (nextEmit s t : Int) (hne : 0 ≤ nextEmit)
    (ht : 0 ≤ t) (hts : t < s) (hs : s ≤ src.length) :
    ∃ c, backCond src nextEmit s t = .ok c ∧
      (c = true → t > 0 ∧ s > nextEmit ∧ byteAt src (t - 1) = byteAt src (s - 1)) := by
  unfold backCond
  by_cases hc : t > 0 ∧ s > nextEmit
  · obtain ⟨a, ha, ha'⟩ := index_ok src (t - 1) (by omega) (by omega)
    obtain ⟨b, hb, hb'⟩ := index_ok src (s - 1) (by omega) (by omega)
    simp only [if_pos hc, ha, hb, bind, Except.bind]
    refine ⟨_, rfl, ?_⟩
    intro hd
    have : a = b := of_decide_eq_true hd
    exact ⟨hc.1, hc.2, by rw [← ha', ← hb', this]⟩
  · simp only [hc, if_false]
    exact ⟨false, rfl, by simp⟩

theorem extendBack_spec (src : List Byte) (nextEmit : Int) (hne : 0 ≤ nextEmit) :
    ∀ (fuel : Nat) (s t l : Int), 0 ≤ t → t < s → s ≤ src.length → MatchAt src s t l →
      s - nextEmit ≤ fuel →
      ∃ s' t' l', extendBack fuel src nextEmit s t l = .ok (s', t', l') ∧
        (s ≤ nextEmit → s' = s) ∧ (nextEmit ≤ s → nextEmit ≤ s') ∧ s' ≤ s ∧ 0 ≤ t' ∧
        s' - t' = s - t ∧ s' + l' = s + l ∧ MatchAt src s' t' l'
  | 0, s, t, l, ht, hts, hs, hm, hf => by
    obtain ⟨c, hc, hc'⟩ := backCond_spec src nextEmit s t hne ht hts hs
    unfold extendBack
    simp only [hc, bind, Except.bind]
    cases c with
    | true =>
      have := hc' rfl
      simp at hf
      omega
    | false =>
      exact ⟨s, t, l, rfl, fun _ => rfl, fun h => h, le_refl _, ht, rfl, rfl, hm⟩
  | fuel + 1, s, t, l, ht, hts, hs, hm, hf => by
    obtain ⟨c, hc, hc'⟩ := backCond_spec src nextEmit s t hne ht hts hs
    unfold extendBack
    simp only [hc, bind, Except.bind]
    cases c with
    | true =>
      obtain ⟨c1, c2, c3⟩ := hc' rfl
      obtain ⟨s', t', l', h1, h2, h3, h4, h5, h6, h7, h8⟩ :=
        extendBack_spec src nextEmit hne fuel (s - 1) (t - 1) (l + 1) (by omega) (by omega)
          (by omega) (MatchAt_back src s t l hm c3) (by push_cast at hf; omega)
      simp only [if_true]
      exact ⟨s', t', l', h1, fun h => by omega, fun _ => h3 (by omega), by omega, h5,
        by omega, by omega, h8⟩
    | false =>
      exact ⟨s, t, l, rfl, fun _ => rfl, fun h => h, le_refl _, ht, rfl, rfl, hm⟩

theorem shave_spec (src : List Byte) (e : fastEncL5ND) (s t l : Int) (h4 : 4 ≤ l)
    (hm : MatchAt src s t l) :
    SameT e (shave e s t l).1 ∧ s ≤ (shave e s t l).2.1 ∧
      (shave e s t l).2.1 - (shave e s t l).2.2.1 = s - t ∧
      4 ≤ (shave e s t l).2.2.2 ∧
      (shave e s t l).2.1 + (shave e s t l).2.2.2 ≤ s + l ∧
      (shave e s t l).2.1 ≤ s + 1 ∧
      MatchAt src (shave e s t l).2.1 (shave e s t l).2.2.1 (shave e s t l).2.2.2 := by
  unfold shave baseMatchLength
  by_cases hl : l > 3 + 1
  · simp only [hl, if_true]
    by_cases h1 : (Rng e).1 = true
    · simp only [h1, if_true]
      by_cases h2 : (Rng (Rng e).2).1 = true
      · simp only [h2, if_true]
        exact ⟨(SameT_Rng e).tTrans (SameT_Rng _), by first | rfl | omega | simp only [], by first | rfl | omega | simp only [], by first | rfl | omega | simp only [], by first | rfl | omega | simp only [],
          by first | rfl | omega | simp only [], MatchAt_shift src s t l hm⟩
      · simp only [h2, Bool.false_eq_true, if_false]
        exact ⟨(SameT_Rng e).tTrans (SameT_Rng _), by first | rfl | omega | simp only [], by first | rfl | omega | simp only [], by first | rfl | omega | simp only [], by first | rfl | omega | simp only [],
          by first | rfl | omega | simp only [], MatchAt_mono src s t l _ hm (by first | rfl | omega | simp only [])⟩
    · simp only [h1, Bool.false_eq_true, if_false]
      exact ⟨SameT_Rng e, by first | rfl | omega | simp only [], by first | rfl | omega | simp only [], by first | rfl | omega | simp only [], by first | rfl | omega | simp only [], by first | rfl | omega | simp only [], hm⟩
  · simp only [hl, if_false]
    exact ⟨SameT.tRefl e, by first | rfl | omega | simp only [], by first | rfl | omega | simp only [], by first | rfl | omega | simp only [], by first | rfl | omega | simp only [], by first | rfl | omega | simp only [], hm⟩

/-- The refresh loop stores only positions below `s`. -/
theorem refreshLoop_spec {lo : Int} (src : List Byte) (s : Int) (hs : s + 8 ≤ src.length) :
    ∀ (fuel : Nat) (e : fastEncL5ND) (i : Int), 0 ≤ i → TabFrom lo e s → s - i ≤ fuel →
      ∃ e', refreshLoop fuel e src i s = .ok e' ∧ Same e e' ∧ TabFrom lo e' s
  | 0, e, i, hi, hT, hf => by
    unfold refreshLoop
    have : ¬ (i < s - 1) := by simp at hf; omega
    simp only [this, if_false]
    exact ⟨e, rfl, Same.sRefl e, hT⟩
  | fuel + 1, e, i, hi, hT, hf => by
    unfold refreshLoop
    by_cases hlt : i < s - 1
    · simp only [hlt, if_true]
      by_cases hr : (Rng e).1 = true
      · simp only [hr, if_true, load6432_ok src i hi (by omega)]
        have hT1 : TabFrom lo (setTable (pushLong (Rng e).2 (hash7 (le64 src i) tableBits)
            (i + (Rng e).2.cur)) (hash4u ((le64 src i >>> 8) % 2 ^ 32) tableBits)
            (i + (Rng e).2.cur + 1)) s := by
          apply TabFrom_setTable
          · exact TabFrom_pushLong (TabFrom_Rng hT) _ _ (ValidFrom_pos hi (by omega))
          · have := @ValidFrom_pos lo (Rng e).2.cur s (i + 1) (by omega) (by omega)
            have e1 : i + 1 + (Rng e).2.cur = i + (Rng e).2.cur + 1 := by ring
            rw [e1] at this
            exact this
        obtain ⟨e', h1, h2, h3⟩ := refreshLoop_spec src s hs fuel _ (i + hashEvery)
          (by unfold hashEvery; omega) hT1 (by unfold hashEvery; push_cast at hf ⊢; omega)
        exact ⟨e', h1, (Same_Rng e).sTrans (Same.sTrans ⟨rfl, rfl, rfl, rfl⟩ h2), h3⟩
      · simp only [hr, Bool.false_eq_true, if_false]
        obtain ⟨e', h1, h2, h3⟩ := refreshLoop_spec src s hs fuel (Rng e).2 (i + hashEvery)
          (by unfold hashEvery; omega) (TabFrom_Rng hT)
          (by unfold hashEvery; push_cast at hf ⊢; omega)
        exact ⟨e', h1, (Same_Rng e).sTrans h2, h3⟩
    · simp only [hlt, if_false]
      exact ⟨e, rfl, Same.sRefl e, hT⟩

theorem refresh_spec {lo : Int} (src : List Byte) (fuel : Nat) (e : fastEncL5ND) (s l : Int)
    (hs : s + 8 ≤ src.length) (hl : 4 ≤ l) (hi : 0 ≤ s - l + 1) (hT : TabFrom lo e s)
    (hf : l ≤ fuel) :
    ∃ e', refresh fuel e src s l = .ok e' ∧ Same e e' ∧ TabFrom lo e' s := by
  unfold refresh
  have hlt : s - l + 1 < s - 1 := by omega
  simp only [hlt, if_true, load6432_ok src (s - l + 1) hi (by omega), bind, Except.bind]
  have hv0 : ValidFrom lo e.cur s (s - l + 1 + e.cur) := ValidFrom_pos hi (by omega)
  have hv1 : ValidFrom lo e.cur s (s - l + 1 + e.cur + 1) := by
    have := @ValidFrom_pos lo e.cur s (s - l + 1 + 1) (by omega) (by omega)
    have e1 : s - l + 1 + 1 + e.cur = s - l + 1 + e.cur + 1 := by ring
    rwa [e1] at this
  have hv2 : ValidFrom lo e.cur s (s - l + 1 + e.cur + 1 + 1) := by
    have := @ValidFrom_pos lo e.cur s (s - l + 1 + 2) (by omega) (by omega)
    have e1 : s - l + 1 + 2 + e.cur = s - l + 1 + e.cur + 1 + 1 := by ring
    rwa [e1] at this
  have hT1 := TabFrom_setTable (TabFrom_pushLong (TabFrom_pushLong (TabFrom_setTable hT
    (hash4x64 (le64 src (s - l + 1)) tableBits) _ hv0)
    (hash7 (le64 src (s - l + 1)) tableBits) _ hv0)
    (hash7 (le64 src (s - l + 1) >>> 8) tableBits) _ hv1)
    (hash4x64 (le64 src (s - l + 1) >>> 8 >>> 8) tableBits) _ hv2
  obtain ⟨e', h1, h2, h3⟩ := refreshLoop_spec src s hs fuel _ (s - l + 1 + 4) (by omega) hT1
    (by omega)
  exact ⟨e', h1, Same.sTrans ⟨rfl, rfl, rfl, rfl⟩ h2, h3⟩

theorem reinsert_spec {lo : Int} (src : List Byte) (e : fastEncL5ND) (s : Int) (h1 : 1 ≤ s)
    (hs : s + 7 ≤ src.length) (hT : TabFrom lo e s) :
    ∃ e' cv, reinsert e src s = .ok (e', cv) ∧ Same e e' ∧ TabFrom lo e' s ∧
      cv % 2 ^ 32 = le32 src s := by
  unfold reinsert
  simp only [load6432_ok src (s - 1) (by omega) (by omega), bind, Except.bind]
  have hv : ValidFrom lo e.cur s (e.cur + s - 1) := by
    have := @ValidFrom_pos lo e.cur s (s - 1) (by omega) (by omega)
    have e1 : s - 1 + e.cur = e.cur + s - 1 := by ring
    rwa [e1] at this
  refine ⟨_, _, rfl, ⟨rfl, rfl, rfl, rfl⟩, TabFrom_pushLong (TabFrom_setTable hT _ _ hv) _ _ hv, ?_⟩
  have := le64_shift_mod src (s - 1)
  have e1 : s - 1 + 1 = s := by ring
  rwa [e1] at this
theorem Emits.eRefl {Q : Nat → Prop} {m : Prop} (src : List Byte) (s0 : Int) (dst : tokens) (a : Int) :
    Emits Q m m src s0 dst a dst a := fun _ h => h

theorem Emits.eTrans {Q : Nat → Prop} {m1 m2 m3 : Prop} {src : List Byte} {s0 : Int}
    {d1 d2 d3 : tokens} {a1 a2 a3 : Int} (h1 : Emits Q m1 m2 src s0 d1 a1 d2 a2)
    (h2 : Emits Q m2 m3 src s0 d2 a2 d3 a3) : Emits Q m1 m3 src s0 d1 a1 d3 a3 :=
  fun hB h => h2 hB (h1 hB h)

theorem Emits_weaken {Q : Nat → Prop} {m : Prop} (m' : Prop) {src : List Byte} {s0 : Int}
    {d1 d2 : tokens} {a1 a2 : Int} (h : Emits Q m True src s0 d1 a1 d2 a2) :
    Emits Q m m' src s0 d1 a1 d2 a2 :=
  fun hB hE => Emit_weaken Q m' src s0 d2 a2 (h hB hE)

theorem Emits_literal (Q : Nat → Prop) (m : Prop) (src : List Byte) (s0 : Int) (dst : tokens) (a : Int)
    (v : Byte) (h0 : 0 ≤ a) (h1 : a < src.length) (hv : v.val = byteAt src a) :
    Emits Q m m src s0 dst a (AddLiteral dst v) (a + 1) :=
  fun hB h => Emit_literal Q m src s0 dst a v h h0 h1 hv hB

theorem Emits_match (Q : Nat → Prop) (m : Prop) (src : List Byte) (s0 : Int) (dst : tokens) (a : Int)
    (xl xo : Nat) (hq : Q xo) (hxl : xl ≤ 255) (hxo : xo < 32768) (hd : (xo : Int) + 1 ≤ a)
    (hlen : a + xl + 3 ≤ src.length) (hm : MatchAt src a (a - (xo + 1)) (xl + 3)) :
    Emits Q m True src s0 dst a (AddMatch dst xl xo) (a + xl + 3) :=
  fun hB h => Emit_match Q m src s0 dst a xl xo h hq hxl hxo hd hlen hm hB

/-- The tokens of one match, written by `AddMatchLong`. -/
theorem AddMatchLong_spec (Q : Nat → Prop) (m : Prop) (src : List Byte) (s0 : Int) (xo : Nat)
    (hq : Q xo) (hxo : xo < 32768) :
    ∀ (fuel : Nat) (dst : tokens) (x a : Int), 3 ≤ x → x ≤ fuel →
      (xo : Int) + 1 ≤ a → a + x ≤ src.length → MatchAt src a (a - (xo + 1)) x →
      ∃ dst', AddMatchLong fuel dst x xo = .ok dst' ∧ Emits Q m True src s0 dst a dst' (a + x)
  | 0, dst, x, a, h3, hf, hd, hlen, hm => by
    simp at hf
    omega
  | fuel + 1, dst, x, a, h3, hf, hd, hlen, hm => by
    unfold AddMatchLong
    have hx0 : x > 0 := by omega
    simp only [hx0, if_true]
    unfold baseMatchLength
    by_cases h258 : x > 258
    · by_cases h261 : x > 258 + 3
      · simp only [h258, h261, if_true]
        have e : (((258 : Int) - 3) % 2 ^ 32).toNat = 255 := by decide
        rw [e]
        have hE' := Emits_match Q m src s0 dst a 255 xo hq (by omega) hxo hd (by push_cast; omega)
          (MatchAt_mono src _ _ _ _ hm (by push_cast; omega))
        obtain ⟨dst', h1, h2⟩ := AddMatchLong_spec Q True src s0 xo hq hxo fuel (AddMatch dst 255 xo)
          (x - 258) (a + (255 : Nat) + 3) (by omega) (by push_cast at hf ⊢; omega)
          (by push_cast; omega) (by push_cast; omega)
          (by
            have := MatchAt_shiftk src a (a - (xo + 1)) x 258 hm (by omega)
            have e1 : a + ((255 : Nat) : Int) + 3 = a + 258 := by push_cast; ring
            have e2 : a + ((255 : Nat) : Int) + 3 - (xo + 1) = a - (xo + 1) + 258 := by
              push_cast; ring
            rw [e2, e1]
            exact this)
        refine ⟨dst', h1, ?_⟩
        have e1 : a + ((255 : Nat) : Int) + 3 + (x - 258) = a + x := by push_cast; ring
        rw [e1] at h2
        exact hE'.eTrans h2
      · simp only [h258, h261, if_true, if_false]
        have e : (((258 : Int) - 3 - 3) % 2 ^ 32).toNat = 252 := by decide
        rw [e]
        have hE' := Emits_match Q m src s0 dst a 252 xo hq (by omega) hxo hd (by push_cast; omega)
          (MatchAt_mono src _ _ _ _ hm (by push_cast; omega))
        obtain ⟨dst', h1, h2⟩ := AddMatchLong_spec Q True src s0 xo hq hxo fuel (AddMatch dst 252 xo)
          (x - (258 - 3)) (a + (252 : Nat) + 3) (by omega) (by push_cast at hf ⊢; omega)
          (by push_cast; omega) (by push_cast; omega)
          (by
            have := MatchAt_shiftk src a (a - (xo + 1)) x 255 hm (by omega)
            have e1 : a + ((252 : Nat) : Int) + 3 = a + 255 := by push_cast; ring
            have e2 : a + ((252 : Nat) : Int) + 3 - (xo + 1) = a - (xo + 1) + 255 := by
              push_cast; ring
            have e3 : x - (258 - 3) = x - 255 := by ring
            rw [e2, e1, e3]
            exact this)
        refine ⟨dst', h1, ?_⟩
        have e1 : a + ((252 : Nat) : Int) + 3 + (x - (258 - 3)) = a + x := by push_cast; ring
        rw [e1] at h2
        exact hE'.eTrans h2
    · simp only [h258, if_false, sub_self]
      have e : ((x - 3) % 2 ^ 32).toNat = (x - 3).toNat := by
        congr 1
        exact Int.emod_eq_of_lt (by omega) (by omega)
      rw [e]
      have hE' := Emits_match Q m src s0 dst a (x - 3).toNat xo hq (by omega) hxo hd (by omega)
        (by
          have e1 : (((x - 3).toNat : Nat) : Int) + 3 = x := by omega
          rw [e1]; exact hm)
      have e1 : a + (((x - 3).toNat : Nat) : Int) + 3 = a + x := by omega
      rw [e1] at hE'
      refine ⟨_, ?_, hE'⟩
      cases fuel <;> simp [AddMatchLong]

theorem emitPending_spec (Q : Nat → Prop) (m : Prop) (src : List Byte) (s0 : Int) (dst : tokens) (nextEmit s : Int)
    (h0 : 0 ≤ nextEmit) (hns : nextEmit ≤ s) (hs : s ≤ src.length) :
    ∃ dst', emitPending dst src nextEmit s = .ok dst' ∧ Emits Q m m src s0 dst nextEmit dst' s := by
  unfold emitPending
  by_cases hlt : nextEmit < s
  · simp only [hlt, if_true, slice_ok src nextEmit s h0 hns hs, bind, Except.bind]
    exact ⟨_, rfl, fun hB h => Emit_literals Q m src s0 dst nextEmit s h h0 hns hs hB⟩
  · have : nextEmit = s := by omega
    subst this
    simp only [hlt, if_false]
    exact ⟨_, rfl, Emits.eRefl _ _ _ _⟩

/-- The chunk loop writes a parse of the whole match. -/
theorem emitMatch_spec (Q : Nat → Prop) (m : Prop) (src : List Byte) (s0 : Int) (xo : Nat)
    (hq : Q xo) (hxo : xo < 32768) :
    ∀ (fuel : Nat) (e : fastEncL5ND) (dst : tokens) (s l : Int), 3 ≤ l →
      l ≤ fuel → (xo : Int) + 1 ≤ s → s + l ≤ src.length → MatchAt src s (s - (xo + 1)) l →
      ∃ e' dst', emitMatch fuel e dst src s l xo = .ok (e', dst') ∧ SameT e e' ∧
        Emits Q m True src s0 dst s dst' (s + l)
  | 0, e, dst, s, l, h3, hf, hd, hlen, hm => by
    simp at hf
    omega
  | fuel + 1, e, dst, s, l, h3, hf, hd, hlen, hm => by
    unfold emitMatch
    have hl0 : l > 0 := by omega
    have e255 : (maxMatchLength - baseMatchLength).toNat = 255 := by decide
    simp only [hl0, if_true, e255]
    unfold maxMatchLength baseMatchLength
    by_cases hbig : l > 258 + 3
    · simp only [hbig, if_true]
      by_cases hr : (Rng e).1 = true
      · simp only [hr, if_true]
        have hE' := Emits_match Q m src s0 dst s 255 xo hq (by omega) hxo hd (by push_cast; omega)
          (MatchAt_mono src _ _ _ _ hm (by push_cast; omega))
        have e1 : s + ((255 : Nat) : Int) + 3 = s + 258 := by push_cast; ring
        rw [e1] at hE'
        obtain ⟨e', dst', h1, h2, h3'⟩ := emitMatch_spec Q True src s0 xo hq hxo fuel (Rng e).2
          (AddMatch dst 255 xo)
          (s + 258) (l - 258) (by omega) (by push_cast at hf ⊢; omega) (by omega)
          (by omega)
          (by
            have := MatchAt_shiftk src s (s - (xo + 1)) l 258 hm (by omega)
            have e2 : s + 258 - ((xo : Int) + 1) = s - (xo + 1) + 258 := by ring
            rw [e2]
            exact this)
        refine ⟨e', dst', h1, (SameT_Rng e).tTrans h2, ?_⟩
        have e3 : s + 258 + (l - 258) = s + l := by ring
        rw [e3] at h3'
        exact hE'.eTrans h3'
      · obtain ⟨v, hv, hv'⟩ := index_ok src s (by omega) (by omega)
        simp only [hr, Bool.false_eq_true, if_false, hv]
        have hE1 := Emits_literal Q m src s0 dst s v (by omega) (by omega) hv'
        have hE' := Emits_match Q m src s0 (AddLiteral dst v) (s + 1) 255 xo hq (by omega) hxo
          (by omega) (by push_cast; omega)
          (by
            have := MatchAt_shiftk src s (s - (xo + 1)) l 1 hm (by omega)
            have e2 : s + 1 - ((xo : Int) + 1) = s - (xo + 1) + 1 := by ring
            rw [e2]
            exact MatchAt_mono src _ _ _ _ this (by push_cast; omega))
        have e1 : s + 1 + ((255 : Nat) : Int) + 3 = s + 1 + 258 := by push_cast; ring
        rw [e1] at hE'
        obtain ⟨e', dst', h1, h2, h3'⟩ := emitMatch_spec Q True src s0 xo hq hxo fuel (Rng e).2
          (AddMatch (AddLiteral dst v) 255 xo)
          (s + 1 + 258) (l - 1 - 258) (by omega) (by push_cast at hf ⊢; omega) (by omega)
          (by omega)
          (by
            have := MatchAt_shiftk src s (s - (xo + 1)) l 259 hm (by omega)
            have e2 : s + 1 + 258 - ((xo : Int) + 1) = s - (xo + 1) + 259 := by ring
            have e3 : s + 1 + 258 = s + 259 := by ring
            have e4 : l - 1 - 258 = l - 259 := by ring
            rw [e2, e3, e4]
            exact this)
        refine ⟨e', dst', h1, (SameT_Rng e).tTrans h2, ?_⟩
        have e3 : s + 1 + 258 + (l - 1 - 258) = s + l := by ring
        rw [e3] at h3'
        exact (hE1.eTrans hE').eTrans h3'
    · simp only [hbig, if_false]
      obtain ⟨dst', h1, h2⟩ := AddMatchLong_spec Q m src s0 xo hq hxo l.toNat dst l s h3
        (by omega) hd hlen hm
      rw [h1]
      exact ⟨e, dst', rfl, SameT.tRefl e, h2⟩

theorem afterMatch_spec {lo : Int} (Q : Nat → Prop) (m : Prop) (hQ : ∀ x, Q x) (src : List Byte) (s0 : Int)
    (fuel : Nat) (e : fastEncL5ND) (dst : tokens) (sLimit nextEmit s t l nextS : Int)
    (hne : lo ≤ nextEmit)
    (hL : sLimit + 11 ≤ src.length)
    (hns : nextEmit ≤ s) (hsn : s ≤ nextS) (hnl : nextS ≤ sLimit) (hT : TabFrom lo e (nextS + 1))
    (ht : 0 ≤ t) (hts : t < s) (hw : s - t < maxMatchOffset) (h4 : MatchAt src s t 4)
    (hl : l = 0 ∨ (4 ≤ l ∧ l ≤ maxMatchLength ∧ s + l ≤ src.length ∧ MatchAt src s t l))
    (hf : (src.length : Int) ≤ fuel) :
    ∃ r, afterMatch fuel e dst src sLimit nextEmit s t l nextS = .ok r ∧
      OuterOK lo Q m src s0 e dst sLimit nextEmit nextS r := by
  unfold afterMatch
  have hlo := hT.1
  obtain ⟨l1, hl1, a1, a2, a3⟩ := extendForward_spec src s t l ht hts (by omega) h4 hl
  obtain ⟨t1, l1', hla, b1, b2, b3, b4, b5, b6⟩ := lookAhead_spec e src sLimit s t l1 ht hts hw
    (by omega) a1 a2 a3
  obtain ⟨s2, t2, l2, hbk, c0, c1, c2, c3, c4, c5, c6⟩ := extendBack_spec src nextEmit
    (by omega) fuel s t1 l1' b1 b2 (by omega) b6 (by omega)
  have c1' := c1 hns
  have hsh := shave_spec src e s2 t2 l2 (by omega) c6
  rcases hshv : shave e s2 t2 l2 with ⟨e3, s3, t3, l3⟩
  rw [hshv] at hsh
  simp only [] at hsh
  obtain ⟨d1, d2, d3, d4, d5, d6, d7⟩ := hsh
  obtain ⟨dst1, hep, hE1⟩ := emitPending_spec Q m src s0 dst nextEmit s3 (by omega) (by omega)
    (by omega)
  have hoff : ((s3 - t3 - baseMatchOffset) % 2 ^ 32).toNat = (s3 - t3 - 1).toNat := by
    congr 1
    unfold baseMatchOffset
    unfold maxMatchOffset at b3
    exact Int.emod_eq_of_lt (by omega) (by omega)
  have hoff2 : (((s3 - t3 - 1).toNat : Nat) : Int) + 1 = s3 - t3 := by omega
  have hxo : (s3 - t3 - 1).toNat < 32768 := by
    unfold maxMatchOffset at b3
    omega
  obtain ⟨e4, dst2, hem, f1, f2⟩ := emitMatch_spec Q m src s0 (s3 - t3 - 1).toNat (hQ _) hxo fuel e3
    dst1 s3 l3 (by omega) (by omega) (by omega) (by omega)
    (by
      have e1 : s3 - ((((s3 - t3 - 1).toNat : Nat) : Int) + 1) = t3 := by omega
      rw [e1]
      exact d7)
  simp only [hl1, hla, hbk, hshv, hep, hoff, hem, bind, Except.bind]
  have hS : Same e e4 := d1.1.sTrans f1.1
  have hT4 : TabFrom lo e4 (nextS + 1) := TabFrom_SameT (TabFrom_SameT hT d1) f1
  have hEm := Emits_weaken m (hE1.eTrans f2)
  by_cases hge : nextS ≥ s3 + l3
  · simp only [hge, if_true]
    by_cases hfin : nextS + 1 ≥ sLimit
    · simp only [hfin, if_true]
      exact ⟨_, rfl, hS, TabFrom_mono hT4 (by omega), hEm, by omega, by omega⟩
    · obtain ⟨e5, hrf, g1, g2⟩ := refresh_spec src fuel e4 (nextS + 1) l3 (by omega) d4
        (by omega) hT4 (by omega)
      obtain ⟨e6, cv, hri, k1, k2, k3⟩ := reinsert_spec src e5 (nextS + 1) (by omega)
        (by omega) g2
      simp only [hfin, if_false, hrf, hri]
      exact ⟨_, rfl, hS.sTrans (g1.sTrans k1), k2, hEm, by omega, by omega, by omega, by omega,
        k3⟩
  · simp only [hge, if_false]
    by_cases hfin : s3 + l3 ≥ sLimit
    · simp only [hfin, if_true]
      exact ⟨_, rfl, hS, TabFrom_mono hT4 (by omega), hEm, by omega, by omega⟩
    · obtain ⟨e5, hrf, g1, g2⟩ := refresh_spec src fuel e4 (s3 + l3) l3 (by omega) d4
        (by omega) (TabFrom_mono hT4 (by omega)) (by omega)
      obtain ⟨e6, cv, hri, k1, k2, k3⟩ := reinsert_spec src e5 (s3 + l3) (by omega)
        (by omega) g2
      simp only [hfin, if_false, hrf, hri]
      exact ⟨_, rfl, hS.sTrans (g1.sTrans k1), k2, hEm, by omega, by omega, by omega, by omega,
        k3⟩
/-! ## The outer loop and the whole call -/

theorem OuterOK_weaken {lo : Int} (Q : Nat → Prop) (m : Prop) (src : List Byte) (s0 : Int) (e e1 : fastEncL5ND) (dst : tokens)
    (sLimit nextEmit s s1 : Int) (r : Outer) (hS : Same e e1) (hs : s ≤ s1)
    (h : OuterOK lo Q m src s0 e1 dst sLimit nextEmit s1 r) :
    OuterOK lo Q m src s0 e dst sLimit nextEmit s r := by
  cases r with
  | again e' dst' nextEmit' cv' s' =>
    obtain ⟨a1, a2, a3, a4, a5, a6, a7⟩ := h
    exact ⟨hS.sTrans a1, a2, a3, a4, a5, by omega, a7⟩
  | finish e' dst' nextEmit' =>
    obtain ⟨a1, a2⟩ := h
    exact ⟨hS.sTrans a1, a2⟩

theorem outerStep_spec {lo : Int} (Q : Nat → Prop) (m : Prop) (hQ : ∀ x, Q x) (src : List Byte) (s0 : Int)
    (fuel : Nat) (e : fastEncL5ND) (dst : tokens) (sLimit nextEmit : Int) (cv : Nat) (s : Int)
    (hne : lo ≤ nextEmit) (hL : sLimit + 11 ≤ src.length)
    (hns : nextEmit ≤ s) (hsl : s ≤ sLimit) (hT : TabFrom lo e s)
    (hcv : cv % 2 ^ 32 = le32 src s) (hf : (src.length : Int) ≤ fuel) :
    ∃ r, outerStep fuel e dst src sLimit nextEmit cv s = .ok r ∧
      OuterOK lo Q m src s0 e dst sLimit nextEmit s r := by
  have hlo := hT.1
  obtain ⟨r, hr, hok⟩ := probe_spec src sLimit nextEmit hne (by omega) fuel e cv s hns hsl hT
    hcv (by omega)
  unfold outerStep
  simp only [hr, bind, Except.bind]
  cases r with
  | remainder e' =>
    exact ⟨_, rfl, hok.1, hok.2, Emits.eRefl _ _ _ _, le_refl _, by omega⟩
  | found e' s' t l nextS =>
    obtain ⟨h1, h2, h3, h4, h5, h6, h7, h8, h9, h10, h11, h12⟩ := hok
    obtain ⟨r', hr', hok'⟩ := afterMatch_spec Q m hQ src s0 fuel e' dst sLimit nextEmit s' t l nextS
      hne hL (by omega) h7 h2 h4 h8 h9 h10 h11 h12 hf
    exact ⟨r', hr', OuterOK_weaken Q m src s0 e e' dst sLimit nextEmit s nextS r' h3 (by omega)
      hok'⟩

theorem outer_spec {lo : Int} (Q : Nat → Prop) (m : Prop) (hQ : ∀ x, Q x) (src : List Byte) (s0 : Int) (fuel : Nat)
    (sLimit : Int)
    (hL : sLimit + 11 ≤ src.length) (hf : (src.length : Int) ≤ fuel) :
    ∀ (n : Nat) (e : fastEncL5ND) (dst : tokens) (nextEmit : Int) (cv : Nat) (s : Int),
      lo ≤ nextEmit → nextEmit ≤ s → s ≤ sLimit → TabFrom lo e s → cv % 2 ^ 32 = le32 src s →
      sLimit - s + 1 ≤ n →
      ∃ e' dst' nextEmit', outer n fuel e dst src sLimit nextEmit cv s =
          .ok (e', dst', nextEmit') ∧
        Same e e' ∧ TabFrom lo e' (sLimit + 1) ∧ Emits Q m m src s0 dst nextEmit dst' nextEmit' ∧
        nextEmit ≤ nextEmit' ∧ nextEmit' ≤ src.length
  | 0, e, dst, nextEmit, cv, s, hne, hns, hsl, hT, hcv, hn => by
    simp at hn
    omega
  | n + 1, e, dst, nextEmit, cv, s, hne, hns, hsl, hT, hcv, hn => by
    obtain ⟨r, hr, hok⟩ := outerStep_spec Q m hQ src s0 fuel e dst sLimit nextEmit cv s hne hL hns
      hsl hT hcv hf
    unfold outer
    rw [hr]
    cases r with
    | again e1 dst1 nextEmit1 cv1 s1 =>
      obtain ⟨a1, a2, a3, a4, a5, a6, a7, a8⟩ := hok
      obtain ⟨e', dst', nextEmit', h1, h2, h3, h4, h5, h6⟩ := outer_spec Q m hQ src s0 fuel sLimit hL
        hf n e1 dst1 nextEmit1 cv1 s1 (by omega) a5 (by omega) a2 a8
        (by push_cast at hn ⊢; omega)
      exact ⟨e', dst', nextEmit', h1, a1.sTrans h2, h3, a3.eTrans h4, by omega, h6⟩
    | finish e1 dst1 nextEmit1 =>
      obtain ⟨a1, a2, a3, a4, a5⟩ := hok
      exact ⟨e1, dst1, nextEmit1, rfl, a1, a2, a3, a4, a5⟩

theorem rngInitDo_spec (e : fastEncL5ND) (rnd : Option (Nat → Byte))
    (h : e.rngInit = true ∨ rnd ≠ none) :
    ∃ e', rngInitDo e rnd = .ok e' ∧ e'.hist = e.hist ∧ e'.cur = e.cur ∧
      e'.table = e.table ∧ e'.bTable = e.bTable ∧ e'.rngPos = e.rngPos ∧
      e'.rngBit = e.rngBit ∧ e'.rngInit = true ∧ (e.rngInit = true → e' = e) := by
  unfold rngInitDo
  by_cases hi : e.rngInit = true
  · simp only [hi, if_true]
    exact ⟨e, rfl, rfl, rfl, rfl, rfl, rfl, rfl, hi, fun _ => rfl⟩
  · cases rnd with
    | none => simp [hi] at h
    | some seed =>
      have hI : InitRNG e (some seed) =
          .ok { e with rngTab := tile (fun i => if i < 4 then seed i else e.rngTab i) } := rfl
      rw [if_neg hi, hI]
      exact ⟨_, rfl, rfl, rfl, rfl, rfl, rfl, rfl, rfl, fun hh => absurd hh hi⟩

theorem bufferReset_gt : maxMatchOffset < bufferReset := by decide

/-- The rebasing loop runs at most once. -/
theorem rebaseLoop_spec (fuel : Nat) (e : fastEncL5ND) (hf : 1 ≤ fuel) :
    rebaseLoop fuel e = .ok (if e.cur ≥ bufferReset then rebaseStep e else e) := by
  have hcur : (rebaseStep e).cur = maxMatchOffset := by
    unfold rebaseStep
    split <;> rfl
  have hlt : ¬ ((rebaseStep e).cur ≥ bufferReset) := by
    rw [hcur]
    have := bufferReset_gt
    omega
  cases fuel with
  | zero => omega
  | succ n =>
    unfold rebaseLoop
    by_cases hc : e.cur ≥ bufferReset
    · simp only [hc, if_true]
      by_cases hh : e.hist.length = 0
      · simp only [hh, if_true]
      · simp only [hh, if_false]
        cases n with
        | zero => unfold rebaseLoop; simp only [hlt, if_false]
        | succ m => unfold rebaseLoop; simp only [hlt, if_false]
    · simp only [hc, if_false]

theorem rebaseStep_hist (e : fastEncL5ND) : (rebaseStep e).hist = e.hist := by
  unfold rebaseStep
  split <;> rfl

theorem rebaseStep_cur (e : fastEncL5ND) : (rebaseStep e).cur = maxMatchOffset := by
  unfold rebaseStep
  split <;> rfl

/-- Rebasing keeps the table invariant: a zeroed entry is out of every window, a shifted
entry keeps its window index. -/
theorem TabOK_rebaseStep (e : fastEncL5ND) (b : Int) (h : TabOK e b) : TabOK (rebaseStep e) b := by
  have hz : Valid maxMatchOffset b 0 := Or.inl (by omega)
  have hsh : ∀ v, Valid e.cur b v → Valid maxMatchOffset b
      (if v ≤ e.cur + (e.hist.length : Int) - maxMatchOffset then 0
       else v - e.cur + maxMatchOffset) := by
    intro v hv
    split
    · exact hz
    · rcases hv with hv | hv
      · exact Or.inl (by omega)
      · exact Or.inr (by omega)
  unfold rebaseStep
  by_cases hh : e.hist.length = 0
  · simp only [hh, if_true]
    intro i
    exact ⟨hz, hz, hz⟩
  · simp only [hh, if_false]
    intro i
    refine ⟨hsh _ (h i).1, ?_, ?_⟩
    · show Valid maxMatchOffset b (if (e.bTable i).Cur ≤ _ then (⟨0, 0⟩ : tableEntryPrev)
        else _).Cur
      split
      · exact hz
      · have := hsh _ (h i).2.1
        rw [if_neg ‹_›] at this
        exact this
    · show Valid maxMatchOffset b (if (e.bTable i).Cur ≤ _ then (⟨0, 0⟩ : tableEntryPrev)
        else _).Prev
      split
      · exact hz
      · exact hsh _ (h i).2.2

/-- Rebasing keeps the table invariant of a scan that starts at `lo`. -/
theorem TabFrom_rebaseStep (e : fastEncL5ND) (lo b : Int) (h : TabFrom lo e b) :
    TabFrom lo (rebaseStep e) b := by
  have hlo := h.1
  have hz : ValidFrom lo maxMatchOffset b 0 := Or.inl (by omega)
  have hsh : ∀ v, ValidFrom lo e.cur b v → ValidFrom lo maxMatchOffset b
      (if v ≤ e.cur + (e.hist.length : Int) - maxMatchOffset then 0
       else v - e.cur + maxMatchOffset) := by
    intro v hv
    split
    · exact hz
    · rcases hv with hv | hv
      · exact Or.inl (by omega)
      · exact Or.inr (by omega)
  unfold rebaseStep
  by_cases hh : e.hist.length = 0
  · simp only [hh, if_true]
    exact ⟨hlo, fun i => ⟨hz, hz, hz⟩⟩
  · simp only [hh, if_false]
    refine ⟨hlo, fun i => ⟨hsh _ (h.2 i).1, ?_, ?_⟩⟩
    · show ValidFrom lo maxMatchOffset b (if (e.bTable i).Cur ≤ _ then (⟨0, 0⟩ : tableEntryPrev)
        else _).Cur
      split
      · exact hz
      · have := hsh _ (h.2 i).2.1
        rw [if_neg ‹_›] at this
        exact this
    · show ValidFrom lo maxMatchOffset b (if (e.bTable i).Cur ≤ _ then (⟨0, 0⟩ : tableEntryPrev)
        else _).Prev
      split
      · exact hz
      · exact hsh _ (h.2 i).2.2

theorem allocHistory_val : allocHistory = 327675 := by decide

theorem bufferReset_val : bufferReset = 2147090437 := by decide

theorem Inv_rebase (e : fastEncL5ND) (h : Inv e) :
    Inv (if e.cur ≥ bufferReset then rebaseStep e else e) := by
  split
  · refine ⟨by rw [rebaseStep_cur], ?_, ?_, ?_⟩
    · rw [rebaseStep_hist]
      exact TabFrom_rebaseStep e _ _ h.2.1
    · rw [rebaseStep_hist]
      exact h.2.2.1
    · rw [rebaseStep_hist, rebaseStep_cur]
      have := h.2.2.1
      rw [allocHistory_val] at this
      unfold maxMatchOffset
      omega
  · exact h

/-- After the rebasing loop `cur` is below `bufferReset`. -/
theorem rebase_cur_lt (e : fastEncL5ND) :
    (if e.cur ≥ bufferReset then rebaseStep e else e).cur < bufferReset := by
  split
  · rw [rebaseStep_cur]
    exact bufferReset_gt
  · omega

theorem emitRemainder_spec (Q : Nat → Prop) (m : Prop) (src : List Byte) (s0 : Int) (dst : tokens) (nextEmit : Int)
    (h0 : 0 ≤ nextEmit) (hn : nextEmit ≤ src.length) :
    ∃ dst', emitRemainder dst src nextEmit = .ok dst' ∧
      ((dst' = dst ∧ dst.n = 0 ∧ nextEmit < src.length) ∨
        Emits Q m m src s0 dst nextEmit dst' src.length) := by
  unfold emitRemainder
  by_cases hlt : nextEmit < src.length
  · by_cases hz : dst.n = 0
    · refine ⟨dst, ?_, Or.inl ⟨rfl, hz, hlt⟩⟩
      simp only [if_pos hlt, if_pos hz]
      rfl
    · simp only [hlt, hz, if_true, if_false, slice_ok src nextEmit src.length h0 hn (le_refl _),
        bind, Except.bind]
      exact ⟨_, rfl, Or.inr fun hB h =>
        Emit_literals Q m src s0 dst nextEmit src.length h h0 hn (le_refl _) hB⟩
  · have : nextEmit = src.length := by omega
    simp only [hlt, if_false]
    rw [this]
    exact ⟨dst, rfl, Or.inr (Emits.eRefl _ _ _ _)⟩

/-- The encoder state with which `addBlock` is called: after the one-time seeding of the
bit source and the rebasing prelude. -/
theorem Encode_prelude (e : fastEncL5ND) (S : List Byte) (rnd : Option (Nat → Byte))
    (hr : e.rngInit = true ∨ rnd ≠ none) :
    ∃ e1 e2, rngInitDo e rnd = .ok e1 ∧
      rebaseLoop (e.hist.length + S.length + 1) e1 = .ok e2 ∧
      e2 = (if e1.cur ≥ bufferReset then rebaseStep e1 else e1) ∧
      e1.hist = e.hist ∧ e1.cur = e.cur ∧ e1.table = e.table ∧ e1.bTable = e.bTable ∧
      e1.rngPos = e.rngPos ∧ e1.rngBit = e.rngBit ∧ e2.hist = e.hist ∧
      (Inv e → Inv e2) := by
  obtain ⟨e1, h1, a1, a2, a3, a4, a5, a6, a7, a8⟩ := rngInitDo_spec e rnd hr
  have h2 := rebaseLoop_spec (e.hist.length + S.length + 1) e1 (by omega)
  refine ⟨e1, _, h1, h2, rfl, a1, a2, a3, a4, a5, a6, ?_, ?_⟩
  · split
    · rw [rebaseStep_hist, a1]
    · exact a1
  · intro hI
    apply Inv_rebase
    refine ⟨by rw [a2]; exact hI.1, ⟨by rw [a1]; exact hI.2.1.1, ?_⟩, by rw [a1]; exact hI.2.2.1,
      by rw [a1, a2]; exact hI.2.2.2⟩
    intro i
    rw [a2, a3, a4, a1]
    exact hI.2.1.2 i

/-- What `addBlock` does: it drops the first `k` bytes of the history, adds `k` to `cur`
and appends the block; `k = 0` when the block fits behind the history, and otherwise the
last `maxMatchOffset` bytes of the history are kept.  It returns the window index at which
the block starts. -/
theorem addBlock_spec (e : fastEncL5ND) (S : List Byte)
    (hp : e.hist.length + S.length ≤ allocHistory ∨ maxMatchOffset ≤ e.hist.length) :
    ∃ k : Nat, k ≤ e.hist.length ∧
      ((e.hist.length + S.length ≤ allocHistory ∧ k = 0) ∨
        (allocHistory < e.hist.length + S.length ∧
          (e.hist.length : Int) = k + maxMatchOffset)) ∧
      addBlock e S = .ok ((e.hist.length : Int) - k,
        { e with cur := e.cur + k, hist := e.hist.drop k ++ S }) := by
  have hO : maxMatchOffset = 32768 := rfl
  by_cases hfit : e.hist.length + S.length ≤ allocHistory
  · refine ⟨0, Nat.zero_le _, Or.inl ⟨hfit, rfl⟩, ?_⟩
    unfold addBlock
    rw [if_neg (by omega)]
    simp
  · have hm : maxMatchOffset ≤ e.hist.length := by
      rcases hp with hp | hp
      · exact absurd hp hfit
      · exact hp
    have h0 : ¬ ((e.hist.length : Int) - maxMatchOffset < 0) := by omega
    have hk : (((e.hist.length : Int) - maxMatchOffset).toNat : Int) =
        (e.hist.length : Int) - maxMatchOffset := Int.toNat_of_nonneg (by omega)
    refine ⟨((e.hist.length : Int) - maxMatchOffset).toNat, by omega, Or.inr ⟨by omega, by omega⟩,
      ?_⟩
    unfold addBlock
    rw [if_pos (by omega)]
    simp only [h0, if_false, hk, List.length_drop]
    have : ((e.hist.length - ((e.hist.length : Int) - maxMatchOffset).toNat : Nat) : Int) =
        (e.hist.length : Int) - ((e.hist.length : Int) - maxMatchOffset) := by omega
    rw [this]

/-- A block that fits behind the history is appended to it. -/
theorem addBlock_fit (e : fastEncL5ND) (S : List Byte)
    (hfit : e.hist.length + S.length ≤ allocHistory) :
    addBlock e S = .ok ((e.hist.length : Int), { e with hist := e.hist ++ S }) := by
  unfold addBlock
  rw [if_neg (by omega)]

/-- Moving the history down keeps what a scan from the start of the block needs: every
table entry is a window index at most `maxMatchOffset` below the block, or one inside the
kept history; and `cur` plus the window length stays below `2^31`. -/
theorem Inv_slide (e : fastEncL5ND) (S : List Byte) (k : Nat) (hI : Inv e)
    (hc : e.cur < bufferReset) (hmax : S.length ≤ maxStoreBlockSize)
    (hk : (e.hist.length + S.length ≤ allocHistory ∧ k = 0) ∨
      (allocHistory < e.hist.length + S.length ∧ (e.hist.length : Int) = k + maxMatchOffset)) :
    TabFrom ((e.hist.length : Int) - k)
        { e with cur := e.cur + k, hist := e.hist.drop k ++ S } ((e.hist.length : Int) - k) ∧
      maxMatchOffset ≤ e.cur + k ∧ (e.hist.drop k ++ S).length ≤ allocHistory ∧
      e.cur + k + ((e.hist.drop k ++ S).length : Int) < 2 ^ 31 := by
  obtain ⟨h1, h2, h3, h4⟩ := hI
  have hA := allocHistory_val
  have hB := bufferReset_val
  have hM : maxStoreBlockSize = 65535 := rfl
  have hO : maxMatchOffset = 32768 := rfl
  have hlen : (e.hist.drop k ++ S).length = e.hist.length - k + S.length := by simp
  have hv : ∀ v, ValidFrom e.hist.length e.cur e.hist.length v →
      ValidFrom ((e.hist.length : Int) - k) (e.cur + k) ((e.hist.length : Int) - k) v := by
    intro v hv
    unfold ValidFrom at hv ⊢
    omega
  refine ⟨⟨by omega, fun i => ⟨hv _ (h2.2 i).1, hv _ (h2.2 i).2.1, hv _ (h2.2 i).2.2⟩⟩,
    by omega, ?_, ?_⟩
  · rw [hlen]
    omega
  · rw [hlen]
    omega

/-- The scan of `S` from the window index `s0` at which `S` starts. -/
theorem scan_core (Q : Nat → Prop) (m : Prop) (hQ : ∀ x, Q x) (e : fastEncL5ND) (dst : tokens)
    (src : List Byte) (s0 : Int) (n fuel : Nat) (h0 : 0 ≤ s0)
    (hlen : (src.length : Int) = s0 + n) (h13 : 13 ≤ n) (hT : TabFrom s0 e s0)
    (hf : src.length ≤ fuel) :
    load6432 src s0 = .ok (le64 src s0) ∧
    ∃ e' dst1 ne, outer fuel fuel e dst src ((src.length : Int) - inputMargin) s0
        (le64 src s0) s0 = .ok (e', dst1, ne) ∧
      Same e e' ∧ TabFrom s0 e' ((src.length : Int) - inputMargin + 1) ∧
      Emits Q m m src s0 dst s0 dst1 ne ∧ s0 ≤ ne ∧ ne ≤ src.length := by
  refine ⟨load6432_ok src s0 h0 (by omega), ?_⟩
  exact outer_spec Q m hQ src s0 fuel ((src.length : Int) - inputMargin)
    (by unfold inputMargin; omega) (by omega) fuel e dst s0 (le64 src s0) s0 (le_refl _)
    (le_refl _) (by unfold inputMargin; omega) hT (le64_mod _ _)
    (by unfold inputMargin; omega)

/-- A block below `minNonLiteralBlockSize`: only the count of the sink, the history and,
when the history is moved down, `cur` change. -/
theorem Encode_small (e : fastEncL5ND) (dst : tokens) (S : List Byte)
    (rnd : Option (Nat → Byte)) (hr : e.rngInit = true ∨ rnd ≠ none) (h13 : S.length < 13) :
    ∃ e3, Encode e dst S rnd = .ok (e3, { dst with n := S.length % 2 ^ 16 }) ∧
      ∃ e1 e2 k, rngInitDo e rnd = .ok e1 ∧
        e2 = (if e1.cur ≥ bufferReset then rebaseStep e1 else e1) ∧
        e3 = { e2 with cur := e2.cur + (k : Nat), hist := e2.hist.drop k ++ S } ∧
        e2.hist = e.hist ∧ (Inv e → Inv e2) ∧ k ≤ e.hist.length ∧
        ((e.hist.length + S.length ≤ allocHistory ∧ k = 0) ∨
          (allocHistory < e.hist.length + S.length ∧
            (e.hist.length : Int) = k + maxMatchOffset)) ∧
        e1.cur = e.cur ∧ e1.table = e.table ∧ e1.bTable = e.bTable ∧
        e1.rngPos = e.rngPos ∧ e1.rngBit = e.rngBit := by
  obtain ⟨e1, e2, h1, h2, h3, a1, a2, a3, a4, a5, a6, a7, a8⟩ := Encode_prelude e S rnd hr
  have hA := allocHistory_val
  have hO : maxMatchOffset = 32768 := rfl
  obtain ⟨k, k1, k2, k3⟩ := addBlock_spec e2 S (by rw [a7]; omega)
  rw [a7] at k1 k2
  refine ⟨_, ?_, e1, e2, k, h1, h3, rfl, a7, a8, k1, k2, a2, a3, a4, a5, a6⟩
  unfold Encode
  have hlt : (S.length : Int) < minNonLiteralBlockSize := by
    unfold minNonLiteralBlockSize inputMargin
    omega
  simp only [h1, h2, k3, bind, Except.bind, hlt, if_true]
  rfl

/-- The whole call on a block of at least `minNonLiteralBlockSize` and at most
`maxStoreBlockSize` bytes, from a state that satisfies the invariant: it returns, the
invariant holds again, the window is the kept history followed by the block, and the sink
has been extended by a parse of the block, or was left with a zero count. -/
theorem Encode_main (Q : Nat → Prop) (m : Prop) (hQ : ∀ x, Q x) (e : fastEncL5ND) (dst : tokens)
    (S : List Byte) (rnd : Option (Nat → Byte)) (hI : Inv e) (hr : e.rngInit = true ∨ rnd ≠ none)
    (h13 : 13 ≤ S.length) (hmax : S.length ≤ maxStoreBlockSize) :
    ∃ e' dst' k, Encode e dst S rnd = .ok (e', dst') ∧ e'.hist = e.hist.drop k ++ S ∧
      k ≤ e.hist.length ∧
      ((e.hist.length + S.length ≤ allocHistory ∧ k = 0) ∨
        (allocHistory < e.hist.length + S.length ∧
          (e.hist.length : Int) = k + maxMatchOffset)) ∧
      (e.cur < bufferReset → e'.cur = e.cur + k) ∧ Inv e' ∧
      ∃ a, Emits Q m m e'.hist ((e.hist.length : Int) - k) dst ((e.hist.length : Int) - k)
          dst' a ∧
        (e.hist.length : Int) - k ≤ a ∧ (a = e'.hist.length ∨ dst'.n = 0) := by
  obtain ⟨e1, e2, h1, h2, h3, a1, a2, a3, a4, a5, a6, a7, a8⟩ := Encode_prelude e S rnd hr
  have hI2 := a8 hI
  have hA := allocHistory_val
  have hO : maxMatchOffset = 32768 := rfl
  have hM : maxStoreBlockSize = 65535 := rfl
  have hc2 : e2.cur < bufferReset := by
    rw [h3]
    exact rebase_cur_lt e1
  obtain ⟨k, k1, k2, k3⟩ := addBlock_spec e2 S (by rw [a7]; omega)
  obtain ⟨t1, t2, t3, t4⟩ := Inv_slide e2 S k hI2 hc2 hmax k2
  rw [a7] at k1 k2 t1 t3 t4
  have hlen : ((e.hist.drop k ++ S).length : Int) = (e.hist.length : Int) - k + S.length := by
    simp
    omega
  obtain ⟨c1, e', dst1, ne, g1, g2, g3, g4, g5, g6⟩ := scan_core Q m hQ
    { e2 with cur := e2.cur + (k : Nat), hist := e.hist.drop k ++ S } dst (e.hist.drop k ++ S)
    ((e.hist.length : Int) - k) S.length (e.hist.length + S.length + 1) (by omega) hlen h13 t1
    (by simp; omega)
  obtain ⟨dst', r1, r2⟩ := emitRemainder_spec Q m (e.hist.drop k ++ S)
    ((e.hist.length : Int) - k) dst1 ne (by omega) g6
  have hE : Encode e dst S rnd = .ok (e', dst') := by
    unfold Encode
    have hlt : ¬ (S.length : Int) < minNonLiteralBlockSize := by
      unfold minNonLiteralBlockSize inputMargin
      omega
    simp only [h1, h2, k3, bind, Except.bind, hlt, if_false, a7, c1, g1, r1]
    rfl
  have hh : e'.hist = e.hist.drop k ++ S := g2.1
  refine ⟨e', dst', k, hE, hh, k1, k2, ?_, ?_, ?_⟩
  · intro hc
    rw [g2.2.1]
    show e2.cur + (k : Int) = e.cur + k
    rw [h3, if_neg (by rw [a2]; omega), a2]
  · refine ⟨by rw [g2.2.1]; exact t2, ?_, by rw [hh]; exact t3, by rw [hh, g2.2.1]; exact t4⟩
    rw [hh]
    exact TabFrom_raise g3 (by rw [hlen]; omega) (by unfold inputMargin; omega)
  · rw [hh]
    rcases r2 with ⟨r2, r3, r4⟩ | r2
    · exact ⟨ne, by rw [r2]; exact g4, g5, Or.inr (by rw [r2]; exact r3)⟩
    · exact ⟨_, g4.eTrans r2, by omega, Or.inl rfl⟩

/-- The whole call on a block that fits behind the history: the window is the history
followed by the block. -/
theorem Encode_main_fit (Q : Nat → Prop) (m : Prop) (hQ : ∀ x, Q x) (e : fastEncL5ND)
    (dst : tokens) (S : List Byte) (rnd : Option (Nat → Byte)) (hI : Inv e)
    (hr : e.rngInit = true ∨ rnd ≠ none) (h13 : 13 ≤ S.length)
    (hmax : S.length ≤ maxStoreBlockSize) (hfit : e.hist.length + S.length ≤ allocHistory) :
    ∃ e' dst', Encode e dst S rnd = .ok (e', dst') ∧ e'.hist = e.hist ++ S ∧ Inv e' ∧
      ∃ a, Emits Q m m (e.hist ++ S) e.hist.length dst e.hist.length dst' a ∧
        (e.hist.length : Int) ≤ a ∧ (a = (e.hist ++ S).length ∨ dst'.n = 0) := by
  obtain ⟨e', dst', k, h1, h2, h3, h4, _, h5, a, h6, h7, h8⟩ :=
    Encode_main Q m hQ e dst S rnd hI hr h13 hmax
  have hk : k = 0 := by
    rcases h4 with h4 | h4
    · exact h4.2
    · omega
  subst hk
  simp only [List.drop_zero, Nat.cast_zero, sub_zero] at h2 h6 h7
  rw [h2] at h6 h8
  exact ⟨e', dst', h1, h2, h5, a, h6, h7, h8⟩
/-! ## The decoder -/

theorem take_succ_getD (src : List Byte) (a : Nat) (h : a < src.length) :
    src.take a ++ [src.getD a 0] = src.take (a + 1) := by
  rw [List.take_succ, List.getD_eq_getElem?_getD, List.getElem?_eq_getElem h]
  simp

theorem byteAt_nat (src : List Byte) (a : Nat) : byteAt src (a : Int) = (src.getD a 0).val := by
  unfold byteAt
  rw [if_neg (by omega)]
  simp

theorem copyBack_spec (src : List Byte) (d : Nat) (hd : 0 < d) :
    ∀ (n a : Nat), d ≤ a → a + n ≤ src.length →
      (∀ k, k < n → src.getD (a + k) 0 = src.getD (a - d + k) 0) →
      copyBack (src.take a) d n = some (src.take (a + n))
  | 0, a, _, _, _ => rfl
  | n + 1, a, hda, hlen, hm => by
    unfold copyBack
    have hl : (src.take a).length = a := by simp; omega
    rw [hl, if_pos ⟨hd, hda⟩]
    have hg : (src.take a).getD (a - d) 0 = src.getD a 0 := by
      have h0 := hm 0 (by omega)
      simp only [Nat.add_zero] at h0
      rw [h0]
      simp only [List.getD_eq_getElem?_getD]
      rw [List.getElem?_take_of_lt (by omega)]
    rw [hg, take_succ_getD src a (by omega)]
    have := copyBack_spec src d hd n (a + 1) (by omega) (by omega) (by
      intro k hk
      have := hm (k + 1) (by omega)
      have e1 : a + 1 + k = a + (k + 1) := by omega
      have e2 : a + 1 - d + k = a - d + (k + 1) := by omega
      rw [e1, e2]
      exact this)
    rw [this]
    congr 2
    omega

/-- Decoding a parse of the window bytes `[a, b)` onto the first `a` bytes yields the
first `b` bytes. -/
theorem Parse_decode (src : List Byte) : ∀ (L : List token) (a b : Int), 0 ≤ a →
    Parse src a L b → decode L (src.take a.toNat) = some (src.take b.toNat)
  | [], a, b, _, h => by
    have : a = b := h
    subst this
    rfl
  | token.literal v :: L, a, b, ha, h => by
    obtain ⟨p1, p2, p3, p4⟩ := h
    unfold decode
    have hv : v = src.getD a.toNat 0 := by
      apply Fin.ext
      rw [p3]
      have := byteAt_nat src a.toNat
      rw [Int.toNat_of_nonneg ha] at this
      exact this
    rw [hv, take_succ_getD src a.toNat (by omega)]
    have := Parse_decode src L (a + 1) b (by omega) p4
    have e1 : (a + 1).toNat = a.toNat + 1 := by omega
    rwa [e1] at this
  | token.matchTok xl xo :: L, a, b, ha, h => by
    obtain ⟨p1, p2, p3, p4, p5, p6⟩ := h
    unfold decode
    have e1 : xo + baseMatchOffset.toNat = xo + 1 := rfl
    have e3 : xl + baseMatchLength.toNat = xl + 3 := rfl
    rw [e1, e3]
    have hc := copyBack_spec src (xo + 1) (by omega) (xl + 3) a.toNat (by omega) (by omega) (by
      intro k hk
      have := p5 k (by omega) (by push_cast; omega)
      have e4 : a - ((xo : Int) + 1) + k = ((a.toNat - (xo + 1) + k : Nat) : Int) := by omega
      have e5 : a + k = ((a.toNat + k : Nat) : Int) := by omega
      rw [e4, e5, byteAt_nat, byteAt_nat] at this
      exact (Fin.ext this).symm)
    rw [hc]
    have := Parse_decode src L (a + xl + 3) b (by omega) p6
    have e6 : (a + xl + 3).toNat = a.toNat + (xl + 3) := by omega
    rwa [e6] at this
/-! ## Reachable states -/

theorem Inv_of_Fresh (e : fastEncL5ND) (h : Fresh e) : Inv e := by
  obtain ⟨h1, h2, h3, h4, h5⟩ := h
  have hz : ValidFrom (e.hist.length : Int) e.cur (e.hist.length : Int) 0 := Or.inl (by omega)
  refine ⟨h4, ⟨by omega, ?_⟩, by rw [h1]; exact Nat.zero_le _, by rw [h1]; simpa using h5⟩
  intro i
  rw [h2 i, h3 i]
  exact ⟨hz, hz, hz⟩

/-- A block that fits the sink fits behind the empty history of a fresh encoder. -/
theorem Fresh_fit (e : fastEncL5ND) (S : List Byte) (h : Fresh e)
    (hmax : S.length ≤ maxStoreBlockSize) : e.hist.length + S.length ≤ allocHistory := by
  rw [h.1, allocHistory_val]
  unfold maxStoreBlockSize at hmax
  simp only [List.length_nil]
  omega

theorem Encode_ok_rng (e : fastEncL5ND) (dst : tokens) (S : List Byte)
    (rnd : Option (Nat → Byte)) (r : fastEncL5ND × tokens)
    (h : Encode e dst S rnd = .ok r) : e.rngInit = true ∨ rnd ≠ none := by
  by_contra hc
  push_neg at hc
  obtain ⟨h1, h2⟩ := hc
  subst h2
  have : rngInitDo e none = .error .panic := by
    unfold rngInitDo
    rw [if_neg h1]
    rfl
  unfold Encode at h
  simp only [this, bind, Except.bind] at h
  cases h

theorem Inv_Encode (e : fastEncL5ND) (dst : tokens) (S : List Byte)
    (rnd : Option (Nat → Byte)) (e' : fastEncL5ND) (dst' : tokens) (hI : Inv e)
    (hmax : S.length ≤ maxStoreBlockSize)
    (h : Encode e dst S rnd = .ok (e', dst')) : Inv e' := by
  have hr := Encode_ok_rng e dst S rnd _ h
  by_cases h13 : S.length < 13
  · obtain ⟨e3, h2, e1, e2, k, b1, b2, b3, b4, b5, b6, b7, _⟩ := Encode_small e dst S rnd hr h13
    rw [h2] at h
    have he : e' = e3 := by
      injection h with h
      exact (congrArg Prod.fst h).symm
    rw [he, b3]
    have hI2 := b5 hI
    have hc2 : e2.cur < bufferReset := by
      rw [b2]
      exact rebase_cur_lt e1
    rw [← b4] at b7
    obtain ⟨t1, t2, t3, t4⟩ := Inv_slide e2 S k hI2 hc2 hmax b7
    refine ⟨t2, ?_, t3, t4⟩
    refine TabFrom_raise t1 ?_ ?_ <;>
    · show (e2.hist.length : Int) - k ≤ ((e2.hist.drop k ++ S).length : Int)
      simp only [List.length_append, List.length_drop]
      omega
  · obtain ⟨e'', dst'', k, h2, a1, a2, a3, _, a4, _⟩ := Encode_main (fun _ => True) False
      (fun _ => trivial) e dst S rnd hI hr (by omega) hmax
    rw [h2] at h
    have he : e' = e'' := by
      injection h with h
      exact (congrArg Prod.fst h).symm
    rw [he]
    exact a4

theorem Inv_of_Reachable (e : fastEncL5ND) (h : Reachable e) : Inv e := by
  induction h with
  | fresh e hf => exact Inv_of_Fresh e hf
  | step e dst S rnd e' dst' _ hmax hE ih => exact Inv_Encode e dst S rnd e' dst' ih hmax hE

theorem Sink_of_EmptySink (dst : tokens) (h : EmptySink dst) : Sink dst [] := by
  refine ⟨h.1, ?_, ?_⟩
  · unfold toks
    rw [h.1]
    rfl
  · intro w
    rw [h.2 w]
    rfl

/-- On an empty sink and a block that fits the sink, `Encode` leaves the sink holding a
token list that is empty or a parse of the whole block, which starts at the window index
`len(hist) - len(S)` of the window the call leaves. -/
theorem Encode_parse_win (e : fastEncL5ND) (dst : tokens) (S : List Byte)
    (rnd : Option (Nat → Byte)) (hI : Inv e) (hr : e.rngInit = true ∨ rnd ≠ none)
    (hd : EmptySink dst) (h13 : 13 ≤ S.length) (hmax : S.length ≤ maxStoreBlockSize) :
    ∃ e' dst', Encode e dst S rnd = .ok (e', dst') ∧
      (∃ k, k ≤ e.hist.length ∧ e'.hist = e.hist.drop k ++ S) ∧
      ∃ L, Sink dst' L ∧
        (L = [] ∨ Parse e'.hist ((e'.hist.length : Int) - S.length) L e'.hist.length) := by
  obtain ⟨e', dst', k, h1, h2, h3, _, _, _, a, h4, h5, h6⟩ := Encode_main (fun _ => True) False
    (fun _ => trivial) e dst S rnd hI hr h13 hmax
  have hs0 : (e'.hist.length : Int) - S.length = (e.hist.length : Int) - k := by
    rw [h2]
    simp only [List.length_append, List.length_drop]
    omega
  have hB : ((e'.hist.length : Nat) : Int) - ((e.hist.length : Int) - k) ≤ 65535 := by
    unfold maxStoreBlockSize at hmax
    omega
  obtain ⟨L, hS, hP, _, _⟩ := h4 hB ⟨[], Sink_of_EmptySink dst hd, rfl, by simp, False.elim⟩
  refine ⟨e', dst', h1, ⟨k, h3, h2⟩, L, hS, ?_⟩
  rw [hs0]
  rcases h6 with h6 | h6
  · right
    rw [← h6]
    exact hP
  · left
    have := hS.1
    rw [h6] at this
    exact List.length_eq_zero.mp this.symm

/-- The same for a block that fits behind the history: the window is the history followed
by the block. -/
theorem Encode_parse (e : fastEncL5ND) (dst : tokens) (S : List Byte)
    (rnd : Option (Nat → Byte)) (hI : Inv e) (hr : e.rngInit = true ∨ rnd ≠ none)
    (hd : EmptySink dst) (h13 : 13 ≤ S.length) (hmax : S.length ≤ maxStoreBlockSize)
    (hfit : e.hist.length + S.length ≤ allocHistory) :
    ∃ e' dst', Encode e dst S rnd = .ok (e', dst') ∧ e'.hist = e.hist ++ S ∧
      ∃ L, Sink dst' L ∧
        (L = [] ∨ Parse (e.hist ++ S) e.hist.length L ((e.hist ++ S).length)) := by
  obtain ⟨e', dst', h1, h2, _, a, h4, h5, h6⟩ := Encode_main_fit (fun _ => True) False
    (fun _ => trivial) e dst S rnd hI hr h13 hmax hfit
  have hB : (((e.hist ++ S).length : Nat) : Int) - e.hist.length ≤ 65535 := by
    unfold maxStoreBlockSize at hmax
    simp
    omega
  obtain ⟨L, hS, hP, _, _⟩ := h4 hB ⟨[], Sink_of_EmptySink dst hd, rfl, by simp, False.elim⟩
  refine ⟨e', dst', h1, h2, L, hS, ?_⟩
  rcases h6 with h6 | h6
  · right
    rw [← h6]
    exact hP
  · left
    have := hS.1
    rw [h6] at this
    exact List.length_eq_zero.mp this.symm

theorem Parse_MatchBounds (src : List Byte) : ∀ (L : List token) (a b : Int),
    Parse src a L b → MatchBounds a L
  | [], _, _, _ => trivial
  | token.literal v :: L, a, b, h => Parse_MatchBounds src L (a + 1) b h.2.2.2
  | token.matchTok xl xo :: L, a, b, h => by
    obtain ⟨p1, p2, p3, p4, p5, p6⟩ := h
    unfold MatchBounds baseMatchLength maxMatchLength baseMatchOffset maxMatchOffset
    exact ⟨by omega, by omega, by omega, by omega, by omega, by omega,
      Parse_MatchBounds src L _ b p6⟩

theorem sum_count_literal : ∀ (L : List token),
    (∑ b : Byte, L.count (token.literal b)) = L.countP token.isLiteral
  | [] => by simp
  | token.literal v :: L => by
    have ih := sum_count_literal L
    have h1 : ∀ b : Byte, (token.literal v :: L).count (token.literal b) =
        L.count (token.literal b) + if b = v then 1 else 0 := by
      intro b
      by_cases hb : b = v
      · subst hb
        simp only [List.count_cons, beq_self_eq_true, if_true]
      · have : ¬ v = b := fun hh => hb hh.symm
        simp only [List.count_cons, beq_iff_eq, token.literal.injEq, this, hb, if_false]
    simp only [h1, Finset.sum_add_distrib, ih, Finset.sum_ite_eq', Finset.mem_univ, if_true]
    simp [token.isLiteral]
  | token.matchTok xl xo :: L => by
    have ih := sum_count_literal L
    have h1 : ∀ b : Byte, (token.matchTok xl xo :: L).count (token.literal b) =
        L.count (token.literal b) := by
      intro b
      simp only [List.count_cons, beq_iff_eq]
      simp
    simp only [h1, ih]
    simp [token.isLiteral]

theorem Kept_of_remap (e e' : fastEncL5ND) (v : Int) (hc : e'.cur = maxMatchOffset) :
    Kept e e' v (if v ≤ e.cur + (e.hist.length : Int) - maxMatchOffset then 0
      else v - e.cur + maxMatchOffset) := by
  unfold Kept
  split
  · exact ⟨fun h => absurd rfl h, fun _ => rfl⟩
  · exact ⟨fun _ => ⟨by rw [hc]; ring, by omega⟩, fun h => by omega⟩

theorem Encode_total (e : fastEncL5ND) (dst : tokens) (S : List Byte)
    (rnd : Option (Nat → Byte)) (hI : Inv e) (hr : e.rngInit = true ∨ rnd ≠ none)
    (hmax : S.length ≤ maxStoreBlockSize) :
    ∃ r, Encode e dst S rnd = .ok r := by
  by_cases h13 : S.length < 13
  · obtain ⟨e2, h2, _⟩ := Encode_small e dst S rnd hr h13
    exact ⟨_, h2⟩
  · obtain ⟨e', dst', k, h1, _⟩ := Encode_main (fun _ => True) False (fun _ => trivial) e dst S
      rnd hI hr (by omega) hmax
    exact ⟨_, h1⟩

theorem Encode_no_rng (e : fastEncL5ND) (dst : tokens) (S : List Byte)
    (h : e.rngInit ≠ true) : Encode e dst S none = .error .panic := by
  have : rngInitDo e none = .error .panic := by
    unfold rngInitDo
    rw [if_neg h]
    rfl
  unfold Encode
  simp only [this, bind, Except.bind]

/-- One more call on a block of 13 to `maxStoreBlockSize` bytes, from a reachable state
with `cur < bufferReset`: the state it leaves is reachable; the history has grown by the
block when the block fits behind it, and else was moved down first, `cur` advancing by the
number of bytes dropped. -/
theorem Reachable_block (e : fastEncL5ND) (hR : Reachable e) (hc : e.cur < bufferReset)
    (n : Nat) (h13 : 13 ≤ n) (hmax : n ≤ maxStoreBlockSize) :
    ∃ e', Reachable e' ∧
      ((e.hist.length + n ≤ allocHistory ∧ e'.hist.length = e.hist.length + n ∧
          e'.cur = e.cur) ∨
        (allocHistory < e.hist.length + n ∧ (e'.hist.length : Int) = maxMatchOffset + n ∧
          e'.cur = e.cur + e.hist.length - maxMatchOffset)) := by
  have hl : (List.replicate n (0 : Byte)).length = n := List.length_replicate _ _
  obtain ⟨e', dst', k, h1, h2, h3, h4, h5, _⟩ := Encode_main (fun _ => True) False
    (fun _ => trivial) e emptyTokens (List.replicate n 0) (some (fun _ => 0))
    (Inv_of_Reachable e hR) (Or.inr (by simp)) (by rw [hl]; exact h13) (by rw [hl]; exact hmax)
  have hlen : e'.hist.length = e.hist.length - k + n := by
    rw [h2]
    simp
  refine ⟨e', Reachable.step e emptyTokens _ _ e' dst' hR (by rw [hl]; exact hmax) h1, ?_⟩
  rw [hl] at h4
  rcases h4 with ⟨h4, h6⟩ | ⟨h4, h6⟩
  · left
    subst h6
    exact ⟨h4, by omega, by simpa using h5 hc⟩
  · right
    refine ⟨h4, by omega, ?_⟩
    rw [h5 hc]
    omega

/-- The reachable states are not only those of a history that never filled: six blocks of
`maxStoreBlockSize` bytes on a fresh encoder with `cur = c` fill the `allocHistory` bytes
of the buffer with the fifth block, and the sixth call moves the history down, leaving
`maxMatchOffset + 65535` bytes and `cur = c + (allocHistory - maxMatchOffset)`. -/
theorem Reachable_moved_down (c : Int) (hc1 : maxMatchOffset ≤ c) (hc2 : c < bufferReset) :
    ∃ e, Reachable e ∧ e.hist.length = 98303 ∧ e.cur = c + 294907 := by
  have hA := allocHistory_val
  have hB := bufferReset_val
  have hO : maxMatchOffset = 32768 := rfl
  have h0 : Reachable (freshEnc c (fun _ => 0)) :=
    Reachable.fresh _ ⟨rfl, fun _ => rfl, fun _ => rfl, hc1, by show c < 2 ^ 31; omega⟩
  have l0 : (freshEnc c (fun _ => 0)).hist.length = 0 := rfl
  have c0 : (freshEnc c (fun _ => 0)).cur = c := rfl
  obtain ⟨e1, r1, g1⟩ := Reachable_block _ h0 (by omega) 65535 (by omega) (le_refl _)
  have ⟨l1, c1⟩ : e1.hist.length = 65535 ∧ e1.cur = c := by omega
  obtain ⟨e2, r2, g2⟩ := Reachable_block _ r1 (by omega) 65535 (by omega) (le_refl _)
  have ⟨l2, c2⟩ : e2.hist.length = 131070 ∧ e2.cur = c := by omega
  obtain ⟨e3, r3, g3⟩ := Reachable_block _ r2 (by omega) 65535 (by omega) (le_refl _)
  have ⟨l3, c3⟩ : e3.hist.length = 196605 ∧ e3.cur = c := by omega
  obtain ⟨e4, r4, g4⟩ := Reachable_block _ r3 (by omega) 65535 (by omega) (le_refl _)
  have ⟨l4, c4⟩ : e4.hist.length = 262140 ∧ e4.cur = c := by omega
  obtain ⟨e5, r5, g5⟩ := Reachable_block _ r4 (by omega) 65535 (by omega) (le_refl _)
  have ⟨l5, c5⟩ : e5.hist.length = 327675 ∧ e5.cur = c := by omega
  obtain ⟨e6, r6, g6⟩ := Reachable_block _ r5 (by omega) 65535 (by omega) (le_refl _)
  exact ⟨e6, r6, by omega, by omega⟩

/-- From `cur = 65535` the move-down leaves `cur = 360442`; and a state that is due for
rebasing while it holds a history is reachable as well. -/
theorem Reachable_rebase_due :
    (∃ e, Reachable e ∧ e.hist.length = 98303 ∧ e.cur = 360442) ∧
    (∃ e, Reachable e ∧ e.hist.length = 98303 ∧ bufferReset ≤ e.cur) := by
  have hB := bufferReset_val
  have hO : maxMatchOffset = 32768 := rfl
  obtain ⟨e, h1, h2, h3⟩ := Reachable_moved_down 65535 (by omega) (by omega)
  obtain ⟨e', g1, g2, g3⟩ := Reachable_moved_down (bufferReset - 1) (by omega) (by omega)
  exact ⟨⟨e, h1, h2, by omega⟩, ⟨e', g1, g2, by omega⟩⟩
/-! ## A run of identical bytes -/

theorem byteAt_replicate (n : Nat) (a : Byte) (i : Int) (h0 : 0 ≤ i) (h1 : i < n) :
    byteAt (List.replicate n a) i = a.val := by
  unfold byteAt
  rw [if_neg (by omega)]
  have : i.toNat < n := by omega
  simp [List.getD_eq_getElem?_getD, List.getElem?_replicate, this]

theorem le32_replicate (n : Nat) (a : Byte) (i : Int) (h0 : 0 ≤ i) (h1 : i + 4 ≤ n) :
    le32 (List.replicate n a) i = le32 (List.replicate n a) 0 := by
  unfold le32
  rw [byteAt_replicate n a i h0 (by omega), byteAt_replicate n a (i + 1) (by omega) (by omega),
    byteAt_replicate n a (i + 2) (by omega) (by omega),
    byteAt_replicate n a (i + 3) (by omega) (by omega),
    byteAt_replicate n a 0 (by omega) (by omega),
    byteAt_replicate n a (0 + 1) (by omega) (by omega),
    byteAt_replicate n a (0 + 2) (by omega) (by omega),
    byteAt_replicate n a (0 + 3) (by omega) (by omega)]

theorem le64_replicate (n : Nat) (a : Byte) (i : Int) (h0 : 0 ≤ i) (h1 : i + 8 ≤ n) :
    le64 (List.replicate n a) i = le64 (List.replicate n a) 0 := by
  unfold le64
  rw [le32_replicate n a i h0 (by omega), le32_replicate n a (i + 4) (by omega) (by omega),
    le32_replicate n a (0 + 4) (by omega) (by omega)]

theorem matchLen_replicate (a : Byte) : ∀ (p q : Nat), p ≤ q →
    matchLen (List.replicate p a) (List.replicate q a) = .ok p
  | 0, q, _ => by simp [matchLen]
  | p + 1, 0, h => by omega
  | p + 1, q + 1, h => by
    simp only [List.replicate_succ, matchLen, if_true]
    rw [matchLen_replicate a p q (by omega)]

theorem matchlenLong_replicate (n : Nat) (a : Byte) (s t : Int) (ht : 0 ≤ t) (hts : t ≤ s)
    (hs : s ≤ n) : matchlenLong s t (List.replicate n a) = .ok (n - s) := by
  unfold matchlenLong
  have hlen : ((List.replicate n a).length : Int) = n := by simp
  rw [slice_ok _ s _ (by omega) (by omega) (le_refl _), slice_ok _ t _ ht (by omega) (le_refl _)]
  simp only [List.drop_replicate, List.take_replicate, List.length_replicate, bind, Except.bind]
  rw [matchLen_replicate a _ _ (by omega)]
  simp only [pure, Except.pure]
  congr 1
  omega

theorem lookAhead_skip (e : fastEncL5ND) (src : List Byte) (sLimit s t l : Int)
    (h : ¬ (l < 30 ∧ s + l < sLimit)) : lookAhead e src sLimit s t l = .ok (t, l) := by
  unfold lookAhead
  simp only [h, if_false]
  rfl

theorem extendBack_zero (fuel : Nat) (src : List Byte) (nextEmit s l : Int) :
    extendBack fuel src nextEmit s 0 l = .ok (s, 0, l) := by
  have hc : backCond src nextEmit s 0 = .ok false := by
    unfold backCond
    simp
    rfl
  cases fuel with
  | zero =>
    unfold extendBack
    simp only [hc, bind, Except.bind]
    rfl
  | succ k =>
    unfold extendBack
    simp only [hc, bind, Except.bind]
    rfl

theorem shave_end (e : fastEncL5ND) (s t l : Int) :
    s + l - 1 ≤ (shave e s t l).2.1 + (shave e s t l).2.2.2 := by
  unfold shave
  by_cases hl : l > baseMatchLength + 1
  · simp only [hl, if_true]
    by_cases h1 : (Rng e).1 = true
    · simp only [h1, if_true]
      by_cases h2 : (Rng (Rng e).2).1 = true
      · simp only [h2, if_true]; omega
      · simp only [h2, Bool.false_eq_true, if_false]; omega
    · simp only [h1, Bool.false_eq_true, if_false]; omega
  · simp only [hl, if_false]; omega

theorem inWindowEq_far (src : List Byte) (want : Nat) (s t : Int)
    (h : ¬ s - t < maxMatchOffset) : inWindowEq src want s t = .ok false := by
  unfold inWindowEq
  rw [if_neg h]
  rfl

theorem probeShort_far (e : fastEncL5ND) (src : List Byte) (cv next : Nat) (s nextS sC : Int)
    (k1 k2 : Nat) (h : ¬ s - (sC - e.cur) < maxMatchOffset) :
    probeShort e src cv next s nextS sC k1 k2 = .ok none := by
  unfold probeShort
  simp only [inWindowEq_far src (cv % 2 ^ 32) s (sC - e.cur) h, bind, Except.bind]
  rfl

theorem probeLong_far (e : fastEncL5ND) (src : List Byte) (cv : Nat) (s nextS : Int)
    (lC : tableEntryPrev) (k1 k2 : Nat) (h : ¬ s - (lC.Cur - e.cur) < maxMatchOffset) :
    probeLong e src cv s nextS lC k1 k2 = .ok none := by
  unfold probeLong
  simp only [h, if_false]
  rfl

/-- The chained table's `Cur` candidate matches and its `Prev` is out of the window. -/
theorem probeLong_hit (e : fastEncL5ND) (src : List Byte) (cv : Nat) (s nextS : Int)
    (lC : tableEntryPrev) (k1 k2 : Nat) (hw : s - (lC.Cur - e.cur) < maxMatchOffset)
    (h0 : 0 ≤ lC.Cur - e.cur) (h4 : lC.Cur - e.cur + 4 ≤ src.length)
    (heq : cv % 2 ^ 32 = le32 src (lC.Cur - e.cur))
    (hp : ¬ s - (lC.Prev - e.cur) < maxMatchOffset) :
    probeLong e src cv s nextS lC k1 k2 =
      .ok (some (.found (storeNext e k1 k2 nextS) s (lC.Cur - e.cur) 0 nextS)) := by
  unfold probeLong
  have hcs : (storeNext e k1 k2 nextS).cur = e.cur := rfl
  simp only [hw, if_true, load3232_ok src _ h0 h4, bind, Except.bind, heq, hcs,
    inWindowEq_far src _ s (lC.Prev - e.cur) hp]
  rfl

theorem probeStep_unfold (e : fastEncL5ND) (src : List Byte) (sLimit nextEmit : Int)
    (cv : Nat) (s nextS : Int) (hN : s + doEvery + ((s - nextEmit) >>> skipLog) = nextS)
    (hlim : ¬ nextS > sLimit) (h0 : 0 ≤ nextS) (h8 : nextS + 8 ≤ src.length) :
    probeStep e src sLimit nextEmit cv s =
      (match probeLong (pushLong (setTable e (hash4x64 cv tableBits) (s + e.cur))
          (hash7 cv tableBits) (s + e.cur)) src cv s nextS (e.bTable (hash7 cv tableBits))
          (hash4x64 (le64 src nextS) tableBits) (hash7 (le64 src nextS) tableBits) with
      | .error err => .error err
      | .ok (some p) => .ok (.done p)
      | .ok none =>
        match probeShort (pushLong (setTable e (hash4x64 cv tableBits) (s + e.cur))
          (hash7 cv tableBits) (s + e.cur)) src cv (le64 src nextS) s nextS
          (e.table (hash4x64 cv tableBits))
          (hash4x64 (le64 src nextS) tableBits) (hash7 (le64 src nextS) tableBits) with
        | .error err => .error err
        | .ok (some p) => .ok (.done p)
        | .ok none => .ok (.next (pushLong (setTable e (hash4x64 cv tableBits) (s + e.cur))
          (hash7 cv tableBits) (s + e.cur)) (le64 src nextS) nextS)) := by
  unfold probeStep
  simp only [hN, hlim, if_false, load6432_ok src nextS h0 h8, bind, Except.bind]
  cases probeLong (pushLong (setTable e (hash4x64 cv tableBits) (s + e.cur))
          (hash7 cv tableBits) (s + e.cur)) src cv s nextS (e.bTable (hash7 cv tableBits))
          (hash4x64 (le64 src nextS) tableBits) (hash7 (le64 src nextS) tableBits) with
  | error err => rfl
  | ok r =>
    cases r with
    | some p => rfl
    | none =>
      simp only []
      cases probeShort (pushLong (setTable e (hash4x64 cv tableBits) (s + e.cur))
          (hash7 cv tableBits) (s + e.cur)) src cv (le64 src nextS) s nextS
          (e.table (hash4x64 cv tableBits))
          (hash4x64 (le64 src nextS) tableBits) (hash7 (le64 src nextS) tableBits) with
      | error err => rfl
      | ok r2 =>
        cases r2 with
        | some p => rfl
        | none => rfl

/-- The first pass of the probe loop over a run of identical bytes, with empty tables:
no candidate, position 0 is recorded. -/
theorem probeStep_run0 (n : Nat) (a : Byte) (h13 : 13 ≤ n) (e : fastEncL5ND)
    (hz : ZeroTables e) :
    probeStep e (List.replicate n a) ((n : Int) - 11) 0 (le64 (List.replicate n a) 0) 0 =
      .ok (.next (pushLong (setTable e (hash4x64 (le64 (List.replicate n a) 0) tableBits)
          (0 + e.cur)) (hash7 (le64 (List.replicate n a) 0) tableBits) (0 + e.cur))
        (le64 (List.replicate n a) 0) 1) := by
  obtain ⟨z1, z2, z3⟩ := hz
  have hlen : ((List.replicate n a).length : Int) = n := by simp
  rw [probeStep_unfold e (List.replicate n a) ((n : Int) - 11) 0 _ 0 1 (by decide) (by omega)
    (by omega) (by rw [hlen]; omega)]
  rw [probeLong_far _ _ _ _ _ _ _ _ (by
    rw [z2]
    show ¬ ((0 : Int) - (0 - e.cur) < maxMatchOffset)
    omega)]
  simp only []
  rw [probeShort_far _ _ _ _ _ _ _ _ _ (by
    rw [z1]
    show ¬ ((0 : Int) - (0 - e.cur) < maxMatchOffset)
    omega)]
  simp only []
  rw [le64_replicate n a 1 (by omega) (by omega)]

/-- The second pass: the chained table returns position 0, which matches. -/
theorem probeStep_run1 (n : Nat) (a : Byte) (h13 : 13 ≤ n) (e : fastEncL5ND)
    (hz : ZeroTables e) :
    ∃ e5, probeStep (pushLong (setTable e (hash4x64 (le64 (List.replicate n a) 0) tableBits)
          (0 + e.cur)) (hash7 (le64 (List.replicate n a) 0) tableBits) (0 + e.cur))
        (List.replicate n a) ((n : Int) - 11) 0 (le64 (List.replicate n a) 0) 1 =
      .ok (.done (.found e5 1 0 0 2)) := by
  obtain ⟨z1, z2, z3⟩ := hz
  have hlen : ((List.replicate n a).length : Int) = n := by simp
  generalize hcv : le64 (List.replicate n a) 0 = cv
  have hcv32 : cv % 2 ^ 32 = le32 (List.replicate n a) 0 := by
    rw [← hcv]; exact le64_mod _ _
  rw [probeStep_unfold _ (List.replicate n a) ((n : Int) - 11) 0 _ 1 2 (by decide) (by omega)
    (by omega) (by rw [hlen]; omega)]
  have hb : (pushLong (setTable e (hash4x64 cv tableBits) (0 + e.cur)) (hash7 cv tableBits)
      (0 + e.cur)).bTable (hash7 cv tableBits) = ⟨0 + e.cur, 0⟩ := by
    show upd e.bTable (hash7 cv tableBits) ⟨0 + e.cur, (e.bTable (hash7 cv tableBits)).Cur⟩
      (hash7 cv tableBits) = _
    unfold upd
    rw [if_pos rfl, z2]
  rw [hb]
  have hc0 : (0 : Int) + e.cur - e.cur = 0 := by omega
  rw [probeLong_hit _ (List.replicate n a) cv 1 2 ⟨0 + e.cur, 0⟩ _ _
    (by show (1 : Int) - (0 + e.cur - e.cur) < maxMatchOffset; rw [hc0]; decide)
    (by show (0 : Int) ≤ 0 + e.cur - e.cur; omega)
    (by show (0 : Int) + e.cur - e.cur + 4 ≤ _; rw [hlen]; omega)
    (by show cv % 2 ^ 32 = le32 _ (0 + e.cur - e.cur); rw [hc0]; exact hcv32)
    (by show ¬ ((1 : Int) - (0 - e.cur) < maxMatchOffset); omega)]
  simp only []
  exact ⟨_, congrArg (fun t => Except.ok (Probe.done (Found.found _ 1 t 0 2))) hc0⟩

/-- A match that reaches the end of the scan range: the pass writes it whole and leaves
the outer loop. -/
theorem afterMatch_whole (Q : Nat → Prop) (m : Prop) (src : List Byte) (s0 : Int) (fuel : Nat)
    (e : fastEncL5ND) (dst : tokens) (sLimit nextEmit s t l nextS l1 : Int)
    (hQ : Q (s - t - 1).toNat)
    (h1 : extendForward src s t l = .ok l1)
    (h2 : lookAhead e src sLimit s t l1 = .ok (t, l1))
    (h3 : extendBack fuel src nextEmit s t l1 = .ok (s, t, l1))
    (hm : MatchAt src s t l1) (h4 : 4 ≤ l1) (ht : 0 ≤ t) (hts : t < s)
    (hw : s - t < maxMatchOffset) (hlen : s + l1 ≤ src.length) (hne : 0 ≤ nextEmit)
    (hns : nextEmit ≤ s) (hbig : nextS < s + l1 - 1) (hfin : sLimit ≤ s + l1 - 1)
    (hf : l1 ≤ fuel) :
    ∃ e' dst' ne', afterMatch fuel e dst src sLimit nextEmit s t l nextS =
        .ok (.finish e' dst' ne') ∧
      Emits Q m True src s0 dst nextEmit dst' ne' ∧ s + l1 - 1 ≤ ne' ∧ ne' ≤ s + l1 := by
  unfold afterMatch
  have hsh := shave_spec src e s t l1 h4 hm
  have hse := shave_end e s t l1
  rcases hshv : shave e s t l1 with ⟨e3, s3, t3, l3⟩
  rw [hshv] at hsh hse
  simp only [] at hsh hse
  obtain ⟨d1, d2, d3, d4, d5, d6, d7⟩ := hsh
  obtain ⟨dst1, hep, hE1⟩ := emitPending_spec Q m src s0 dst nextEmit s3 (by omega) (by omega)
    (by omega)
  have hoff : ((s3 - t3 - baseMatchOffset) % 2 ^ 32).toNat = (s3 - t3 - 1).toNat := by
    congr 1
    unfold baseMatchOffset
    unfold maxMatchOffset at hw
    exact Int.emod_eq_of_lt (by omega) (by omega)
  have hxo : (s3 - t3 - 1).toNat < 32768 := by
    unfold maxMatchOffset at hw
    omega
  have hst : s3 - t3 - 1 = s - t - 1 := by omega
  obtain ⟨e4, dst2, hem, f1, f2⟩ := emitMatch_spec Q m src s0 (s3 - t3 - 1).toNat
    (by rw [hst]; exact hQ) hxo fuel e3
    dst1 s3 l3 (by omega) (by omega) (by omega) (by omega)
    (by
      have e1 : s3 - ((((s3 - t3 - 1).toNat : Nat) : Int) + 1) = t3 := by omega
      rw [e1]
      exact d7)
  simp only [h1, h2, h3, hshv, hep, hoff, hem, bind, Except.bind]
  have hge : ¬ (nextS ≥ s3 + l3) := by omega
  have hfin' : s3 + l3 ≥ sLimit := by omega
  simp only [hge, if_false, hfin', if_true]
  exact ⟨_, _, _, rfl, hE1.eTrans f2, by omega, by omega⟩

theorem MatchAt_replicate (n : Nat) (a : Byte) (s t l : Int) (ht : 0 ≤ t) (hts : t ≤ s)
    (hl : s + l ≤ n) : MatchAt (List.replicate n a) s t l := by
  intro k hk0 hk
  rw [byteAt_replicate n a _ (by omega) (by omega),
    byteAt_replicate n a _ (by omega) (by omega)]

theorem extendForward_run (n : Nat) (a : Byte) (h13 : 13 ≤ n) :
    extendForward (List.replicate n a) 1 0 0 = .ok ((n : Int) - 1) := by
  unfold extendForward
  rw [if_pos rfl, matchlenLong_replicate n a (1 + 4) (0 + 4) (by omega) (by omega) (by omega)]
  show Except.ok ((n : Int) - (1 + 4) + 4) = _
  congr 1
  omega

/-- The pass that follows the match found at position 1 of a run of identical bytes
writes the whole rest of the run with encoded offset 0. -/
theorem afterMatch_run (Q : Nat → Prop) (m : Prop) (hq : Q 0) (n : Nat) (a : Byte) (h13 : 13 ≤ n)
    (fuel : Nat) (hf : n ≤ fuel) (e : fastEncL5ND) (dst : tokens) :
    ∃ e' dst' ne', afterMatch fuel e dst (List.replicate n a) ((n : Int) - 11) 0 1 0 0 2 =
        .ok (.finish e' dst' ne') ∧
      Emits Q m True (List.replicate n a) 0 dst 0 dst' ne' ∧ (n : Int) - 1 ≤ ne' ∧ ne' ≤ n := by
  have hlen : ((List.replicate n a).length : Int) = n := by simp
  obtain ⟨e', dst', ne', h1, h2, h3, h4⟩ := afterMatch_whole Q m (List.replicate n a) 0 fuel e
    dst ((n : Int) - 11) 0 1 0 0 2 ((n : Int) - 1) hq (extendForward_run n a h13)
    (lookAhead_skip _ _ _ _ _ _ (by omega)) (extendBack_zero _ _ _ _ _)
    (MatchAt_replicate n a 1 0 _ (le_refl _) (by omega) (by omega)) (by omega) (le_refl _)
    (by omega) (by decide) (by rw [hlen]; omega) (le_refl _) (by omega) (by omega) (by omega)
    (by omega)
  exact ⟨e', dst', ne', h1, h2, by omega, by omega⟩

theorem probe_two (fuel : Nat) (hf : 2 ≤ fuel) (e e1 : fastEncL5ND) (src : List Byte)
    (sLimit nextEmit : Int) (cv cv1 : Nat) (s s1 : Int) (r : Found)
    (h1 : probeStep e src sLimit nextEmit cv s = .ok (.next e1 cv1 s1))
    (h2 : probeStep e1 src sLimit nextEmit cv1 s1 = .ok (.done r)) :
    probe fuel e src sLimit nextEmit cv s = .ok r := by
  cases fuel with
  | zero => omega
  | succ k =>
    cases k with
    | zero => omega
    | succ m =>
      unfold probe
      rw [h1]
      simp only []
      unfold probe
      rw [h2]

theorem outer_finish (k fuel : Nat) (hk : 1 ≤ k) (e e' : fastEncL5ND) (dst dst' : tokens)
    (src : List Byte) (sLimit nextEmit ne' : Int) (cv : Nat) (s : Int)
    (h : outerStep fuel e dst src sLimit nextEmit cv s = .ok (.finish e' dst' ne')) :
    outer k fuel e dst src sLimit nextEmit cv s = .ok (e', dst', ne') := by
  cases k with
  | zero => omega
  | succ m =>
    unfold outer
    rw [h]

theorem ZeroTables_prelude (e e1 : fastEncL5ND) (hf : Fresh e) (h1 : e1.hist = e.hist)
    (h2 : e1.cur = e.cur) (h3 : e1.table = e.table) (h4 : e1.bTable = e.bTable) :
    ZeroTables (if e1.cur ≥ bufferReset then rebaseStep e1 else e1) := by
  obtain ⟨f1, f2, f3, f4, _⟩ := hf
  split
  · have hl : e1.hist.length = 0 := by rw [h1, f1]; rfl
    unfold rebaseStep
    simp only [hl, if_true]
    exact ⟨fun _ => rfl, fun _ => rfl, le_refl _⟩
  · exact ⟨fun i => by rw [h3]; exact f2 i, fun i => by rw [h4]; exact f3 i,
      by rw [h2]; exact f4⟩

/-- `Encode` of a run of `n ≥ 13` identical bytes on a fresh encoder: it returns, and the
sink has been extended by a parse of the whole run in which every match has encoded
offset 0. -/
theorem Encode_run (Q : Nat → Prop) (m : Prop) (hq : Q 0) (n : Nat) (a : Byte) (h13 : 13 ≤ n)
    (e : fastEncL5ND) (dst : tokens) (rnd : Option (Nat → Byte)) (hf : Fresh e)
    (hr : e.rngInit = true ∨ rnd ≠ none) (hmax : n ≤ maxStoreBlockSize) :
    ∃ e' dst', Encode e dst (List.replicate n a) rnd = .ok (e', dst') ∧
      Emits Q m True (List.replicate n a) 0 dst 0 dst' n := by
  obtain ⟨e1, e2, h1, h2, h3, a1, a2, a3, a4, a5, a6, a7, a8⟩ :=
    Encode_prelude e (List.replicate n a) rnd hr
  have hz : ZeroTables e2 := by
    rw [h3]
    exact ZeroTables_prelude e e1 hf a1 a2 a3 a4
  have hh : e2.hist = [] := by rw [a7]; exact hf.1
  have hlen : ((List.replicate n a).length : Int) = n := by simp
  have hfit : e2.hist.length + (List.replicate n a).length ≤ allocHistory := by
    rw [a7]
    exact Fresh_fit e _ hf (by simpa using hmax)
  unfold Encode
  have hlt : ¬ ((List.replicate n a).length : Int) < minNonLiteralBlockSize := by
    unfold minNonLiteralBlockSize inputMargin
    rw [hlen]
    omega
  simp only [h1, h2, bind, Except.bind, addBlock_fit e2 _ hfit, hlt, if_false]
  rw [hh]
  simp only [List.nil_append, List.length_nil, Nat.cast_zero]
  rw [load6432_ok (List.replicate n a) 0 (le_refl _) (by rw [hlen]; omega)]
  simp only []
  have hsl : ((List.replicate n a).length : Int) - inputMargin = (n : Int) - 11 := by
    unfold inputMargin
    rw [hlen]
    ring
  rw [hsl]
  generalize hE3 : ({ e2 with hist := List.replicate n a } : fastEncL5ND) = e3
  have hz3 : ZeroTables e3 := by
    rw [← hE3]
    exact hz
  obtain ⟨e5, hp1⟩ := probeStep_run1 n a h13 e3 hz3
  have hp := probe_two (e.hist.length + (List.replicate n a).length + 1)
    (by simp; omega) e3 _ (List.replicate n a) ((n : Int) - 11) 0
    (le64 (List.replicate n a) 0) _ 0 1 _ (probeStep_run0 n a h13 e3 hz3) hp1
  obtain ⟨e', dst', ne', g1, g2, g3, g4⟩ := afterMatch_run Q m hq n a h13
    (e.hist.length + (List.replicate n a).length + 1) (by simp; omega) e5 dst
  have hos : outerStep (e.hist.length + (List.replicate n a).length + 1) e3 dst
      (List.replicate n a) ((n : Int) - 11) 0 (le64 (List.replicate n a) 0) 0 =
      .ok (.finish e' dst' ne') := by
    unfold outerStep
    simp only [hp, bind, Except.bind]
    exact g1
  rw [outer_finish _ _ (by omega) _ _ _ _ _ _ _ _ _ _ hos]
  simp only []
  obtain ⟨dst'', k1, k2⟩ := emitRemainder_spec Q True (List.replicate n a) 0 dst' ne' (by omega)
    (by rw [hlen]; omega)
  rw [k1]
  refine ⟨e', dst'', rfl, ?_⟩
  rcases k2 with ⟨k2, k3, k4⟩ | k2
  · intro hB hE
    have := Emit_pos Q True _ 0 dst' ne' (g2 hB hE) (by omega)
    omega
  · have := g2.eTrans k2
    rw [hlen] at this
    exact this

set_option maxRecDepth 100000 in
/-- The order of the two positions of a chained slot is not an invariant: on
`crossedBlock`, from a fresh encoder, slot 12265 ends with `Cur` at window index 129 and
`Prev` at the later index 131 (positions carry `cur = 32768`). -/
theorem Encode_crossed_slot :
    encodeSlot (freshEnc 32768 (fun _ => 0)) emptyTokens crossedBlock none 12265 =
      some ⟨32897, 32899⟩ := by
  decide

/-! ## The bit source -/

/-- The bit `Rng` returns is the bit under the cursor. -/
theorem Rng_bit (e : fastEncL5ND) : (Rng e).1 = bitOf (e.rngTab e.rngPos) e.rngBit := by
  unfold Rng bitOf
  simp only [Nat.shiftRight_eq_div_pow, Nat.and_one_is_mod]
  rcases Nat.mod_two_eq_zero_or_one ((e.rngTab e.rngPos).val / 2 ^ e.rngBit) with h | h <;>
    simp [h]

/-- One call of `Rng` advances the linear cursor `8 * rngPos + rngBit` by one, modulo 2048. -/
theorem Rng_cursor (e : fastEncL5ND) (hp : e.rngPos < 256) (hb : e.rngBit < 8) :
    (Rng e).2.rngPos = ((8 * e.rngPos + e.rngBit + 1) / 8) % 256 ∧
    (Rng e).2.rngBit = (8 * e.rngPos + e.rngBit + 1) % 8 := by
  unfold Rng
  dsimp only
  by_cases h : e.rngBit = 7
  · have : (e.rngBit + 1) % 2 ^ 8 ≥ 8 := by rw [h]; decide
    rw [if_pos this]
    dsimp only
    constructor <;> omega
  · have h1 : (e.rngBit + 1) % 2 ^ 8 = e.rngBit + 1 := Nat.mod_eq_of_lt (by omega)
    have : ¬ (e.rngBit + 1) % 2 ^ 8 ≥ 8 := by rw [h1]; omega
    rw [if_neg this]
    dsimp only
    constructor <;> omega

/-- After `k` calls the linear cursor has advanced by `k`; nothing else changed. -/
theorem rngIter_spec : ∀ (k : Nat) (e : fastEncL5ND), e.rngPos < 256 → e.rngBit < 8 →
    SameT e (rngIter k e) ∧
    (rngIter k e).rngPos = ((8 * e.rngPos + e.rngBit + k) / 8) % 256 ∧
    (rngIter k e).rngBit = (8 * e.rngPos + e.rngBit + k) % 8
  | 0, e, hp, hb => by
    refine ⟨SameT.tRefl e, ?_, ?_⟩ <;> simp only [rngIter] <;> omega
  | k + 1, e, hp, hb => by
    obtain ⟨c1, c2⟩ := Rng_cursor e hp hb
    obtain ⟨h1, h2, h3⟩ := rngIter_spec k (Rng e).2 (by rw [c1]; omega) (by rw [c2]; omega)
    refine ⟨(SameT_Rng e).tTrans h1, ?_, ?_⟩
    · show (rngIter k (Rng e).2).rngPos = _
      rw [h2, c1, c2]
      omega
    · show (rngIter k (Rng e).2).rngBit = _
      rw [h3, c1, c2]
      omega

/-- Call number `k` returns the bit `k` places after the cursor. -/
theorem draw_spec (e : fastEncL5ND) (k : Nat) (hp : e.rngPos < 256) (hb : e.rngBit < 8) :
    draw e k = bitOf (e.rngTab (((8 * e.rngPos + e.rngBit + k) / 8) % 256))
      ((8 * e.rngPos + e.rngBit + k) % 8) := by
  obtain ⟨h1, h2, h3⟩ := rngIter_spec k e hp hb
  unfold draw
  rw [Rng_bit, h2, h3, h1.1.2.2.2]


/-- Reading an updated array. -/
theorem upd_apply {α : Type} (f : Nat → α) (i : Nat) (v : α) (j : Nat) :
    upd f i v j = if j = i then v else f j := rfl

/-- The tiling loop after `n` iterations: the entries below `n` hold the entry `i % 4` of the
table it started from. -/
theorem tile_fold (tab : Nat → Byte) : ∀ (n : Nat) (j : Nat),
    (List.range n).foldl (fun tab i => upd tab i (tab (i &&& 3))) tab j =
      if j < n then tab (j % 4) else tab j
  | 0, j => by simp
  | n + 1, j => by
    rw [List.range_succ, List.foldl_append]
    simp only [List.foldl_cons, List.foldl_nil]
    rw [upd_apply]
    have h3 : n &&& 3 = n % 4 := Nat.and_pow_two_sub_one_eq_mod n 2
    by_cases hj : j = n
    · subst hj
      rw [if_pos rfl, if_pos (Nat.lt_succ_self _), tile_fold tab j (j &&& 3), h3]
      by_cases h4 : j % 4 < j
      · rw [if_pos h4, Nat.mod_mod]
      · rw [if_neg h4]
    · rw [if_neg hj, tile_fold tab n j]
      by_cases h : j < n
      · rw [if_pos h, if_pos (by omega)]
      · rw [if_neg h, if_neg (by omega)]

/-- The tiling loop leaves entry `i % 4` of the table it started from in every entry `i`. -/
theorem tile_spec (tab : Nat → Byte) (i : Nat) (h : i < 256) : tile tab i = tab (i % 4) := by
  unfold tile
  rw [tile_fold tab 256 i, if_pos h]

/-- The method `InitRNG` only replaces the table, by the seed bytes tiled. -/
theorem InitRNG_spec (e : fastEncL5ND) (seed : Nat → Byte) :
    ∃ tab, InitRNG e (some seed) = .ok { e with rngTab := tab } ∧
      ∀ i, i < 256 → tab i = seed (i % 4) := by
  refine ⟨tile (fun i => if i < 4 then seed i else e.rngTab i), rfl, ?_⟩
  intro i hi
  have h4 : i % 4 < 4 := Nat.mod_lt _ (by omega)
  rw [tile_spec _ i hi, if_pos h4]

/-! ## The scan and `emitRemainder` -/

/-- The scan of a block of at least `minNonLiteralBlockSize` bytes returns, and `Encode`
is the scan followed by `emitRemainder`. -/
theorem scanBlock_spec (Q : Nat → Prop) (m : Prop) (hQ : ∀ x, Q x) (e : fastEncL5ND)
    (dst : tokens) (S : List Byte) (rnd : Option (Nat → Byte)) (hI : Inv e)
    (hr : e.rngInit = true ∨ rnd ≠ none) (h13 : 13 ≤ S.length)
    (hfit : e.hist.length + S.length ≤ allocHistory) :
    ∃ e1 dst1 ne, scanBlock e dst S rnd = .ok (e1, dst1, ne) ∧ e1.hist = e.hist ++ S ∧
      Emits Q m m (e.hist ++ S) e.hist.length dst e.hist.length dst1 ne ∧
      (e.hist.length : Int) ≤ ne ∧ ne ≤ (e.hist ++ S).length ∧
      Encode e dst S rnd =
        (match emitRemainder dst1 (e.hist ++ S) ne with
          | .ok d => .ok (e1, d)
          | .error err => .error err) := by
  obtain ⟨e1, e2, h1, h2, h3, a1, a2, a3, a4, a5, a6, a7, a8⟩ := Encode_prelude e S rnd hr
  have hI2 := a8 hI
  have hfit2 : e2.hist.length + S.length ≤ allocHistory := by rw [a7]; exact hfit
  unfold Encode scanBlock
  have hlt : ¬ (S.length : Int) < minNonLiteralBlockSize := by
    unfold minNonLiteralBlockSize inputMargin
    omega
  simp only [h1, h2, bind, Except.bind, addBlock_fit e2 S hfit2, hlt, if_false]
  rw [a7]
  have hlen : ((e.hist ++ S).length : Int) = e.hist.length + S.length := by simp
  have hT0 : TabFrom e.hist.length { e2 with hist := e.hist ++ S } e.hist.length := by
    have := hI2.2.1
    rw [a7] at this
    exact this
  obtain ⟨c1, e', dst1, nextEmit', g1, g2, g3, g4, g5, g6⟩ := scan_core Q m hQ
    { e2 with hist := e.hist ++ S } dst (e.hist ++ S) e.hist.length S.length
    (e.hist.length + S.length + 1) (by omega) hlen h13 hT0 (by simp)
  simp only [c1, g1]
  refine ⟨e', dst1, nextEmit', rfl, g2.1, g4, g5, g6, ?_⟩
  cases emitRemainder dst1 (e.hist ++ S) nextEmit' <;> rfl


/-- What the scan and `emitRemainder` leave in a sink that was empty, for a fresh
encoder. -/
theorem Encode_scan_fresh (e : fastEncL5ND) (dst : tokens) (S : List Byte)
    (rnd : Option (Nat → Byte)) (hf : Fresh e) (hr : e.rngInit = true ∨ rnd ≠ none)
    (hd : EmptySink dst) (h13 : 13 ≤ S.length) (hmax : S.length ≤ maxStoreBlockSize) :
    ∃ e1 dst1 ne, scanBlock e dst S rnd = .ok (e1, dst1, ne) ∧
      0 ≤ ne ∧ ne ≤ S.length ∧ (∃ L1, Sink dst1 L1 ∧ Parse S 0 L1 ne) ∧
      Encode e dst S rnd =
        (match emitRemainder dst1 S ne with
          | .ok d => .ok (e1, d)
          | .error err => .error err) := by
  obtain ⟨e1, dst1, ne, h1, h2, h3, h4, h5, h6⟩ := scanBlock_spec (fun _ => True) False
    (fun _ => trivial) e dst S rnd (Inv_of_Fresh e hf) hr h13 (Fresh_fit e S hf hmax)
  rw [hf.1] at h3 h4 h5 h6
  simp only [List.nil_append, List.length_nil, Nat.cast_zero] at h3 h4 h5 h6
  have hB : ((S.length : Nat) : Int) - 0 ≤ 65535 := by
    unfold maxStoreBlockSize at hmax
    omega
  obtain ⟨L1, hS, hP, _, _⟩ := h3 hB ⟨[], Sink_of_EmptySink dst hd, rfl, by simp, False.elim⟩
  exact ⟨e1, dst1, ne, h1, h4, h5, ⟨L1, hS, hP⟩, h6⟩

/-! ## The chunk loop, token by token -/

/-- Nothing appended. -/
theorem Wrote.wRefl (dst : tokens) : Wrote dst dst [] := ⟨by simp, by simp⟩

/-- Appending twice. -/
theorem Wrote.wTrans {d1 d2 d3 : tokens} {L1 L2 : List token} (h1 : Wrote d1 d2 L1)
    (h2 : Wrote d2 d3 L2) : Wrote d1 d3 (L1 ++ L2) :=
  ⟨by rw [h2.1, h1.1, List.append_assoc], by rw [h2.2, h1.2, List.length_append]; omega⟩

/-- `AddMatch` appends one match token, as long as the counter does not wrap. -/
theorem Wrote_AddMatch (dst : tokens) (xl xo : Nat) (h : dst.n + 1 < 2 ^ 16) :
    Wrote dst (AddMatch dst xl xo) [token.matchTok xl xo] := by
  refine ⟨?_, ?_⟩
  · unfold AddMatch
    exact toks_write dst _ _ h
  · show (dst.n + 1) % 2 ^ 16 = _
    rw [Nat.mod_eq_of_lt h]
    rfl

/-- `AddLiteral` appends one literal token, as long as the counter does not wrap. -/
theorem Wrote_AddLiteral (dst : tokens) (v : Byte) (h : dst.n + 1 < 2 ^ 16) :
    Wrote dst (AddLiteral dst v) [token.literal v] := by
  refine ⟨?_, ?_⟩
  · unfold AddLiteral
    exact toks_write dst _ _ h
  · show (dst.n + 1) % 2 ^ 16 = _
    rw [Nat.mod_eq_of_lt h]
    rfl

/-- The chunks of a match cover as many bytes as their spans add up to. -/
theorem Chunks_span (src : List Byte) (off : Nat) : ∀ (L : List token) (a b : Int),
    Chunks src off a L b → a + spanOf L = b
  | [], a, b, h => by
    have : a = b := h
    simp [spanOf, this]
  | token.matchTok xl xo :: L, a, b, h => by
    obtain ⟨_, _, _, h4⟩ := h
    have := Chunks_span src off L _ b h4
    simp only [spanOf]
    omega
  | [token.literal v], a, b, h => by
    exact absurd h (by simp [Chunks])
  | token.literal v :: token.literal w :: L, a, b, h => by
    exact absurd h (by simp [Chunks])
  | token.literal v :: token.matchTok xl xo :: L, a, b, h => by
    obtain ⟨_, _, _, _, h5, h6⟩ := h
    have := Chunks_span src off L _ b h6
    simp only [spanOf]
    omega

/-- Chunks up to `b` followed by chunks from `b`. -/
theorem Chunks_append (src : List Byte) (off : Nat) : ∀ (L1 L2 : List token) (a b c : Int),
    Chunks src off a L1 b → Chunks src off b L2 c → Chunks src off a (L1 ++ L2) c
  | [], L2, a, b, c, h1, h2 => by
    have : a = b := h1
    rw [this]
    exact h2
  | token.matchTok xl xo :: L, L2, a, b, c, h1, h2 => by
    obtain ⟨p1, p2, p3, p4⟩ := h1
    exact ⟨p1, p2, p3, Chunks_append src off L L2 _ b c p4 h2⟩
  | [token.literal v], L2, a, b, c, h1, h2 => by
    exact absurd h1 (by simp [Chunks])
  | token.literal v :: token.literal w :: L, L2, a, b, c, h1, h2 => by
    exact absurd h1 (by simp [Chunks])
  | token.literal v :: token.matchTok xl xo :: L, L2, a, b, c, h1, h2 => by
    obtain ⟨p1, p2, p3, p4, p5, p6⟩ := h1
    exact ⟨p1, p2, p3, p4, p5, Chunks_append src off L L2 _ b c p6 h2⟩

/-- Every match token of the chunks carries the offset and has a length in
`[baseMatchLength, maxMatchLength]`. -/
theorem Chunks_matches (src : List Byte) (off : Nat) : ∀ (L : List token) (a b : Int),
    Chunks src off a L b → ∀ xl xo, token.matchTok xl xo ∈ L →
      xo = off ∧ baseMatchLength ≤ (xl : Int) + baseMatchLength ∧
        (xl : Int) + baseMatchLength ≤ maxMatchLength
  | [], a, b, h, xl, xo, hm => by cases hm
  | token.matchTok xl1 xo1 :: L, a, b, h, xl, xo, hm => by
    obtain ⟨p1, p2, p3, p4⟩ := h
    rcases List.mem_cons.mp hm with hh | hh
    · cases hh
      exact ⟨p1, p2, p3⟩
    · exact Chunks_matches src off L _ b p4 xl xo hh
  | [token.literal v], a, b, h, xl, xo, hm => by
    exact absurd h (by simp [Chunks])
  | token.literal v :: token.literal w :: L, a, b, h, xl, xo, hm => by
    exact absurd h (by simp [Chunks])
  | token.literal v :: token.matchTok xl1 xo1 :: L, a, b, h, xl, xo, hm => by
    obtain ⟨p1, p2, p3, p4, p5, p6⟩ := h
    rcases List.mem_cons.mp hm with hh | hh
    · cases hh
    rcases List.mem_cons.mp hh with hh | hh
    · cases hh
      exact ⟨p4, by unfold baseMatchLength; omega, le_of_eq p5⟩
    · exact Chunks_matches src off L _ b p6 xl xo hh


/-- The tokens `AddMatchLong` appends for a length of at least `baseMatchLength`: chunks
that cover exactly that length. -/
theorem AddMatchLong_chunks (src : List Byte) (off : Nat) :
    ∀ (fuel : Nat) (dst : tokens) (x a : Int), 3 ≤ x → x ≤ fuel → dst.n + x < 2 ^ 16 →
      ∃ dst' L, AddMatchLong fuel dst x off = .ok dst' ∧ Wrote dst dst' L ∧
        Chunks src off a L (a + x)
  | 0, dst, x, a, h3, hf, hn => by
    simp at hf
    omega
  | fuel + 1, dst, x, a, h3, hf, hn => by
    unfold AddMatchLong
    have hx0 : x > 0 := by omega
    simp only [hx0, if_true]
    unfold baseMatchLength
    have hn1 : dst.n + 1 < 2 ^ 16 := by omega
    by_cases h258 : x > 258
    · by_cases h261 : x > 258 + 3
      · simp only [h258, h261, if_true]
        have e : (((258 : Int) - 3) % 2 ^ 32).toNat = 255 := by decide
        rw [e]
        have hW := Wrote_AddMatch dst 255 off hn1
        obtain ⟨dst', L, h1, h2, h4⟩ := AddMatchLong_chunks src off fuel (AddMatch dst 255 off)
          (x - 258) (a + 258) (by omega) (by push_cast at hf ⊢; omega)
          (by rw [hW.2]; simp only [List.length_singleton]; push_cast; omega)
        refine ⟨dst', _, h1, hW.wTrans h2, ?_⟩
        have e1 : a + 258 + (x - 258) = a + x := by ring
        rw [e1] at h4
        refine ⟨rfl, by unfold baseMatchLength; omega,
          by decide, ?_⟩
        have e2 : a + (((255 : Nat) : Int) + baseMatchLength) = a + 258 := by
          unfold baseMatchLength; push_cast; ring
        rw [e2]
        exact h4
      · simp only [h258, h261, if_true, if_false]
        have e : (((258 : Int) - 3 - 3) % 2 ^ 32).toNat = 252 := by decide
        rw [e]
        have hW := Wrote_AddMatch dst 252 off hn1
        obtain ⟨dst', L, h1, h2, h4⟩ := AddMatchLong_chunks src off fuel (AddMatch dst 252 off)
          (x - (258 - 3)) (a + 255) (by omega) (by push_cast at hf ⊢; omega)
          (by rw [hW.2]; simp only [List.length_singleton]; push_cast; omega)
        refine ⟨dst', _, h1, hW.wTrans h2, ?_⟩
        have e1 : a + 255 + (x - (258 - 3)) = a + x := by ring
        rw [e1] at h4
        refine ⟨rfl, by unfold baseMatchLength; omega,
          by decide, ?_⟩
        have e2 : a + (((252 : Nat) : Int) + baseMatchLength) = a + 255 := by
          unfold baseMatchLength; push_cast; ring
        rw [e2]
        exact h4
    · simp only [h258, if_false, sub_self]
      have e : ((x - 3) % 2 ^ 32).toNat = (x - 3).toNat := by
        congr 1
        exact Int.emod_eq_of_lt (by omega) (by omega)
      rw [e]
      have hW := Wrote_AddMatch dst (x - 3).toNat off hn1
      have hz : AddMatchLong fuel (AddMatch dst (x - 3).toNat off) 0 off =
          .ok (AddMatch dst (x - 3).toNat off) := by
        cases fuel <;> simp [AddMatchLong]
      rw [hz]
      refine ⟨_, _, rfl, hW, ?_⟩
      have e3 : (((x - 3).toNat : Nat) : Int) = x - 3 := by omega
      refine ⟨rfl, by unfold baseMatchLength; omega,
        by unfold baseMatchLength maxMatchLength; omega, ?_⟩
      show a + ((((x - 3).toNat : Nat) : Int) + baseMatchLength) = a + x
      unfold baseMatchLength
      omega

/-- The chunk loop of lines 288-305 up to its call of `AddMatchLong`: it reaches that call
with a remainder `r` of at least `baseMatchLength` and at most
`maxMatchLength + baseMatchLength`, having appended chunks that cover the first `l - r`
bytes of the match. -/
theorem emitMatch_split (src : List Byte) (off : Nat) :
    ∀ (fuel : Nat) (e : fastEncL5ND) (dst : tokens) (s l : Int), 3 ≤ l → l ≤ fuel →
      0 ≤ s → s + l ≤ src.length → dst.n + l < 2 ^ 16 →
      ∃ e1 dst1 L1 r, baseMatchLength ≤ r ∧ r ≤ maxMatchLength + baseMatchLength ∧ r ≤ l ∧
        SameT e e1 ∧ Wrote dst dst1 L1 ∧ Chunks src off s L1 (s + l - r) ∧
        emitMatch fuel e dst src s l off =
          (match AddMatchLong r.toNat dst1 r off with
            | .ok d => .ok (e1, d)
            | .error err => .error err)
  | 0, e, dst, s, l, h3, hf, hs, hlen, hn => by
    simp at hf
    omega
  | fuel + 1, e, dst, s, l, h3, hf, hs, hlen, hn => by
    unfold emitMatch
    have hl0 : l > 0 := by omega
    have e255 : (maxMatchLength - baseMatchLength).toNat = 255 := by decide
    simp only [hl0, if_true, e255]
    have hn1 : dst.n + 1 < 2 ^ 16 := by omega
    by_cases hbig : l > maxMatchLength + baseMatchLength
    · simp only [hbig, if_true]
      unfold maxMatchLength baseMatchLength at hbig
      by_cases hr : (Rng e).1 = true
      · simp only [hr, if_true]
        have hW := Wrote_AddMatch dst 255 off hn1
        obtain ⟨e1, dst1, L1, r, q1, q2, q3, q4, q5, q6, q7⟩ := emitMatch_split src off fuel
          (Rng e).2 (AddMatch dst 255 off) (s + maxMatchLength) (l - maxMatchLength)
          (by unfold maxMatchLength; omega) (by unfold maxMatchLength; push_cast at hf ⊢; omega)
          (by unfold maxMatchLength; omega) (by unfold maxMatchLength; omega)
          (by rw [hW.2]; unfold maxMatchLength; simp only [List.length_singleton];
              push_cast; omega)
        refine ⟨e1, dst1, _, r, q1, q2, by unfold maxMatchLength at q3; omega,
          (SameT_Rng e).tTrans q4, hW.wTrans q5, ?_, q7⟩
        refine ⟨rfl, by unfold baseMatchLength; omega,
          by decide, ?_⟩
        have e2 : s + (((255 : Nat) : Int) + baseMatchLength) = s + maxMatchLength := by
          unfold baseMatchLength maxMatchLength; push_cast; ring
        have e3 : s + maxMatchLength + (l - maxMatchLength) - r = s + l - r := by ring
        rw [e2, ← e3]
        exact q6
      · obtain ⟨v, hv, hv'⟩ := index_ok src s (by omega) (by omega)
        simp only [hr, Bool.false_eq_true, if_false, hv]
        have hW1 := Wrote_AddLiteral dst v hn1
        have hW2 := Wrote_AddMatch (AddLiteral dst v) 255 off
          (by rw [hW1.2]; simp only [List.length_singleton]; omega)
        have hW := hW1.wTrans hW2
        obtain ⟨e1, dst1, L1, r, q1, q2, q3, q4, q5, q6, q7⟩ := emitMatch_split src off fuel
          (Rng e).2 (AddMatch (AddLiteral dst v) 255 off) (s + 1 + maxMatchLength)
          (l - 1 - maxMatchLength)
          (by unfold maxMatchLength; omega) (by unfold maxMatchLength; push_cast at hf ⊢; omega)
          (by unfold maxMatchLength; omega) (by unfold maxMatchLength; omega)
          (by rw [hW.2]; unfold maxMatchLength
              simp only [List.length_append, List.length_singleton]; push_cast; omega)
        refine ⟨e1, dst1, _, r, q1, q2, by unfold maxMatchLength at q3; omega,
          (SameT_Rng e).tTrans q4, hW.wTrans q5, ?_, q7⟩
        refine ⟨hs, by omega, hv', rfl, by unfold baseMatchLength maxMatchLength; decide, ?_⟩
        have e3 : s + 1 + maxMatchLength + (l - 1 - maxMatchLength) - r = s + l - r := by ring
        rw [← e3]
        exact q6
    · simp only [hbig, if_false]
      refine ⟨e, dst, [], l, by unfold baseMatchLength; omega, by omega, le_refl _,
        SameT.tRefl e, Wrote.wRefl dst, ?_, ?_⟩
      · show s = s + l - l
        ring
      · cases AddMatchLong l.toNat dst l off <;> rfl

/-! ## Further facts on the adjustments, the hashes and the counter of the sink -/

/-- The three outcomes of the shave: nothing, one byte off the start, one byte off the
end; a byte is shaved only off a match longer than `baseMatchLength + 1`. -/
theorem shave_cases (e : fastEncL5ND) (s t l : Int) :
    (shave e s t l).2 = (s, t, l) ∨
    (l > baseMatchLength + 1 ∧
      ((shave e s t l).2 = (s + 1, t + 1, l - 1) ∨ (shave e s t l).2 = (s, t, l - 1))) := by
  unfold shave
  by_cases h : l > baseMatchLength + 1
  · rw [if_pos h]
    dsimp only
    by_cases h1 : (Rng e).1 = true
    · rw [if_pos h1]
      by_cases h2 : (Rng (Rng e).2).1 = true
      · rw [if_pos h2]
        exact Or.inr ⟨h, Or.inl rfl⟩
      · rw [if_neg h2]
        exact Or.inr ⟨h, Or.inr rfl⟩
    · rw [if_neg h1]
      exact Or.inl rfl
  · rw [if_neg h]
    exact Or.inl rfl

/-- The shave applies when the match is longer than `baseMatchLength + 1` and the first bit
drawn is set: it takes one byte, off the start or off the end by the second bit drawn. -/
theorem shave_applies (e : fastEncL5ND) (s t l : Int) (hl : l > baseMatchLength + 1)
    (hb : draw e 0 = true) :
    (shave e s t l).2.2.2 = l - 1 ∧
      (draw e 1 = true → (shave e s t l).2 = (s + 1, t + 1, l - 1)) ∧
      (draw e 1 = false → (shave e s t l).2 = (s, t, l - 1)) := by
  have h1 : (Rng e).1 = true := hb
  unfold shave
  rw [if_pos hl]
  dsimp only
  rw [if_pos h1]
  by_cases h2 : (Rng (Rng e).2).1 = true
  · rw [if_pos h2]
    refine ⟨rfl, fun _ => rfl, fun h => ?_⟩
    have h3 : (Rng (Rng e).2).1 = false := h
    rw [h3] at h2
    cases h2
  · rw [if_neg h2]
    refine ⟨rfl, fun h => ?_, fun _ => rfl⟩
    have h3 : (Rng (Rng e).2).1 = true := h
    exact absurd h3 h2

/-- In every other case the shave leaves the match as it is. -/
theorem shave_skips (e : fastEncL5ND) (s t l : Int)
    (h : ¬ (l > baseMatchLength + 1 ∧ draw e 0 = true)) : (shave e s t l).2 = (s, t, l) := by
  unfold shave
  by_cases hl : l > baseMatchLength + 1
  · rw [if_pos hl]
    dsimp only
    have h1 : ¬ (Rng e).1 = true := fun hh => h ⟨hl, hh⟩
    rw [if_neg h1]
  · rw [if_neg hl]

/-- Every match of a parse has a positive distance that does not reach before the start
of the window. -/
theorem Parse_matchStarts (src : List Byte) : ∀ (L : List token) (a b : Int),
    Parse src a L b → ∀ p ∈ matchStarts a L, 0 < p.2 ∧ p.2 ≤ p.1 ∧ p.2 ≤ maxMatchOffset
  | [], _, _, _, p, hp => by cases hp
  | token.literal v :: L, a, b, h, p, hp => Parse_matchStarts src L (a + 1) b h.2.2.2 p hp
  | token.matchTok xl xo :: L, a, b, h, p, hp => by
    obtain ⟨p1, p2, p3, p4, p5, p6⟩ := h
    rcases List.mem_cons.mp hp with hh | hh
    · rw [hh]
      unfold baseMatchOffset maxMatchOffset
      exact ⟨by show (0:Int) < xo + 1; omega, by show (xo:Int) + 1 ≤ a; omega,
        by show (xo : Int) + 1 ≤ 32768; omega⟩
    · exact Parse_matchStarts src L _ b p6 p hh

/-- An index of the short table is below `tableSize`. -/
theorem hash4x64_lt (u : Nat) : hash4x64 u tableBits < tableSize := by
  unfold hash4x64 tableSize tableBits
  have : u % 2 ^ 32 * prime4bytes % 2 ^ 32 < 2 ^ 32 := Nat.mod_lt _ (by decide)
  rw [Nat.shiftRight_eq_div_pow]
  norm_num at this ⊢
  omega

/-- An index of the short table built by `hash4u` is below `tableSize`. -/
theorem hash4u_lt (u : Nat) : hash4u u tableBits < tableSize := by
  unfold hash4u tableSize tableBits
  have : u % 2 ^ 32 * prime4bytes % 2 ^ 32 < 2 ^ 32 := Nat.mod_lt _ (by decide)
  rw [Nat.shiftRight_eq_div_pow]
  norm_num at this ⊢
  omega

/-- An index of the chained table is below `tableSize`. -/
theorem hash7_lt (u : Nat) : hash7 u tableBits < tableSize := by
  unfold hash7 tableSize tableBits
  have : u * 256 % 2 ^ 64 * prime7bytes % 2 ^ 64 < 2 ^ 64 := Nat.mod_lt _ (by decide)
  rw [Nat.shiftRight_eq_div_pow]
  norm_num at this ⊢
  omega

/-- A bind that returns: its first action returned. -/
theorem bind_ok {α β : Type} (x : M α) (f : α → M β) (b : β) (h : (x >>= f) = .ok b) :
    ∃ a, x = .ok a ∧ f a = .ok b := by
  cases x with
  | error err => cases h
  | ok a => exact ⟨a, rfl, h⟩

/-- The counter of the sink stays a `uint16` through `emitLiteral`. -/
theorem emitLiteral_n_lt : ∀ (lit : List Byte) (dst : tokens), dst.n < 2 ^ 16 →
    (emitLiteral dst lit).n < 2 ^ 16
  | [], dst, h => h
  | v :: lit, dst, h => by
    show (emitLiteral (AddLiteral dst v) lit).n < 2 ^ 16
    exact emitLiteral_n_lt lit _ (Nat.mod_lt _ (by decide))

/-- The counter of the sink stays a `uint16` through `AddMatchLong`. -/
theorem AddMatchLong_n_lt : ∀ (fuel : Nat) (dst : tokens) (x : Int) (off : Nat) (d : tokens),
    AddMatchLong fuel dst x off = .ok d → dst.n < 2 ^ 16 → d.n < 2 ^ 16
  | 0, dst, x, off, d, h, hn => by
    unfold AddMatchLong at h
    split at h
    · cases h
    · cases h
      exact hn
  | fuel + 1, dst, x, off, d, h, hn => by
    unfold AddMatchLong at h
    split at h
    · exact AddMatchLong_n_lt fuel _ _ off d h (Nat.mod_lt _ (by decide))
    · cases h
      exact hn

/-- The counter of the sink stays a `uint16` through the chunk loop. -/
theorem emitMatch_n_lt : ∀ (fuel : Nat) (e : fastEncL5ND) (dst : tokens) (src : List Byte)
    (s l : Int) (off : Nat) (e' : fastEncL5ND) (d : tokens),
    emitMatch fuel e dst src s l off = .ok (e', d) → dst.n < 2 ^ 16 → d.n < 2 ^ 16
  | 0, e, dst, src, s, l, off, e', d, h, hn => by
    unfold emitMatch at h
    split at h
    · cases h
    · cases h
      exact hn
  | fuel + 1, e, dst, src, s, l, off, e', d, h, hn => by
    unfold emitMatch at h
    split at h
    · split at h
      · dsimp only at h
        split at h
        · exact emitMatch_n_lt fuel _ _ src _ _ off e' d h (Nat.mod_lt _ (by decide))
        · split at h
          · cases h
          · exact emitMatch_n_lt fuel _ _ src _ _ off e' d h (Nat.mod_lt _ (by decide))
      · split at h
        · cases h
        · rename_i d' hd
          cases h
          exact AddMatchLong_n_lt _ _ _ _ _ hd hn
    · cases h
      exact hn

/-- The counter of the sink stays a `uint16` through the pending literal run. -/
theorem emitPending_n_lt (dst : tokens) (src : List Byte) (nextEmit s : Int) (d : tokens)
    (h : emitPending dst src nextEmit s = .ok d) (hn : dst.n < 2 ^ 16) : d.n < 2 ^ 16 := by
  unfold emitPending at h
  split at h
  · obtain ⟨lit, _, h⟩ := bind_ok _ _ _ h
    cases h
    exact emitLiteral_n_lt lit dst hn
  · cases h
    exact hn

/-- The counter of the sink stays a `uint16` through `emitRemainder`. -/
theorem emitRemainder_n_lt (dst : tokens) (src : List Byte) (nextEmit : Int) (d : tokens)
    (h : emitRemainder dst src nextEmit = .ok d) (hn : dst.n < 2 ^ 16) : d.n < 2 ^ 16 := by
  unfold emitRemainder at h
  split at h
  · split at h
    · cases h
      exact hn
    · obtain ⟨lit, _, h⟩ := bind_ok _ _ _ h
      cases h
      exact emitLiteral_n_lt lit dst hn
  · cases h
    exact hn

/-- The counter of the sink stays a `uint16` through the emission of a match. -/
theorem afterMatch_n_lt (fuel : Nat) (e : fastEncL5ND) (dst : tokens) (src : List Byte)
    (sLimit nextEmit s t l nextS : Int) (r : Outer)
    (h : afterMatch fuel e dst src sLimit nextEmit s t l nextS = .ok r) (hn : dst.n < 2 ^ 16) :
    r.sink.n < 2 ^ 16 := by
  unfold afterMatch at h
  obtain ⟨l1, _, h⟩ := bind_ok _ _ _ h
  obtain ⟨⟨t1, l1'⟩, _, h⟩ := bind_ok _ _ _ h
  dsimp only at h
  obtain ⟨⟨s2, t2, l2⟩, _, h⟩ := bind_ok _ _ _ h
  dsimp only at h
  obtain ⟨d1, hd1, h⟩ := bind_ok _ _ _ h
  obtain ⟨⟨e4, d2⟩, hd2, h⟩ := bind_ok _ _ _ h
  dsimp only at h
  have hn2 : d2.n < 2 ^ 16 :=
    emitMatch_n_lt _ _ _ _ _ _ _ _ _ hd2 (emitPending_n_lt _ _ _ _ _ hd1 hn)
  have fin : ∀ (c : Prop) [Decidable c] (x : Int),
      (if c then pure (Outer.finish e4 d2 ((shave e s2 t2 l2).2.1 + (shave e s2 t2 l2).2.2.2))
        else do
          let e5 ← refresh fuel e4 src x (shave e s2 t2 l2).2.2.2
          let r ← reinsert e5 src x
          pure (Outer.again r.1 d2 ((shave e s2 t2 l2).2.1 + (shave e s2 t2 l2).2.2.2) r.2 x) :
          M Outer) = .ok r → r.sink.n < 2 ^ 16 := by
    intro c _ x hx
    split at hx
    · cases hx
      exact hn2
    · obtain ⟨e5, _, hx⟩ := bind_ok _ _ _ hx
      obtain ⟨⟨e6, cv⟩, _, hx⟩ := bind_ok _ _ _ hx
      cases hx
      exact hn2
  exact fin _ _ h

/-- The counter of the sink stays a `uint16` through the outer loop. -/
theorem outer_n_lt : ∀ (n fuel : Nat) (e : fastEncL5ND) (dst : tokens) (src : List Byte)
    (sLimit nextEmit : Int) (cv : Nat) (s : Int) (e' : fastEncL5ND) (d : tokens) (ne : Int),
    outer n fuel e dst src sLimit nextEmit cv s = .ok (e', d, ne) → dst.n < 2 ^ 16 →
    d.n < 2 ^ 16
  | 0, fuel, e, dst, src, sLimit, nextEmit, cv, s, e', d, ne, h, hn => by
    cases h
  | n + 1, fuel, e, dst, src, sLimit, nextEmit, cv, s, e', d, ne, h, hn => by
    unfold outer at h
    split at h
    · cases h
    · rename_i e1 d1 ne1 cv1 s1 hstep
      have : d1.n < 2 ^ 16 := by
        unfold outerStep at hstep
        obtain ⟨r, _, hstep⟩ := bind_ok _ _ _ hstep
        cases r with
        | remainder e2 => cases hstep
        | found e2 s2 t2 l2 nextS2 =>
          exact afterMatch_n_lt _ _ _ _ _ _ _ _ _ _ _ hstep hn
      exact outer_n_lt n fuel _ _ src sLimit _ _ _ e' d ne h this
    · rename_i e1 d1 ne1 hstep
      cases h
      unfold outerStep at hstep
      obtain ⟨r, _, hstep⟩ := bind_ok _ _ _ hstep
      cases r with
      | remainder e2 =>
        cases hstep
        exact hn
      | found e2 s2 t2 l2 nextS2 =>
        exact afterMatch_n_lt _ _ _ _ _ _ _ _ _ _ _ hstep hn

/-- The counter of the sink stays a `uint16` through `Encode`. -/
theorem Encode_n_lt (e : fastEncL5ND) (dst : tokens) (S : List Byte)
    (rnd : Option (Nat → Byte)) (e' : fastEncL5ND) (d : tokens)
    (h : Encode e dst S rnd = .ok (e', d)) (hn : dst.n < 2 ^ 16) : d.n < 2 ^ 16 := by
  unfold Encode at h
  obtain ⟨e1, _, h⟩ := bind_ok _ _ _ h
  obtain ⟨e2, _, h⟩ := bind_ok _ _ _ h
  obtain ⟨⟨s0, e3⟩, _, h⟩ := bind_ok _ _ _ h
  dsimp only at h
  split at h
  · cases h
    exact Nat.mod_lt _ (by decide)
  · obtain ⟨cv, _, h⟩ := bind_ok _ _ _ h
    obtain ⟨⟨e4, d3, ne⟩, h3, h⟩ := bind_ok _ _ _ h
    dsimp only at h
    obtain ⟨d4, h4, h⟩ := bind_ok _ _ _ h
    cases h
    exact emitRemainder_n_lt _ _ _ _ h4 (outer_n_lt _ _ _ _ _ _ _ _ _ _ _ _ h3 hn)

/-- A parse from `a` to `b` covers as many bytes as the spans of its tokens add up to. -/
theorem Parse_span (src : List Byte) : ∀ (L : List token) (a b : Int),
    Parse src a L b → a + spanOf L = b
  | [], a, b, h => by
    have : a = b := h
    simp [spanOf, this]
  | token.literal v :: L, a, b, h => by
    have := Parse_span src L (a + 1) b h.2.2.2
    simp only [spanOf]
    omega
  | token.matchTok xl xo :: L, a, b, h => by
    obtain ⟨_, _, _, _, _, p6⟩ := h
    have := Parse_span src L _ b p6
    simp only [spanOf]
    unfold baseMatchLength
    omega

/-- A token stands for at least one byte: a literal for one, a match for at least
`baseMatchLength`. -/
theorem length_le_spanOf : ∀ (L : List token), (L.length : Int) ≤ spanOf L
  | [] => by simp [spanOf]
  | token.literal v :: L => by
    have := length_le_spanOf L
    simp only [spanOf, List.length_cons]
    push_cast
    omega
  | token.matchTok xl xo :: L => by
    have := length_le_spanOf L
    simp only [spanOf, List.length_cons]
    unfold baseMatchLength
    push_cast
    omega

/-! ## The claims -/

/-- C1 (counterexample): the round trip fails as stated.  On a fresh encoder with an
empty sink the one-byte block `[1]` leaves `dst.n = 1` without writing a token, so the
slot read back decodes to `[0]`; and a 13-byte block without a repeat leaves `dst.n = 0`,
so the token stream decodes to the empty sequence. -/
theorem C1_round_trip_fails :
    encodeDecode (freshEnc 65535 (fun _ => 0)) emptyTokens [1] none = some [0] ∧
    encodeDecode (freshEnc 65535 (fun _ => 0)) emptyTokens [1] none ≠ some [1] ∧
    encodeCount (freshEnc 65535 (fun _ => 0)) emptyTokens
      [0, 1, 2, 3, 4, 5, 6, 7, 8, 9, 10, 11, 12] none = some 0 ∧
    encodeDecode (freshEnc 65535 (fun _ => 0)) emptyTokens
      [0, 1, 2, 3, 4, 5, 6, 7, 8, 9, 10, 11, 12] none = some [] := by
  decide

/-- C1 (amended): for every block `S` of at least `minNonLiteralBlockSize = 13` and at
most `maxStoreBlockSize` bytes and every state of the bit source, `Encode` on a fresh
encoder with an empty sink returns, and either leaves `dst.n = 0` (no match was found and
the block is left to the caller) or wrote a token stream `dst.tokens[0..dst.n)` that a
standard LZ77 decoder turns back into exactly `S`. -/
theorem C1_round_trip (e : fastEncL5ND) (dst : tokens) (S : List Byte)
    (rnd : Option (Nat → Byte)) (hf : Fresh e) (hr : e.rngInit = true ∨ rnd ≠ none)
    (hd : EmptySink dst) (h13 : 13 ≤ S.length) (hmax : S.length ≤ maxStoreBlockSize) :
    ∃ e' dst', Encode e dst S rnd = .ok (e', dst') ∧
      (dst'.n = 0 ∨ decode (toks dst') [] = some S) := by
  obtain ⟨e', dst', h1, _, L, hS, hL⟩ := Encode_parse e dst S rnd (Inv_of_Fresh e hf) hr hd
    h13 hmax (Fresh_fit e S hf hmax)
  refine ⟨e', dst', h1, ?_⟩
  rcases hL with hL | hL
  · left
    rw [hS.1, hL]
    rfl
  · right
    rw [hf.1] at hL
    have := Parse_decode ([] ++ S) L _ _ (le_refl _) hL
    rw [hS.2.1]
    simpa using this

/-- C1 witness: `C1_round_trip` applied to a concrete call, every hypothesis discharged. -/
theorem C1_round_trip_witness :
    Fresh (freshEnc 65535 (fun _ => 0)) ∧ EmptySink emptyTokens ∧
    13 ≤ (List.replicate 64 (65 : Byte)).length ∧
    (List.replicate 64 (65 : Byte)).length ≤ maxStoreBlockSize ∧
    ∃ e' dst', Encode (freshEnc 65535 (fun _ => 0)) emptyTokens (List.replicate 64 65) none =
        .ok (e', dst') ∧
      (dst'.n = 0 ∨ decode (toks dst') [] = some (List.replicate 64 65)) :=
  ⟨⟨rfl, fun _ => rfl, fun _ => rfl, by decide, by decide⟩, ⟨rfl, fun _ => rfl⟩, by decide,
    by decide,
    C1_round_trip (freshEnc 65535 (fun _ => 0)) emptyTokens (List.replicate 64 65) none
      ⟨rfl, fun _ => rfl, fun _ => rfl, by decide, by decide⟩ (Or.inl rfl)
      ⟨rfl, fun _ => rfl⟩ (by decide) (by decide)⟩

/-- C2: match bounds.  From every encoder state reached from a fresh encoder by earlier
`Encode` calls (the fresh encoder included; the history may have been moved down and `cur`
advanced any number of times), for every block `S` that fits the sink and every state of
the bit source, `Encode` on an empty sink returns and every match token it wrote has a
length in `[baseMatchLength, maxMatchLength]`, a distance `d` with `0 < d ≤ maxMatchOffset`,
and a copy source `t = s - d` with `0 ≤ t < s`, where `s` is the index, in the window the
call leaves, at which the match is emitted (the block starts at index
`len(window) - len(S)`); a block below `minNonLiteralBlockSize` writes no token slot at
all. -/
theorem C2_match_bounds (e : fastEncL5ND) (dst : tokens) (S : List Byte)
    (rnd : Option (Nat → Byte)) (hR : Reachable e) (hr : e.rngInit = true ∨ rnd ≠ none)
    (hd : EmptySink dst) (hmax : S.length ≤ maxStoreBlockSize) :
    ∃ e' dst', Encode e dst S rnd = .ok (e', dst') ∧
      MatchBounds ((e'.hist.length : Int) - S.length) (written S dst') ∧
      ((S.length : Int) < minNonLiteralBlockSize → dst'.tokens = dst.tokens) := by
  by_cases h13 : S.length < 13
  · obtain ⟨e2, h2, _⟩ := Encode_small e dst S rnd hr h13
    have hlt : (S.length : Int) < minNonLiteralBlockSize := by
      unfold minNonLiteralBlockSize inputMargin
      omega
    refine ⟨_, _, h2, ?_, fun _ => rfl⟩
    unfold written
    rw [if_pos hlt]
    trivial
  · obtain ⟨e', dst', h1, _, L, hS, hL⟩ := Encode_parse_win e dst S rnd
      (Inv_of_Reachable e hR) hr hd (by omega) hmax
    have hlt : ¬ (S.length : Int) < minNonLiteralBlockSize := by
      unfold minNonLiteralBlockSize inputMargin
      omega
    refine ⟨e', dst', h1, ?_, fun h => absurd h hlt⟩
    unfold written
    rw [if_neg hlt, hS.2.1]
    rcases hL with hL | hL
    · rw [hL]
      trivial
    · exact Parse_MatchBounds _ L _ _ hL

/-- C2 witness: `C2_match_bounds` applied to a concrete call, every hypothesis discharged. -/
theorem C2_match_bounds_witness :
    Reachable (freshEnc 65535 (fun _ => 0)) ∧ EmptySink emptyTokens ∧
    (List.replicate 64 (65 : Byte)).length ≤ maxStoreBlockSize ∧
    ∃ e' dst', Encode (freshEnc 65535 (fun _ => 0)) emptyTokens (List.replicate 64 65) none =
        .ok (e', dst') ∧
      MatchBounds ((e'.hist.length : Int) - (List.replicate 64 (65 : Byte)).length)
        (written (List.replicate 64 65) dst') ∧
      (((List.replicate 64 (65 : Byte)).length : Int) < minNonLiteralBlockSize →
        dst'.tokens = emptyTokens.tokens) :=
  ⟨Reachable.fresh _ ⟨rfl, fun _ => rfl, fun _ => rfl, by decide, by decide⟩,
    ⟨rfl, fun _ => rfl⟩, by decide,
    C2_match_bounds (freshEnc 65535 (fun _ => 0)) emptyTokens (List.replicate 64 65) none
      (Reachable.fresh _ ⟨rfl, fun _ => rfl, fun _ => rfl, by decide, by decide⟩) (Or.inl rfl)
      ⟨rfl, fun _ => rfl⟩ (by decide)⟩

/-- C3: small-block fallback.  For every block `S` shorter than
`minNonLiteralBlockSize = 13` and every encoder state with `cur < bufferReset`, `Encode`
returns having written no token slot and no histogram entry of the sink, leaves both hash
tables and the two cursors of the bit source unchanged, sets `dst.n` to `len(S)` and
appends `S` to the history: the history it leaves is the old one without its first `k`
bytes, followed by `S`, and `cur` has grown by `k`.  Here `k = 0` when `S` fits behind the
history in the `allocHistory` bytes of the buffer, so that then the history is the old one
followed by `S` and `cur` is unchanged; otherwise the history was moved down and its last
`maxMatchOffset` bytes are what is kept. -/
theorem C3_small_block (e : fastEncL5ND) (dst : tokens) (S : List Byte)
    (rnd : Option (Nat → Byte)) (hr : e.rngInit = true ∨ rnd ≠ none)
    (h13 : (S.length : Int) < minNonLiteralBlockSize) (hcur : e.cur < bufferReset) :
    ∃ e' dst', Encode e dst S rnd = .ok (e', dst') ∧
      dst'.tokens = dst.tokens ∧ dst'.litHist = dst.litHist ∧
      e'.table = e.table ∧ e'.bTable = e.bTable ∧
      e'.rngPos = e.rngPos ∧ e'.rngBit = e.rngBit ∧
      dst'.n = S.length ∧
      ∃ k : Nat, k ≤ e.hist.length ∧ e'.hist = e.hist.drop k ++ S ∧ e'.cur = e.cur + k ∧
        (e.hist.length + S.length ≤ allocHistory →
          k = 0 ∧ e'.hist = e.hist ++ S ∧ e'.cur = e.cur) ∧
        (allocHistory < e.hist.length + S.length →
          (e.hist.length : Int) = k + maxMatchOffset ∧
          (e'.hist.length : Int) = maxMatchOffset + S.length) := by
  have h13' : S.length < 13 := by
    unfold minNonLiteralBlockSize inputMargin at h13
    omega
  obtain ⟨e3, h2, e1, e2, k, b1, b2, b3, b4, b5, b6, b7, c1, c2, c3, c4, c5⟩ :=
    Encode_small e dst S rnd hr h13'
  have he : e2 = e1 := by
    rw [b2, if_neg (by rw [c1]; omega)]
  subst he
  subst b3
  have hlen : ((e2.hist.drop k ++ S).length : Int) = (e.hist.length : Int) - k + S.length := by
    rw [b4]
    simp only [List.length_append, List.length_drop]
    omega
  refine ⟨_, _, h2, rfl, rfl, c2, c3, c4, c5, ?_, k, b6, ?_, ?_, ?_, ?_⟩
  · show S.length % 2 ^ 16 = S.length
    exact Nat.mod_eq_of_lt (by omega)
  · show e2.hist.drop k ++ S = e.hist.drop k ++ S
    rw [b4]
  · show e2.cur + (k : Int) = e.cur + k
    rw [c1]
  · intro hfit
    have hk : k = 0 := by
      rcases b7 with b7 | b7
      · exact b7.2
      · omega
    subst hk
    refine ⟨rfl, ?_, ?_⟩
    · show e2.hist.drop 0 ++ S = e.hist ++ S
      rw [b4]
      rfl
    · show e2.cur + ((0 : Nat) : Int) = e.cur
      rw [c1]
      simp
  · intro hfull
    have hk : (e.hist.length : Int) = k + maxMatchOffset := by
      rcases b7 with b7 | b7
      · omega
      · exact b7.2
    refine ⟨hk, ?_⟩
    show ((e2.hist.drop k ++ S).length : Int) = maxMatchOffset + S.length
    rw [hlen]
    omega

/-- C3 witness: `C3_small_block` applied to a concrete call, every hypothesis discharged. -/
theorem C3_small_block_witness :
    (([1, 2, 3] : List Byte).length : Int) < minNonLiteralBlockSize ∧
    (freshEnc 65535 (fun _ => 0)).cur < bufferReset ∧
    ∃ e' dst', Encode (freshEnc 65535 (fun _ => 0)) emptyTokens [1, 2, 3] none =
        .ok (e', dst') ∧
      dst'.tokens = emptyTokens.tokens ∧ dst'.litHist = emptyTokens.litHist ∧
      e'.table = (freshEnc 65535 (fun _ => 0)).table ∧
      e'.bTable = (freshEnc 65535 (fun _ => 0)).bTable ∧
      e'.rngPos = (freshEnc 65535 (fun _ => 0)).rngPos ∧
      e'.rngBit = (freshEnc 65535 (fun _ => 0)).rngBit ∧
      dst'.n = ([1, 2, 3] : List Byte).length ∧
      ∃ k : Nat, k ≤ (freshEnc 65535 (fun _ => 0)).hist.length ∧
        e'.hist = (freshEnc 65535 (fun _ => 0)).hist.drop k ++ [1, 2, 3] ∧
        e'.cur = (freshEnc 65535 (fun _ => 0)).cur + k ∧
        ((freshEnc 65535 (fun _ => 0)).hist.length + ([1, 2, 3] : List Byte).length ≤
            allocHistory →
          k = 0 ∧ e'.hist = (freshEnc 65535 (fun _ => 0)).hist ++ [1, 2, 3] ∧
            e'.cur = (freshEnc 65535 (fun _ => 0)).cur) ∧
        (allocHistory < (freshEnc 65535 (fun _ => 0)).hist.length +
            ([1, 2, 3] : List Byte).length →
          ((freshEnc 65535 (fun _ => 0)).hist.length : Int) = k + maxMatchOffset ∧
          (e'.hist.length : Int) = maxMatchOffset + ([1, 2, 3] : List Byte).length) :=
  ⟨by decide, by decide,
    C3_small_block (freshEnc 65535 (fun _ => 0)) emptyTokens [1, 2, 3] none (Or.inl rfl)
      (by decide) (by decide)⟩

/-- C4: histogram consistency.  For every block `S` that fits the sink and every state of
the bit source, after `Encode` on a fresh encoder with an empty sink the count
`dst.litHist[b]` equals, for every byte value `b`, the number of literal tokens with value
`b` that the call wrote, and the sum of the 256 counts equals the number of literal tokens
the call wrote. -/
theorem C4_histogram (e : fastEncL5ND) (dst : tokens) (S : List Byte)
    (rnd : Option (Nat → Byte)) (hf : Fresh e) (hr : e.rngInit = true ∨ rnd ≠ none)
    (hd : EmptySink dst) (hmax : S.length ≤ maxStoreBlockSize) :
    ∃ e' dst', Encode e dst S rnd = .ok (e', dst') ∧
      (∀ b : Byte, dst'.litHist b.val = (written S dst').count (token.literal b)) ∧
      (∑ b : Byte, dst'.litHist b.val) = (written S dst').countP token.isLiteral := by
  have key : ∃ e' dst', Encode e dst S rnd = .ok (e', dst') ∧
      (∀ b : Byte, dst'.litHist b.val = (written S dst').count (token.literal b)) := by
    by_cases h13 : S.length < 13
    · obtain ⟨e2, h2, _⟩ := Encode_small e dst S rnd hr h13
      have hlt : (S.length : Int) < minNonLiteralBlockSize := by
        unfold minNonLiteralBlockSize inputMargin
        omega
      refine ⟨_, _, h2, ?_⟩
      intro b
      unfold written
      rw [if_pos hlt]
      exact hd.2 b
    · obtain ⟨e', dst', h1, _, L, hS, _⟩ := Encode_parse e dst S rnd (Inv_of_Fresh e hf)
        hr hd (by omega) hmax (Fresh_fit e S hf hmax)
      have hlt : ¬ (S.length : Int) < minNonLiteralBlockSize := by
        unfold minNonLiteralBlockSize inputMargin
        omega
      refine ⟨e', dst', h1, ?_⟩
      intro b
      unfold written
      rw [if_neg hlt, hS.2.1]
      exact hS.2.2 b
  obtain ⟨e', dst', h1, h2⟩ := key
  refine ⟨e', dst', h1, h2, ?_⟩
  rw [← sum_count_literal]
  exact Finset.sum_congr rfl fun b _ => h2 b

/-- C4 witness: `C4_histogram` applied to a concrete call, every hypothesis discharged. -/
theorem C4_histogram_witness :
    Fresh (freshEnc 65535 (fun _ => 0)) ∧ EmptySink emptyTokens ∧
    (List.replicate 64 (65 : Byte)).length ≤ maxStoreBlockSize ∧
    ∃ e' dst', Encode (freshEnc 65535 (fun _ => 0)) emptyTokens (List.replicate 64 65) none =
        .ok (e', dst') ∧
      (∀ b : Byte, dst'.litHist b.val =
        (written (List.replicate 64 65) dst').count (token.literal b)) ∧
      (∑ b : Byte, dst'.litHist b.val) =
        (written (List.replicate 64 65) dst').countP token.isLiteral :=
  ⟨⟨rfl, fun _ => rfl, fun _ => rfl, by decide, by decide⟩, ⟨rfl, fun _ => rfl⟩, by decide,
    C4_histogram (freshEnc 65535 (fun _ => 0)) emptyTokens (List.replicate 64 65) none
      ⟨rfl, fun _ => rfl, fun _ => rfl, by decide, by decide⟩ (Or.inl rfl)
      ⟨rfl, fun _ => rfl⟩ (by decide)⟩

/-- C5: repeated run.  For every byte `a`, every `n` with `13 ≤ n ≤ maxStoreBlockSize`
(in particular the 64 bytes `'A'` of the example) and every state of the bit source,
`Encode` of the block of `n` bytes `a` on a fresh encoder with an empty sink returns with
a token stream that decodes back to the same bytes, holds at least one match token, and
in which every match token has encoded offset 0, that is distance exactly 1. -/
theorem C5_repeated_run (e : fastEncL5ND) (dst : tokens) (a : Byte) (n : Nat)
    (rnd : Option (Nat → Byte)) (hf : Fresh e) (hr : e.rngInit = true ∨ rnd ≠ none)
    (hd : EmptySink dst) (h13 : 13 ≤ n) (hmax : n ≤ maxStoreBlockSize) :
    ∃ e' dst', Encode e dst (List.replicate n a) rnd = .ok (e', dst') ∧
      decode (toks dst') [] = some (List.replicate n a) ∧
      (∃ xl xo, token.matchTok xl xo ∈ toks dst') ∧
      ∀ xl xo, token.matchTok xl xo ∈ toks dst' →
        xo = 0 ∧ (xo : Int) + baseMatchOffset = 1 := by
  obtain ⟨e', dst', h1, h2⟩ := Encode_run (fun xo => xo = 0) False rfl n a h13 e dst rnd hf hr
    hmax
  have hB : (((List.replicate n a).length : Nat) : Int) - 0 ≤ 65535 := by
    unfold maxStoreBlockSize at hmax
    simp
    omega
  obtain ⟨L, hS, hP, hQ, hM⟩ := h2 hB ⟨[], Sink_of_EmptySink dst hd, rfl, by simp, False.elim⟩
  refine ⟨e', dst', h1, ?_, ?_, ?_⟩
  · have := Parse_decode (List.replicate n a) L 0 n (le_refl _) hP
    rw [hS.2.1]
    simpa using this
  · rw [hS.2.1]
    exact hM trivial
  · intro xl xo hm
    rw [hS.2.1] at hm
    have := hQ xl xo hm
    subst this
    exact ⟨rfl, by decide⟩

/-- C5 witness: `C5_repeated_run` applied to a concrete call, every hypothesis discharged. -/
theorem C5_repeated_run_witness :
    Fresh (freshEnc 65535 (fun _ => 0)) ∧ EmptySink emptyTokens ∧ 13 ≤ 64 ∧
    64 ≤ maxStoreBlockSize ∧
    ∃ e' dst', Encode (freshEnc 65535 (fun _ => 0)) emptyTokens (List.replicate 64 65) none =
        .ok (e', dst') ∧
      decode (toks dst') [] = some (List.replicate 64 65) ∧
      (∃ xl xo, token.matchTok xl xo ∈ toks dst') ∧
      ∀ xl xo, token.matchTok xl xo ∈ toks dst' →
        xo = 0 ∧ (xo : Int) + baseMatchOffset = 1 :=
  ⟨⟨rfl, fun _ => rfl, fun _ => rfl, by decide, by decide⟩, ⟨rfl, fun _ => rfl⟩, by decide,
    by decide,
    C5_repeated_run (freshEnc 65535 (fun _ => 0)) emptyTokens 65 64 none
      ⟨rfl, fun _ => rfl, fun _ => rfl, by decide, by decide⟩ (Or.inl rfl)
      ⟨rfl, fun _ => rfl⟩ (by decide) (by decide)⟩

/-- C6: diversification.  There are a block `S` (64 bytes `'A'`) and two tables `r1`, `r2`
of the bit source such that `Encode` on a fresh encoder with an empty sink writes two
different token streams, each of which decodes to `S`: with `r1` the first draw keeps the
match whole, with `r2` the first two draws shave one byte off its end. -/
theorem C6_diversification :
    ∃ (S : List Byte) (r1 r2 : Nat → Byte) (L1 L2 : List token),
      encodeToks (freshEnc 65535 r1) emptyTokens S none = some L1 ∧
      encodeToks (freshEnc 65535 r2) emptyTokens S none = some L2 ∧
      L1 ≠ L2 ∧ decode L1 [] = some S ∧ decode L2 [] = some S :=
  ⟨List.replicate 64 65, fun _ => 0, fun _ => 1,
    [token.literal 65, token.matchTok 60 0],
    [token.literal 65, token.matchTok 59 0, token.literal 65], by decide⟩

/-- C7 (counterexample): in a state due for rebasing (`cur ≥ bufferReset`, non-empty
history, inside the `int32` range) a `Prev` position above `minOff` whose slot holds a
`Cur` at or before `minOff` becomes 0, not `Prev - cur + maxMatchOffset`.  In
`staleCurState` the slot holds `Cur = cur - 32768` and `Prev = cur - 32766` with
`minOff = cur - 32767`: the rule of the claim sends `Prev` to 2, the code to 0. -/
theorem C7_prev_dropped :
    staleCurState.cur ≥ bufferReset ∧ staleCurState.hist ≠ [] ∧
    staleCurState.cur + (staleCurState.hist.length : Int) < 2 ^ 31 ∧
    ¬ ((staleCurState.bTable 0).Prev ≤
      staleCurState.cur + (staleCurState.hist.length : Int) - maxMatchOffset) ∧
    rebasedPrev staleCurState 0 = some 0 ∧
    rebasedPrev staleCurState 0 ≠
      some ((staleCurState.bTable 0).Prev - staleCurState.cur + maxMatchOffset) := by
  decide

/-- C7 (amended): for every encoder state with `cur ≥ bufferReset` and a non-empty
history (with `cur + len(hist)` inside the `int32` range), after the rebasing prelude
`cur` equals `maxMatchOffset`, every position of the short table and every `Cur` of the
chained table that was at or before `minOff = cur + len(hist) - maxMatchOffset` is 0 and
every other one `v` has become `v - cur + maxMatchOffset`; a `Prev` of the chained table
is 0 when it, or the `Cur` of its slot, was at or before `minOff`, and has become
`v - cur + maxMatchOffset` otherwise. -/
theorem C7_rebase_rule (e : fastEncL5ND) (fuel : Nat) (hf : 1 ≤ fuel)
    (hcur : bufferReset ≤ e.cur) (hh : e.hist ≠ [])
    (hrange : e.cur + (e.hist.length : Int) < 2 ^ 31) :
    ∃ e', rebaseLoop fuel e = .ok e' ∧ e'.cur = maxMatchOffset ∧
      ∀ i,
        e'.table i =
          (if e.table i ≤ e.cur + (e.hist.length : Int) - maxMatchOffset then 0
           else e.table i - e.cur + maxMatchOffset) ∧
        (e'.bTable i).Cur =
          (if (e.bTable i).Cur ≤ e.cur + (e.hist.length : Int) - maxMatchOffset then 0
           else (e.bTable i).Cur - e.cur + maxMatchOffset) ∧
        (e'.bTable i).Prev =
          (if (e.bTable i).Cur ≤ e.cur + (e.hist.length : Int) - maxMatchOffset ∨
              (e.bTable i).Prev ≤ e.cur + (e.hist.length : Int) - maxMatchOffset then 0
           else (e.bTable i).Prev - e.cur + maxMatchOffset) := by
  refine ⟨_, rebaseLoop_spec fuel e hf, ?_, ?_⟩
  · rw [if_pos hcur, rebaseStep_cur]
  · have hl : ¬ e.hist.length = 0 := fun h => hh (List.length_eq_zero.mp h)
    intro i
    rw [if_pos hcur]
    unfold rebaseStep
    simp only [hl, if_false]
    refine ⟨trivial, ?_, ?_⟩
    · split <;> rfl
    · by_cases h1 : (e.bTable i).Cur ≤ e.cur + (e.hist.length : Int) - maxMatchOffset
      · simp only [h1, if_true, true_or]
      · simp only [h1, if_false, false_or]

/-- C7 witness: `C7_rebase_rule` applied to a concrete call, every hypothesis discharged. -/
theorem C7_rebase_rule_witness :
    bufferReset ≤ staleCurState.cur ∧ staleCurState.hist ≠ [] ∧
    staleCurState.cur + (staleCurState.hist.length : Int) < 2 ^ 31 ∧
    ∃ e', rebaseLoop 1 staleCurState = .ok e' ∧ e'.cur = maxMatchOffset ∧
      ∀ i,
        e'.table i =
          (if staleCurState.table i ≤
              staleCurState.cur + (staleCurState.hist.length : Int) - maxMatchOffset then 0
           else staleCurState.table i - staleCurState.cur + maxMatchOffset) ∧
        (e'.bTable i).Cur =
          (if (staleCurState.bTable i).Cur ≤
              staleCurState.cur + (staleCurState.hist.length : Int) - maxMatchOffset then 0
           else (staleCurState.bTable i).Cur - staleCurState.cur + maxMatchOffset) ∧
        (e'.bTable i).Prev =
          (if (staleCurState.bTable i).Cur ≤
                staleCurState.cur + (staleCurState.hist.length : Int) - maxMatchOffset ∨
              (staleCurState.bTable i).Prev ≤
                staleCurState.cur + (staleCurState.hist.length : Int) - maxMatchOffset then 0
           else (staleCurState.bTable i).Prev - staleCurState.cur + maxMatchOffset) :=
  ⟨by decide, by decide, by decide,
    C7_rebase_rule staleCurState 1 (le_refl _) (by decide) (by decide) (by decide)⟩

/-- C8: rebasing preserves relative positions and drops stale ones.  For every encoder
state with `cur ≥ bufferReset` (and `cur + len(hist)` inside the `int32` range), after the
rebasing prelude `cur` equals `maxMatchOffset`, every non-zero entry of either table has
the window index (stored position minus `cur`) it had before, and that index is greater
than `len(hist) - maxMatchOffset`; every entry whose old position was at or before
`cur + len(hist) - maxMatchOffset` is zero; with an empty history every entry of both
tables is zero. -/
theorem C8_rebase_relative (e : fastEncL5ND) (fuel : Nat) (hf : 1 ≤ fuel)
    (hcur : bufferReset ≤ e.cur) (hrange : e.cur + (e.hist.length : Int) < 2 ^ 31) :
    ∃ e', rebaseLoop fuel e = .ok e' ∧ e'.cur = maxMatchOffset ∧
      (∀ i, Kept e e' (e.table i) (e'.table i) ∧
        Kept e e' (e.bTable i).Cur (e'.bTable i).Cur ∧
        Kept e e' (e.bTable i).Prev (e'.bTable i).Prev) ∧
      (e.hist = [] → ∀ i, e'.table i = 0 ∧ e'.bTable i = ⟨0, 0⟩) := by
  have hc : (rebaseStep e).cur = maxMatchOffset := rebaseStep_cur e
  refine ⟨_, rebaseLoop_spec fuel e hf, ?_, ?_, ?_⟩
  · rw [if_pos hcur, hc]
  · intro i
    rw [if_pos hcur]
    by_cases hl : e.hist.length = 0
    · have hz : ∀ v, Kept e (rebaseStep e) v 0 := fun v => ⟨fun h => absurd rfl h, fun _ => rfl⟩
      have h1 : (rebaseStep e).table i = 0 := by unfold rebaseStep; simp only [hl, if_true]
      have h2 : (rebaseStep e).bTable i = ⟨0, 0⟩ := by
        unfold rebaseStep; simp only [hl, if_true]
      rw [h1, h2]
      exact ⟨hz _, hz _, hz _⟩
    · have h1 : (rebaseStep e).table i =
          (if e.table i ≤ e.cur + (e.hist.length : Int) - maxMatchOffset then 0
           else e.table i - e.cur + maxMatchOffset) := by
        unfold rebaseStep; simp only [hl, if_false]
      have h2 : (rebaseStep e).bTable i =
          (if (e.bTable i).Cur ≤ e.cur + (e.hist.length : Int) - maxMatchOffset then ⟨0, 0⟩
           else ⟨(e.bTable i).Cur - e.cur + maxMatchOffset,
              if (e.bTable i).Prev ≤ e.cur + (e.hist.length : Int) - maxMatchOffset then 0
              else (e.bTable i).Prev - e.cur + maxMatchOffset⟩) := by
        unfold rebaseStep; simp only [hl, if_false]
      refine ⟨by rw [h1]; exact Kept_of_remap e _ _ hc, ?_, ?_⟩
      · have := Kept_of_remap e (rebaseStep e) (e.bTable i).Cur hc
        rw [h2]
        split
        · rw [if_pos ‹_›] at this; exact this
        · rw [if_neg ‹_›] at this; exact this
      · rw [h2]
        split
        · exact ⟨fun h => absurd rfl h, fun _ => rfl⟩
        · exact Kept_of_remap e (rebaseStep e) (e.bTable i).Prev hc
  · intro hh i
    rw [if_pos hcur]
    have hl : e.hist.length = 0 := by rw [hh]; rfl
    unfold rebaseStep
    simp only [hl, if_true]
    exact ⟨trivial, trivial⟩

/-- C8 witness: `C8_rebase_relative` applied to a concrete call, every hypothesis discharged. -/
theorem C8_rebase_relative_witness :
    bufferReset ≤ staleCurState.cur ∧
    staleCurState.cur + (staleCurState.hist.length : Int) < 2 ^ 31 ∧
    ∃ e', rebaseLoop 1 staleCurState = .ok e' ∧ e'.cur = maxMatchOffset ∧
      (∀ i, Kept staleCurState e' (staleCurState.table i) (e'.table i) ∧
        Kept staleCurState e' (staleCurState.bTable i).Cur (e'.bTable i).Cur ∧
        Kept staleCurState e' (staleCurState.bTable i).Prev (e'.bTable i).Prev) ∧
      (staleCurState.hist = [] → ∀ i, e'.table i = 0 ∧ e'.bTable i = ⟨0, 0⟩) :=
  ⟨by decide, by decide,
    C8_rebase_relative staleCurState 1 (le_refl _) (by decide) (by decide)⟩

/-- C9: termination.  From every encoder state reached from a fresh encoder by earlier
`Encode` calls (the history may have been moved down and `cur` advanced any number of
times), for every block `S` that fits the sink, every sink and every state of the bit
source, `Encode` runs to completion with the fuel it gives its loops: it returns whenever
the bit source is seeded (or can be), and never runs out of fuel; the state it leaves is
again one from which the next call returns, and `cur` plus the length of the window stays
an `int32`; the rebasing loop returns within one iteration; and a pass of the probe loop
strictly increases the scan position, `s + 1 + ((s - nextEmit) >> 6) > s` for
`s ≥ nextEmit`. -/
theorem C9_termination (e : fastEncL5ND) (dst : tokens) (S : List Byte)
    (rnd : Option (Nat → Byte)) (hR : Reachable e) (hmax : S.length ≤ maxStoreBlockSize) :
    ((e.rngInit = true ∨ rnd ≠ none) →
      ∃ e' dst', Encode e dst S rnd = .ok (e', dst') ∧ Reachable e' ∧
        e'.cur + (e'.hist.length : Int) < 2 ^ 31) ∧
    Encode e dst S rnd ≠ .error .fuel ∧
    (∃ e1, rebaseLoop 1 e = .ok e1) ∧
    (∀ s nextEmit : Int, nextEmit ≤ s → s < s + doEvery + ((s - nextEmit) >>> skipLog)) := by
  have hI := Inv_of_Reachable e hR
  refine ⟨fun hr => ?_, ?_, ⟨_, rebaseLoop_spec 1 e (le_refl _)⟩, ?_⟩
  · obtain ⟨⟨e', dst'⟩, h⟩ := Encode_total e dst S rnd hI hr hmax
    have hR' := Reachable.step e dst S rnd e' dst' hR hmax h
    exact ⟨e', dst', h, hR', (Inv_of_Reachable e' hR').2.2.2⟩
  · by_cases hr : e.rngInit = true ∨ rnd ≠ none
    · obtain ⟨r, h⟩ := Encode_total e dst S rnd hI hr hmax
      rw [h]
      exact fun hh => by cases hh
    · push_neg at hr
      obtain ⟨h1, h2⟩ := hr
      subst h2
      rw [Encode_no_rng e dst S h1]
      exact fun hh => by cases hh
  · intro s nextEmit h
    have := shift_nonneg (s - nextEmit) (by omega)
    unfold doEvery
    omega

/-- C9 witness: `C9_termination` applied to a concrete call, every hypothesis discharged. -/
theorem C9_termination_witness :
    Reachable (freshEnc 65535 (fun _ => 0)) ∧
    (List.replicate 64 (65 : Byte)).length ≤ maxStoreBlockSize ∧
    (((freshEnc 65535 (fun _ => 0)).rngInit = true ∨ (none : Option (Nat → Byte)) ≠ none) →
      ∃ e' dst', Encode (freshEnc 65535 (fun _ => 0)) emptyTokens (List.replicate 64 65) none =
          .ok (e', dst') ∧ Reachable e' ∧ e'.cur + (e'.hist.length : Int) < 2 ^ 31) ∧
    Encode (freshEnc 65535 (fun _ => 0)) emptyTokens (List.replicate 64 65) none ≠
      .error .fuel ∧
    (∃ e1, rebaseLoop 1 (freshEnc 65535 (fun _ => 0)) = .ok e1) ∧
    (∀ s nextEmit : Int, nextEmit ≤ s → s < s + doEvery + ((s - nextEmit) >>> skipLog)) :=
  ⟨Reachable.fresh _ ⟨rfl, fun _ => rfl, fun _ => rfl, by decide, by decide⟩, by decide,
    C9_termination (freshEnc 65535 (fun _ => 0)) emptyTokens (List.replicate 64 65) none
      (Reachable.fresh _ ⟨rfl, fun _ => rfl, fun _ => rfl, by decide, by decide⟩)
      (by decide)⟩

/-- C10 (counterexample): on a fresh encoder with an empty sink the one-byte block `[1]`
leaves the token count `dst.n` at 1, not at zero. -/
theorem C10_count_not_zero :
    encodeCount (freshEnc 65535 (fun _ => 0)) emptyTokens [1] none = some 1 ∧
    encodeCount (freshEnc 65535 (fun _ => 0)) emptyTokens [1] none ≠ some 0 := by
  decide

/-- C10 (amended): for every block `S` shorter than `minNonLiteralBlockSize = 13`,
`Encode` returns without writing a token slot and reports the raw length through the
count itself: `dst.n = len(S)`, which is zero only for the empty block. -/
theorem C10_small_block_count (e : fastEncL5ND) (dst : tokens) (S : List Byte)
    (rnd : Option (Nat → Byte)) (hr : e.rngInit = true ∨ rnd ≠ none)
    (h13 : (S.length : Int) < minNonLiteralBlockSize) :
    ∃ e' dst', Encode e dst S rnd = .ok (e', dst') ∧ dst'.n = S.length ∧
      dst'.tokens = dst.tokens ∧ (dst'.n = 0 ↔ S = []) := by
  have h13' : S.length < 13 := by
    unfold minNonLiteralBlockSize inputMargin at h13
    omega
  obtain ⟨e2, h2, _⟩ := Encode_small e dst S rnd hr h13'
  have hn : S.length % 2 ^ 16 = S.length := Nat.mod_eq_of_lt (by omega)
  refine ⟨_, _, h2, hn, rfl, ?_⟩
  show S.length % 2 ^ 16 = 0 ↔ S = []
  rw [hn]
  exact List.length_eq_zero

/-- C10 witness: `C10_small_block_count` applied to a concrete call, every hypothesis discharged. -/
theorem C10_small_block_count_witness :
    (([1, 2, 3] : List Byte).length : Int) < minNonLiteralBlockSize ∧
    ∃ e' dst', Encode (freshEnc 65535 (fun _ => 0)) emptyTokens [1, 2, 3] none =
        .ok (e', dst') ∧ dst'.n = ([1, 2, 3] : List Byte).length ∧
      dst'.tokens = emptyTokens.tokens ∧ (dst'.n = 0 ↔ ([1, 2, 3] : List Byte) = []) :=
  ⟨by decide,
    C10_small_block_count (freshEnc 65535 (fun _ => 0)) emptyTokens [1, 2, 3] none
      (Or.inl rfl) (by decide)⟩
/-! ## The claims on the bit source, the scan and the emission -/

/-- C11: bit source semantics.  For every content of `rngTab`, starting from the cursor
`(rngPos, rngBit) = (0, 0)`, call number `k` of `Rng` (`k = 0, 1, 2, ...`) returns bit
`k mod 8`, least significant first, of `rngTab[(k div 8) mod 256]`; the calls change only
the two cursors (never `rngTab`, the history, `cur` or the hash tables); after `k` calls
the cursor stands at byte `(k div 8) mod 256`, bit `k mod 8`, that is at the linear
position `k mod 2048`, so it moves forward one bit per call and wraps around the 256-byte
table; and the bit sequence repeats with period 2048 calls. -/
theorem C11_bit_source (e : fastEncL5ND) (k : Nat) (hp : e.rngPos = 0) (hb : e.rngBit = 0) :
    draw e k = bitOf (e.rngTab ((k / 8) % 256)) (k % 8) ∧
    (rngIter k e).rngTab = e.rngTab ∧ SameT e (rngIter k e) ∧
    (rngIter k e).rngPos = (k / 8) % 256 ∧ (rngIter k e).rngBit = k % 8 ∧
    8 * (rngIter k e).rngPos + (rngIter k e).rngBit = k % 2048 ∧
    draw e (k + 2048) = draw e k := by
  have hp1 : e.rngPos < 256 := by omega
  have hb1 : e.rngBit < 8 := by omega
  obtain ⟨h1, h2, h3⟩ := rngIter_spec k e hp1 hb1
  rw [hp, hb] at h2 h3
  simp only [Nat.mul_zero, Nat.zero_add] at h2 h3
  have d1 := draw_spec e k hp1 hb1
  have d2 := draw_spec e (k + 2048) hp1 hb1
  rw [hp, hb] at d1 d2
  simp only [Nat.mul_zero, Nat.zero_add] at d1 d2
  refine ⟨d1, h1.1.2.2.2, h1, h2, h3, ?_, ?_⟩
  · rw [h2, h3]
    omega
  · rw [d1, d2]
    have e1 : (k + 2048) / 8 % 256 = k / 8 % 256 := by omega
    have e2 : (k + 2048) % 8 = k % 8 := by omega
    rw [e1, e2]

/-- C11 witness: `C11_bit_source` applied to a concrete table and call number, every
hypothesis discharged. -/
theorem C11_bit_source_witness :
    (freshEnc 65535 (fun _ => 5)).rngPos = 0 ∧ (freshEnc 65535 (fun _ => 5)).rngBit = 0 ∧
    draw (freshEnc 65535 (fun _ => 5)) 10 =
      bitOf ((freshEnc 65535 (fun _ => 5)).rngTab ((10 / 8) % 256)) (10 % 8) ∧
    (rngIter 10 (freshEnc 65535 (fun _ => 5))).rngTab = (freshEnc 65535 (fun _ => 5)).rngTab ∧
    SameT (freshEnc 65535 (fun _ => 5)) (rngIter 10 (freshEnc 65535 (fun _ => 5))) ∧
    (rngIter 10 (freshEnc 65535 (fun _ => 5))).rngPos = (10 / 8) % 256 ∧
    (rngIter 10 (freshEnc 65535 (fun _ => 5))).rngBit = 10 % 8 ∧
    8 * (rngIter 10 (freshEnc 65535 (fun _ => 5))).rngPos +
      (rngIter 10 (freshEnc 65535 (fun _ => 5))).rngBit = 10 % 2048 ∧
    draw (freshEnc 65535 (fun _ => 5)) (10 + 2048) = draw (freshEnc 65535 (fun _ => 5)) 10 :=
  ⟨rfl, rfl, C11_bit_source (freshEnc 65535 (fun _ => 5)) 10 rfl rfl⟩

/-- C12: conditional round trip.  For every block `S` of at least 13 bytes that fits the
sink, every state of the bit source, a fresh encoder and an empty sink, `Encode` returns,
and if the stream `dst.tokens[0..dst.n)` holds at least one match token then it is a parse
of `S` (the literal run before each match, the chunks of each match with the literals
injected between them, and the trailing literal run cover `S` byte for byte and in order)
and a standard LZ77 decoder turns it back into exactly `S`. -/
theorem C12_conditional_round_trip (e : fastEncL5ND) (dst : tokens) (S : List Byte)
    (rnd : Option (Nat → Byte)) (hf : Fresh e) (hr : e.rngInit = true ∨ rnd ≠ none)
    (hd : EmptySink dst) (h13 : 13 ≤ S.length) (hmax : S.length ≤ maxStoreBlockSize) :
    ∃ e' dst', Encode e dst S rnd = .ok (e', dst') ∧
      ((∃ xl xo, token.matchTok xl xo ∈ toks dst') →
        Parse S 0 (toks dst') S.length ∧ decode (toks dst') [] = some S) := by
  obtain ⟨e', dst', h1, _, L, hS, hL⟩ := Encode_parse e dst S rnd (Inv_of_Fresh e hf) hr hd
    h13 hmax (Fresh_fit e S hf hmax)
  refine ⟨e', dst', h1, ?_⟩
  rintro ⟨xl, xo, hm⟩
  rw [hS.2.1] at hm ⊢
  rcases hL with hL | hL
  · rw [hL] at hm
    cases hm
  · rw [hf.1] at hL
    simp only [List.nil_append, List.length_nil, Nat.cast_zero] at hL
    refine ⟨hL, ?_⟩
    have := Parse_decode S L 0 S.length (le_refl _) hL
    simpa using this

/-- C12 witness: `C12_conditional_round_trip` applied to a concrete call, every hypothesis
discharged. -/
theorem C12_conditional_round_trip_witness :
    Fresh (freshEnc 65535 (fun _ => 0)) ∧ EmptySink emptyTokens ∧
    13 ≤ (List.replicate 64 (65 : Byte)).length ∧
    (List.replicate 64 (65 : Byte)).length ≤ maxStoreBlockSize ∧
    ∃ e' dst', Encode (freshEnc 65535 (fun _ => 0)) emptyTokens (List.replicate 64 65) none =
        .ok (e', dst') ∧
      ((∃ xl xo, token.matchTok xl xo ∈ toks dst') →
        Parse (List.replicate 64 65) 0 (toks dst') (List.replicate 64 (65 : Byte)).length ∧
          decode (toks dst') [] = some (List.replicate 64 65)) :=
  ⟨⟨rfl, fun _ => rfl, fun _ => rfl, by decide, by decide⟩, ⟨rfl, fun _ => rfl⟩, by decide,
    by decide,
    C12_conditional_round_trip (freshEnc 65535 (fun _ => 0)) emptyTokens
      (List.replicate 64 65) none
      ⟨rfl, fun _ => rfl, fun _ => rfl, by decide, by decide⟩ (Or.inl rfl)
      ⟨rfl, fun _ => rfl⟩ (by decide) (by decide)⟩

/-- C13 (counterexample): on the 13 bytes `0, 1, ..., 12` (fresh encoder, empty sink) the
scan passes the safe limit with `nextEmit = 0 < 13 = len(window)`, yet `Encode` appends no
literal token: the stream it leaves is empty, not the 13 literals. -/
theorem C13_no_trailing_literals :
    scanNextEmit (freshEnc 65535 (fun _ => 0)) emptyTokens (ascending 0 13) none = some 0 ∧
    ((0 : Int) < (ascending 0 13).length) ∧
    encodeToks (freshEnc 65535 (fun _ => 0)) emptyTokens (ascending 0 13) none = some [] ∧
    encodeToks (freshEnc 65535 (fun _ => 0)) emptyTokens (ascending 0 13) none ≠
      some ((ascending 0 13).map token.literal) := by
  decide

/-- C13 (amended): for every block `S` of at least 13 bytes that fits the sink and every
state of the bit source, on a fresh encoder with an empty sink the scan returns with a
sink `dst1` and a position `nextEmit` (`0 ≤ nextEmit ≤ len(S)`) such that the tokens
written so far are a parse of `S[0..nextEmit)`, and `Encode` returns with the sink that
`emitRemainder` makes of it: if the scan wrote a token (`dst1.n ≠ 0`) one literal token
for every byte of `S[nextEmit..len(S))` is appended, in order, and the stream is a parse
of the whole of `S`; if the scan wrote none (`dst1.n = 0`) then `nextEmit < len(S)` and
nothing is appended. -/
theorem C13_trailing_run (e : fastEncL5ND) (dst : tokens) (S : List Byte)
    (rnd : Option (Nat → Byte)) (hf : Fresh e) (hr : e.rngInit = true ∨ rnd ≠ none)
    (hd : EmptySink dst) (h13 : 13 ≤ S.length) (hmax : S.length ≤ maxStoreBlockSize) :
    ∃ e1 dst1 ne dst', scanBlock e dst S rnd = .ok (e1, dst1, ne) ∧
      Encode e dst S rnd = .ok (e1, dst') ∧ 0 ≤ ne ∧ ne ≤ S.length ∧
      Parse S 0 (toks dst1) ne ∧
      (dst1.n ≠ 0 →
        toks dst' = toks dst1 ++ (S.drop ne.toNat).map token.literal ∧
        Parse S 0 (toks dst') S.length) ∧
      (dst1.n = 0 → ne < S.length ∧ dst' = dst1) := by
  obtain ⟨e1, dst1, ne, h1, h2, h3, ⟨L1, hS, hP⟩, h6⟩ := Encode_scan_fresh e dst S rnd hf hr hd
    h13 hmax
  have hlen := Parse_length S L1 0 ne hP
  unfold emitRemainder at h6
  by_cases hz : dst1.n = 0
  · have hL1 : L1 = [] := List.length_eq_zero.mp (by rw [← hS.1]; exact hz)
    rw [hL1] at hP
    have hne : (0 : Int) = ne := hP
    have hlt : ne < S.length := by omega
    rw [if_pos hlt, if_pos hz] at h6
    refine ⟨e1, dst1, ne, dst1, h1, h6, h2, h3, ?_, fun h => absurd hz h, fun _ => ⟨hlt, rfl⟩⟩
    rw [hS.2.1, hL1]
    exact hne
  · have hsink := Sink_emitLiteral ((S.drop ne.toNat).take ((S.length : Int) - ne).toNat) dst1
      L1 hS (by
        unfold maxStoreBlockSize at hmax
        rw [List.length_take, List.length_drop]
        omega)
    have htk : (S.drop ne.toNat).take ((S.length : Int) - ne).toNat = S.drop ne.toNat := by
      apply List.take_of_length_le
      rw [List.length_drop]
      omega
    rw [htk] at hsink
    have hall : Parse S 0 (L1 ++ (S.drop ne.toNat).map token.literal) S.length := by
      have := Parse_literals S ((S.length : Int) - ne).toNat ne S.length h2 (le_refl _) rfl h3
      rw [htk] at this
      exact Parse_append S _ _ _ _ _ hP this
    by_cases hlt : ne < S.length
    · rw [if_pos hlt, if_neg hz] at h6
      simp only [slice_ok S ne S.length h2 h3 (le_refl _), bind, Except.bind, htk, pure,
        Except.pure] at h6
      refine ⟨e1, dst1, ne, _, h1, h6, h2, h3, by rw [hS.2.1]; exact hP, fun _ => ?_,
        fun h => absurd h hz⟩
      rw [hsink.2.1, hS.2.1]
      exact ⟨rfl, hall⟩
    · rw [if_neg hlt] at h6
      have hd0 : S.drop ne.toNat = [] := by
        apply List.drop_of_length_le
        omega
      rw [hd0] at hall
      simp only [List.map_nil, List.append_nil] at hall
      refine ⟨e1, dst1, ne, dst1, h1, h6, h2, h3, by rw [hS.2.1]; exact hP, fun _ => ?_,
        fun h => absurd h hz⟩
      rw [hd0, hS.2.1]
      simp only [List.map_nil, List.append_nil]
      exact ⟨trivial, hall⟩

/-- C13 witness: `C13_trailing_run` applied to a concrete call, every hypothesis
discharged. -/
theorem C13_trailing_run_witness :
    Fresh (freshEnc 65535 (fun _ => 0)) ∧ EmptySink emptyTokens ∧
    13 ≤ (List.replicate 64 (65 : Byte)).length ∧
    (List.replicate 64 (65 : Byte)).length ≤ maxStoreBlockSize ∧
    ∃ e1 dst1 ne dst',
      scanBlock (freshEnc 65535 (fun _ => 0)) emptyTokens (List.replicate 64 65) none =
        .ok (e1, dst1, ne) ∧
      Encode (freshEnc 65535 (fun _ => 0)) emptyTokens (List.replicate 64 65) none =
        .ok (e1, dst') ∧
      0 ≤ ne ∧ ne ≤ (List.replicate 64 (65 : Byte)).length ∧
      Parse (List.replicate 64 65) 0 (toks dst1) ne ∧
      (dst1.n ≠ 0 →
        toks dst' = toks dst1 ++
          ((List.replicate 64 (65 : Byte)).drop ne.toNat).map token.literal ∧
        Parse (List.replicate 64 65) 0 (toks dst') (List.replicate 64 (65 : Byte)).length) ∧
      (dst1.n = 0 → ne < (List.replicate 64 (65 : Byte)).length ∧ dst' = dst1) :=
  ⟨⟨rfl, fun _ => rfl, fun _ => rfl, by decide, by decide⟩, ⟨rfl, fun _ => rfl⟩, by decide,
    by decide,
    C13_trailing_run (freshEnc 65535 (fun _ => 0)) emptyTokens (List.replicate 64 65) none
      ⟨rfl, fun _ => rfl, fun _ => rfl, by decide, by decide⟩ (Or.inl rfl)
      ⟨rfl, fun _ => rfl⟩ (by decide) (by decide)⟩

/-- C14: match splitting.  For every accepted match of length `l ≥ 4` at window index `s`
with copy source `t` (`0 ≤ t < s`, distance `s - t ≤ maxMatchOffset`), every state of the
bit source and every sink with room for the match, the emission loop returns having
appended a token list `L` in which every match token carries the distance `s - t` and has
a length in `[baseMatchLength, maxMatchLength]`, a literal occurs only as the single
window byte at its index in front of a chunk of `maxMatchLength`, and the chunk lengths
plus the injected literals add up to exactly `l`; the loop reaches its call of
`AddMatchLong` with a remainder `r` in
`[baseMatchLength, maxMatchLength + baseMatchLength]`, the chunks written before it
covering the other `l - r` bytes. -/
theorem C14_match_splitting (src : List Byte) (fuel : Nat) (e : fastEncL5ND) (dst : tokens)
    (s t l : Int) (hl : 4 ≤ l) (hf : l ≤ fuel) (ht : 0 ≤ t) (hts : t < s)
    (hw : s - t ≤ maxMatchOffset) (hlen : s + l ≤ src.length)
    (hn : (dst.n : Int) + l < 2 ^ 16) :
    ∃ e' dst' L,
      emitMatch fuel e dst src s l ((s - t - baseMatchOffset) % 2 ^ 32).toNat =
        .ok (e', dst') ∧
      SameT e e' ∧ Wrote dst dst' L ∧
      Chunks src ((s - t - baseMatchOffset) % 2 ^ 32).toNat s L (s + l) ∧ spanOf L = l ∧
      (∀ xl xo, token.matchTok xl xo ∈ L →
        (xo : Int) + baseMatchOffset = s - t ∧ baseMatchLength ≤ (xl : Int) + baseMatchLength ∧
          (xl : Int) + baseMatchLength ≤ maxMatchLength) ∧
      ∃ dst1 L1 r, baseMatchLength ≤ r ∧ r ≤ maxMatchLength + baseMatchLength ∧
        Wrote dst dst1 L1 ∧ spanOf L1 = l - r ∧
        AddMatchLong r.toNat dst1 r ((s - t - baseMatchOffset) % 2 ^ 32).toNat = .ok dst' := by
  have hoff : (((s - t - baseMatchOffset) % 2 ^ 32).toNat : Int) = s - t - baseMatchOffset := by
    unfold baseMatchOffset
    unfold maxMatchOffset at hw
    rw [Int.emod_eq_of_lt (by omega) (by omega)]
    omega
  generalize ((s - t - baseMatchOffset) % 2 ^ 32).toNat = off at hoff ⊢
  obtain ⟨e1, dst1, L1, r, q1, q2, q3, q4, q5, q6, q7⟩ := emitMatch_split src off fuel e dst s l
    (by omega) hf (by omega) hlen (by omega)
  have hr3 : 3 ≤ r := q1
  have hsp1 := Chunks_span src off L1 _ _ q6
  have hlen1 := length_le_spanOf L1
  obtain ⟨dst', L2, g1, g2, g3⟩ := AddMatchLong_chunks src off r.toNat dst1 r (s + l - r) hr3
    (by omega) (by
      have := q5.2
      omega)
  rw [g1] at q7
  have e1' : s + l - r + r = s + l := by ring
  rw [e1'] at g3
  have hC := Chunks_append src off L1 L2 _ _ _ q6 g3
  have hsp := Chunks_span src off _ _ _ hC
  refine ⟨e1, dst', L1 ++ L2, q7, q4, q5.wTrans g2, hC, by omega, ?_, dst1, L1, r, q1, q2, q5,
    by omega, g1⟩
  intro xl xo hm
  obtain ⟨m1, m2, m3⟩ := Chunks_matches src off _ _ _ hC xl xo hm
  refine ⟨?_, m2, m3⟩
  rw [m1, hoff]
  ring

/-- C14 witness: `C14_match_splitting` applied to a match of 599 bytes at index 1 with
distance 1, every hypothesis discharged. -/
theorem C14_match_splitting_witness :
    (4 : Int) ≤ 599 ∧ (599 : Int) ≤ (600 : Nat) ∧ (0 : Int) ≤ 0 ∧ (0 : Int) < 1 ∧
    (1 : Int) - 0 ≤ maxMatchOffset ∧ (1 : Int) + 599 ≤ (List.replicate 600 (65 : Byte)).length ∧
    (emptyTokens.n : Int) + 599 < 2 ^ 16 ∧
    ∃ e' dst' L,
      emitMatch 600 (freshEnc 65535 (fun _ => 0)) emptyTokens (List.replicate 600 65) 1 599
        (((1 : Int) - 0 - baseMatchOffset) % 2 ^ 32).toNat = .ok (e', dst') ∧
      SameT (freshEnc 65535 (fun _ => 0)) e' ∧ Wrote emptyTokens dst' L ∧
      Chunks (List.replicate 600 65) (((1 : Int) - 0 - baseMatchOffset) % 2 ^ 32).toNat 1 L
        (1 + 599) ∧
      spanOf L = 599 ∧
      (∀ xl xo, token.matchTok xl xo ∈ L →
        (xo : Int) + baseMatchOffset = 1 - 0 ∧ baseMatchLength ≤ (xl : Int) + baseMatchLength ∧
          (xl : Int) + baseMatchLength ≤ maxMatchLength) ∧
      ∃ dst1 L1 r, baseMatchLength ≤ r ∧ r ≤ maxMatchLength + baseMatchLength ∧
        Wrote emptyTokens dst1 L1 ∧ spanOf L1 = 599 - r ∧
        AddMatchLong r.toNat dst1 r (((1 : Int) - 0 - baseMatchOffset) % 2 ^ 32).toNat =
          .ok dst' :=
  ⟨by decide, by decide, by decide, by decide, by decide,
    by simp only [List.length_replicate]; decide, by decide,
    C14_match_splitting (List.replicate 600 65) 600 (freshEnc 65535 (fun _ => 0)) emptyTokens
      1 0 599 (by decide) (by decide) (by decide) (by decide) (by decide)
      (by simp only [List.length_replicate]; decide) (by decide)⟩

/-- C15 (counterexample): the shave does not change `l` by exactly one for every outcome of
the random bits.  On the valid match `(s, t, l) = (2, 0, 6)` of a run of 64 equal bytes,
which the look-ahead and the backward extension leave as it is, `l = 6` is above
`baseMatchLength + 1` and the first bit drawn from an all-zero table is 0: the shave
returns `(2, 0, 6)`, and `l` is not `6 - 1`.  A match of length 4 is not shaved whatever
the bits are. -/
theorem C15_shave_keeps_length :
    ValidMatch (List.replicate 64 65) 0 2 0 6 ∧
    lookAhead (freshEnc 65535 (fun _ => 0)) (List.replicate 64 65) 53 2 0 6 = .ok (0, 6) ∧
    extendBack 64 (List.replicate 64 65) 0 2 0 6 = .ok (2, 0, 6) ∧
    (6 : Int) > baseMatchLength + 1 ∧ draw (freshEnc 65535 (fun _ => 0)) 0 = false ∧
    (shave (freshEnc 65535 (fun _ => 0)) 2 0 6).2 = (2, 0, 6) ∧
    (shave (freshEnc 65535 (fun _ => 0)) 2 0 6).2.2.2 ≠ 6 - 1 ∧
    (shave (freshEnc 65535 (fun _ => 255)) 2 0 4).2 = (2, 0, 4) :=
  ⟨⟨by decide, by decide, by decide, by decide, by decide, by decide,
      MatchAt_replicate 64 65 2 0 6 (by decide) (by decide) (by decide)⟩,
    rfl, rfl, by decide, by decide, by decide, by decide, by decide⟩

/-- C15 (amended): the match adjustments keep the match valid.  If `(s, t, l)` is a valid
match in the window (`0 ≤ t < s`, `s - t < maxMatchOffset`, `l ≥ 4`, `s ≥ nextEmit`, the
`l` bytes at `s` inside the window and equal to those at `t`), then for every state of the
bit source the look-ahead improvement and the backward extension return, and the match
after the look-ahead, after the backward extension and after the randomized shave is each
again a valid match with `s ≥ nextEmit` and `l ≥ 4 ≥ baseMatchLength`; the shave leaves the
distance `s - t` unchanged.  The shave takes exactly one byte off the match exactly when
`l > baseMatchLength + 1` and the first bit drawn is set: then `l` decreases by one, the
byte being taken off the start (`s + 1, t + 1, l - 1`) if the second bit drawn is set and
off the end (`s, t, l - 1`) if it is not; in every other case the shave leaves the match
as it is. -/
theorem C15_adjust_valid (e : fastEncL5ND) (src : List Byte) (fuel : Nat)
    (sLimit nextEmit s t l : Int) (hne : 0 ≤ nextEmit) (hL : sLimit + 8 ≤ src.length)
    (hf : s - nextEmit ≤ fuel) (hv : ValidMatch src nextEmit s t l) :
    ∃ t1 l1 s2 t2 l2, lookAhead e src sLimit s t l = .ok (t1, l1) ∧
      extendBack fuel src nextEmit s t1 l1 = .ok (s2, t2, l2) ∧
      ValidMatch src nextEmit s t1 l1 ∧ ValidMatch src nextEmit s2 t2 l2 ∧
      ValidMatch src nextEmit (shave e s2 t2 l2).2.1 (shave e s2 t2 l2).2.2.1
        (shave e s2 t2 l2).2.2.2 ∧
      baseMatchLength ≤ (shave e s2 t2 l2).2.2.2 ∧
      (shave e s2 t2 l2).2.1 - (shave e s2 t2 l2).2.2.1 = s2 - t2 ∧
      (l2 > baseMatchLength + 1 ∧ draw e 0 = true →
        (shave e s2 t2 l2).2.2.2 = l2 - 1 ∧
        (draw e 1 = true → (shave e s2 t2 l2).2 = (s2 + 1, t2 + 1, l2 - 1)) ∧
        (draw e 1 = false → (shave e s2 t2 l2).2 = (s2, t2, l2 - 1))) ∧
      (¬ (l2 > baseMatchLength + 1 ∧ draw e 0 = true) →
        (shave e s2 t2 l2).2 = (s2, t2, l2)) := by
  obtain ⟨ht, hts, hw, h4, hns, hlen, hm⟩ := hv
  obtain ⟨t1, l1, hla, b1, b2, b3, b4, b5, b6⟩ := lookAhead_spec e src sLimit s t l ht hts hw
    hL h4 hlen hm
  obtain ⟨s2, t2, l2, hbk, c0, c1, c2, c3, c4, c5, c6⟩ := extendBack_spec src nextEmit
    hne fuel s t1 l1 b1 b2 (by omega) b6 hf
  have c1' := c1 hns
  obtain ⟨d1, d2, d3, d4, d5, d6, d7⟩ := shave_spec src e s2 t2 l2 (by omega) c6
  refine ⟨t1, l1, s2, t2, l2, hla, hbk, ⟨b1, b2, b3, b4, hns, b5, b6⟩,
    ⟨c3, by omega, by omega, by omega, c1', by omega, c6⟩,
    ⟨by omega, by omega, by omega, d4, by omega, by omega, d7⟩,
    by unfold baseMatchLength; omega, d3, ?_, ?_⟩
  · rintro ⟨hl, hb⟩
    exact shave_applies e s2 t2 l2 hl hb
  · intro hn
    exact shave_skips e s2 t2 l2 hn

/-- C15 witness: `C15_adjust_valid` applied to the match `(s, t, l) = (2, 0, 6)` of a run
of 64 equal bytes, every hypothesis discharged. -/
theorem C15_adjust_valid_witness :
    (0 : Int) ≤ 0 ∧ (53 : Int) + 8 ≤ (List.replicate 64 (65 : Byte)).length ∧
    (2 : Int) - 0 ≤ (64 : Nat) ∧ ValidMatch (List.replicate 64 65) 0 2 0 6 ∧
    ∃ t1 l1 s2 t2 l2,
      lookAhead (freshEnc 65535 (fun _ => 255)) (List.replicate 64 65) 53 2 0 6 =
        .ok (t1, l1) ∧
      extendBack 64 (List.replicate 64 65) 0 2 t1 l1 = .ok (s2, t2, l2) ∧
      ValidMatch (List.replicate 64 65) 0 2 t1 l1 ∧
      ValidMatch (List.replicate 64 65) 0 s2 t2 l2 ∧
      ValidMatch (List.replicate 64 65) 0 (shave (freshEnc 65535 (fun _ => 255)) s2 t2 l2).2.1
        (shave (freshEnc 65535 (fun _ => 255)) s2 t2 l2).2.2.1
        (shave (freshEnc 65535 (fun _ => 255)) s2 t2 l2).2.2.2 ∧
      baseMatchLength ≤ (shave (freshEnc 65535 (fun _ => 255)) s2 t2 l2).2.2.2 ∧
      (shave (freshEnc 65535 (fun _ => 255)) s2 t2 l2).2.1 -
        (shave (freshEnc 65535 (fun _ => 255)) s2 t2 l2).2.2.1 = s2 - t2 ∧
      (l2 > baseMatchLength + 1 ∧ draw (freshEnc 65535 (fun _ => 255)) 0 = true →
        (shave (freshEnc 65535 (fun _ => 255)) s2 t2 l2).2.2.2 = l2 - 1 ∧
        (draw (freshEnc 65535 (fun _ => 255)) 1 = true →
          (shave (freshEnc 65535 (fun _ => 255)) s2 t2 l2).2 = (s2 + 1, t2 + 1, l2 - 1)) ∧
        (draw (freshEnc 65535 (fun _ => 255)) 1 = false →
          (shave (freshEnc 65535 (fun _ => 255)) s2 t2 l2).2 = (s2, t2, l2 - 1))) ∧
      (¬ (l2 > baseMatchLength + 1 ∧ draw (freshEnc 65535 (fun _ => 255)) 0 = true) →
        (shave (freshEnc 65535 (fun _ => 255)) s2 t2 l2).2 = (s2, t2, l2)) :=
  ⟨by decide, by decide, by decide,
    ⟨by decide, by decide, by decide, by decide, by decide, by decide,
      MatchAt_replicate 64 65 2 0 6 (by decide) (by decide) (by decide)⟩,
    C15_adjust_valid (freshEnc 65535 (fun _ => 255)) (List.replicate 64 65) 64 53 0 2 0 6
      (by decide) (by decide) (by decide)
      ⟨by decide, by decide, by decide, by decide, by decide, by decide,
        MatchAt_replicate 64 65 2 0 6 (by decide) (by decide) (by decide)⟩⟩

/-- C17 (counterexample): on 64 bytes `'A'` (fresh encoder, empty sink, all-zero bit table)
`Encode` writes one literal and a match that starts at window index 1 with distance 1: the
distance is not below the index at which the match starts, and the copy source start
`t = 1 - 1 = 0` is not strictly positive. -/
theorem C17_source_at_zero :
    encodeToks (freshEnc 65535 (fun _ => 0)) emptyTokens (List.replicate 64 65) none =
      some [token.literal 65, token.matchTok 60 0] ∧
    matchStarts 0 [token.literal 65, token.matchTok 60 0] = [(1, 1)] ∧
    ¬ ((1 : Int) < 1) ∧ ¬ ((0 : Int) < 1 - 1) := by
  decide

/-- C17 (amended): for every block `S` that fits the sink and every state of the bit
source, on a fresh encoder with an empty sink, every match token `Encode` writes has a
positive distance that is at most the window index `s` at which the match starts, that is
the copy source start `t = s - distance` satisfies `0 ≤ t < s` (a match may copy from the
first byte of the window). -/
theorem C17_distance_within (e : fastEncL5ND) (dst : tokens) (S : List Byte)
    (rnd : Option (Nat → Byte)) (hf : Fresh e) (hr : e.rngInit = true ∨ rnd ≠ none)
    (hd : EmptySink dst) (hmax : S.length ≤ maxStoreBlockSize) :
    ∃ e' dst', Encode e dst S rnd = .ok (e', dst') ∧
      ∀ p ∈ matchStarts 0 (written S dst'),
        0 < p.2 ∧ p.2 ≤ p.1 ∧ 0 ≤ p.1 - p.2 ∧ p.1 - p.2 < p.1 := by
  by_cases h13 : S.length < 13
  · obtain ⟨e2, h2, _⟩ := Encode_small e dst S rnd hr h13
    have hlt : (S.length : Int) < minNonLiteralBlockSize := by
      unfold minNonLiteralBlockSize inputMargin
      omega
    refine ⟨_, _, h2, ?_⟩
    unfold written
    rw [if_pos hlt]
    intro p hp
    cases hp
  · obtain ⟨e', dst', h1, _, L, hS, hL⟩ := Encode_parse e dst S rnd (Inv_of_Fresh e hf)
      hr hd (by omega) hmax (Fresh_fit e S hf hmax)
    have hlt : ¬ (S.length : Int) < minNonLiteralBlockSize := by
      unfold minNonLiteralBlockSize inputMargin
      omega
    refine ⟨e', dst', h1, ?_⟩
    unfold written
    rw [if_neg hlt, hS.2.1]
    intro p hp
    rcases hL with hL | hL
    · rw [hL] at hp
      cases hp
    · rw [hf.1] at hL
      obtain ⟨q1, q2, _⟩ := Parse_matchStarts _ L _ _ hL p hp
      exact ⟨q1, q2, by omega, by omega⟩

/-- C17 witness: `C17_distance_within` applied to a concrete call, every hypothesis
discharged. -/
theorem C17_distance_within_witness :
    Fresh (freshEnc 65535 (fun _ => 0)) ∧ EmptySink emptyTokens ∧
    (List.replicate 64 (65 : Byte)).length ≤ maxStoreBlockSize ∧
    ∃ e' dst', Encode (freshEnc 65535 (fun _ => 0)) emptyTokens (List.replicate 64 65) none =
        .ok (e', dst') ∧
      ∀ p ∈ matchStarts 0 (written (List.replicate 64 65) dst'),
        0 < p.2 ∧ p.2 ≤ p.1 ∧ 0 ≤ p.1 - p.2 ∧ p.1 - p.2 < p.1 :=
  ⟨⟨rfl, fun _ => rfl, fun _ => rfl, by decide, by decide⟩, ⟨rfl, fun _ => rfl⟩, by decide,
    C17_distance_within (freshEnc 65535 (fun _ => 0)) emptyTokens (List.replicate 64 65) none
      ⟨rfl, fun _ => rfl, fun _ => rfl, by decide, by decide⟩ (Or.inl rfl)
      ⟨rfl, fun _ => rfl⟩ (by decide)⟩

/-- C18: seed tiling.  For every encoder and every four seed bytes the random source
delivers, `InitRNG` returns with a table in which, for every index `i` in `0..255`,
`rngTab[i]` equals `rngTab[i mod 4]` and is seed byte `i mod 4` (the four seed bytes
repeated 64 times); consequently, from every cursor (byte `pos < 256`, bit `bit < 8`),
draw number `k` and draw number `k + 32` of `Rng` are equal for every `k`. -/
theorem C18_seed_tiling (e : fastEncL5ND) (seed : Nat → Byte) (pos bit k : Nat)
    (hp : pos < 256) (hb : bit < 8) :
    ∃ e', InitRNG e (some seed) = .ok e' ∧
      (∀ i, i < 256 → e'.rngTab i = e'.rngTab (i % 4) ∧ e'.rngTab i = seed (i % 4)) ∧
      draw (atCursor e' pos bit) (k + 32) = draw (atCursor e' pos bit) k := by
  obtain ⟨tab, h1, h2⟩ := InitRNG_spec e seed
  refine ⟨_, h1, ?_, ?_⟩
  · intro i hi
    have h4 : i % 4 < 256 := by omega
    refine ⟨?_, h2 i hi⟩
    show tab i = tab (i % 4)
    rw [h2 i hi, h2 (i % 4) h4, Nat.mod_mod]
  · rw [draw_spec _ (k + 32) hp hb, draw_spec _ k hp hb]
    show bitOf (tab ((8 * pos + bit + (k + 32)) / 8 % 256)) ((8 * pos + bit + (k + 32)) % 8) =
      bitOf (tab ((8 * pos + bit + k) / 8 % 256)) ((8 * pos + bit + k) % 8)
    have e2 : (8 * pos + bit + (k + 32)) % 8 = (8 * pos + bit + k) % 8 := by omega
    rw [e2, h2 _ (Nat.mod_lt _ (by omega)), h2 _ (Nat.mod_lt _ (by omega))]
    congr 2
    omega

/-- C18 witness: `C18_seed_tiling` applied to a concrete seed, cursor and draw number,
every hypothesis discharged. -/
theorem C18_seed_tiling_witness :
    (3 : Nat) < 256 ∧ (5 : Nat) < 8 ∧
    ∃ e', InitRNG (freshEnc 65535 (fun _ => 0)) (some (fun i => Fin.ofNat (i + 7))) = .ok e' ∧
      (∀ i, i < 256 → e'.rngTab i = e'.rngTab (i % 4) ∧
        e'.rngTab i = (fun i => Fin.ofNat (i + 7)) (i % 4)) ∧
      draw (atCursor e' 3 5) (9 + 32) = draw (atCursor e' 3 5) 9 :=
  ⟨by decide, by decide,
    C18_seed_tiling (freshEnc 65535 (fun _ => 0)) (fun i => Fin.ofNat (i + 7)) 3 5 9
      (by decide) (by decide)⟩

/-- C19: no out-of-range access.  From every encoder state reached from a fresh encoder by
earlier `Encode` calls (the history may have been moved down and `cur` advanced any number
of times), for every block `S` that fits the sink (in particular every such block of at
least 13 bytes) and every sink, `Encode` returns whenever the bit source is seeded or can
be: none of its reads of the window panics.  In the embedding every read of the window
(the 8-byte loads at `s`, `nextS`, `sAt`, the refresh positions and `s - 1`, the 4-byte
candidate loads at `t = stored position - cur`, `src[t-1]` and `src[s-1]` of the backward
extension, the slices of the match-length routines and of the literal runs) returns only
if it lies inside the window, and every hash-table index is below `tableSize`.  What makes
the candidate loads safe is the invariant of the reachable states: every stored position
is, as a window index, either at most `len(hist) - maxMatchOffset`, so that the window
test of every later scan position rejects it (also when the index went negative with a
move-down), or an index inside the history; and `cur` plus the length of the window is an
`int32`. -/
theorem C19_reads_in_range (e : fastEncL5ND) (dst : tokens) (S : List Byte)
    (rnd : Option (Nat → Byte)) (hR : Reachable e) (hr : e.rngInit = true ∨ rnd ≠ none)
    (hmax : S.length ≤ maxStoreBlockSize) :
    (∃ r, Encode e dst S rnd = .ok r) ∧ Encode e dst S rnd ≠ .error .panic ∧
    (∀ (b : List Byte) (i : Int) (v : Nat), load6432 b i = .ok v → 0 ≤ i ∧ i + 8 ≤ b.length) ∧
    (∀ (b : List Byte) (i : Int) (v : Nat), load3232 b i = .ok v → 0 ≤ i ∧ i + 4 ≤ b.length) ∧
    (∀ (b : List Byte) (i : Int) (v : Byte), index b i = .ok v → 0 ≤ i ∧ i < b.length) ∧
    (∀ (b : List Byte) (lo hi : Int) (v : List Byte), slice b lo hi = .ok v →
      0 ≤ lo ∧ lo ≤ hi ∧ hi ≤ b.length) ∧
    (∀ u, hash4x64 u tableBits < tableSize ∧ hash4u u tableBits < tableSize ∧
      hash7 u tableBits < tableSize) ∧
    TabFrom e.hist.length e e.hist.length ∧ e.cur + (e.hist.length : Int) < 2 ^ 31 := by
  have hI := Inv_of_Reachable e hR
  obtain ⟨r, h⟩ := Encode_total e dst S rnd hI hr hmax
  have hnp : Encode e dst S rnd ≠ .error .panic := by
    rw [h]
    exact fun hh => by cases hh
  refine ⟨⟨r, h⟩, hnp, ?_, ?_, ?_, ?_,
    fun u => ⟨hash4x64_lt u, hash4u_lt u, hash7_lt u⟩, hI.2.1, hI.2.2.2⟩
  · intro b i v hv
    unfold load6432 at hv
    split at hv
    · assumption
    · cases hv
  · intro b i v hv
    unfold load3232 at hv
    split at hv
    · assumption
    · cases hv
  · intro b i v hv
    unfold index at hv
    split at hv
    · cases hv
    · split at hv
      · rename_i hlt w hw
        have := (List.getElem?_eq_some_iff.mp hw).1
        omega
      · cases hv
  · intro b lo hi v hv
    unfold slice at hv
    split at hv
    · assumption
    · cases hv

/-- C19 witness: `C19_reads_in_range` applied to a concrete call, every hypothesis
discharged. -/
theorem C19_reads_in_range_witness :
    Reachable (freshEnc 65535 (fun _ => 0)) ∧
    (List.replicate 64 (65 : Byte)).length ≤ maxStoreBlockSize ∧
    (∃ r, Encode (freshEnc 65535 (fun _ => 0)) emptyTokens (List.replicate 64 65) none =
      .ok r) ∧
    Encode (freshEnc 65535 (fun _ => 0)) emptyTokens (List.replicate 64 65) none ≠
      .error .panic ∧
    (∀ (b : List Byte) (i : Int) (v : Nat), load6432 b i = .ok v → 0 ≤ i ∧ i + 8 ≤ b.length) ∧
    (∀ (b : List Byte) (i : Int) (v : Nat), load3232 b i = .ok v → 0 ≤ i ∧ i + 4 ≤ b.length) ∧
    (∀ (b : List Byte) (i : Int) (v : Byte), index b i = .ok v → 0 ≤ i ∧ i < b.length) ∧
    (∀ (b : List Byte) (lo hi : Int) (v : List Byte), slice b lo hi = .ok v →
      0 ≤ lo ∧ lo ≤ hi ∧ hi ≤ b.length) ∧
    (∀ u, hash4x64 u tableBits < tableSize ∧ hash4u u tableBits < tableSize ∧
      hash7 u tableBits < tableSize) ∧
    TabFrom (freshEnc 65535 (fun _ => 0)).hist.length (freshEnc 65535 (fun _ => 0))
      (freshEnc 65535 (fun _ => 0)).hist.length ∧
    (freshEnc 65535 (fun _ => 0)).cur + ((freshEnc 65535 (fun _ => 0)).hist.length : Int) <
      2 ^ 31 :=
  ⟨Reachable.fresh _ ⟨rfl, fun _ => rfl, fun _ => rfl, by decide, by decide⟩, by decide,
    C19_reads_in_range (freshEnc 65535 (fun _ => 0)) emptyTokens (List.replicate 64 65) none
      (Reachable.fresh _ ⟨rfl, fun _ => rfl, fun _ => rfl, by decide, by decide⟩)
      (Or.inl rfl) (by decide)⟩

/-- C20: the token count fits the sink.  From every encoder state reached from a fresh
encoder by earlier `Encode` calls (the history may have been moved down and `cur` advanced
any number of times) and for every state of the bit source, `Encode` of a block `S` of at
most `maxStoreBlockSize` bytes on an empty sink returns with `dst.n ≤ len(S)`, hence with
a count of at most `maxStoreBlockSize` (the capacity of the sink and of its `uint16`
counter), and the tokens written stand for at most `len(S)` bytes, a literal for one byte
and a match for at least three, the literals injected by the chunk loop included; and for
a block of any length, whenever `Encode` returns, `dst.n ≤ len(S)`. -/
theorem C20_count_fits (e : fastEncL5ND) (dst : tokens) (S : List Byte)
    (rnd : Option (Nat → Byte)) (hR : Reachable e) (hr : e.rngInit = true ∨ rnd ≠ none)
    (hd : EmptySink dst) :
    (S.length ≤ maxStoreBlockSize →
      ∃ e' dst', Encode e dst S rnd = .ok (e', dst') ∧ dst'.n ≤ S.length ∧
        dst'.n ≤ maxStoreBlockSize ∧
        ((written S dst').length : Int) ≤ spanOf (written S dst') ∧
        spanOf (written S dst') ≤ S.length) ∧
    (∀ e' dst', Encode e dst S rnd = .ok (e', dst') → dst'.n ≤ S.length) := by
  have hI := Inv_of_Reachable e hR
  have key : S.length ≤ maxStoreBlockSize →
      ∃ e' dst', Encode e dst S rnd = .ok (e', dst') ∧ dst'.n ≤ S.length ∧
        dst'.n ≤ maxStoreBlockSize ∧
        ((written S dst').length : Int) ≤ spanOf (written S dst') ∧
        spanOf (written S dst') ≤ S.length := by
    intro hmax
    by_cases h13 : S.length < 13
    · obtain ⟨e2, h2, _⟩ := Encode_small e dst S rnd hr h13
      have hlt : (S.length : Int) < minNonLiteralBlockSize := by
        unfold minNonLiteralBlockSize inputMargin
        omega
      have hn : S.length % 2 ^ 16 = S.length := Nat.mod_eq_of_lt (by omega)
      refine ⟨_, _, h2, by show S.length % 2 ^ 16 ≤ S.length; omega, ?_, ?_⟩
      · show S.length % 2 ^ 16 ≤ maxStoreBlockSize
        omega
      · unfold written
        rw [if_pos hlt]
        exact ⟨le_refl _, by show (0 : Int) ≤ S.length; omega⟩
    · obtain ⟨e', dst', h1, _, L, hS, hL⟩ := Encode_parse_win e dst S rnd hI hr hd (by omega)
        hmax
      have hlt : ¬ (S.length : Int) < minNonLiteralBlockSize := by
        unfold minNonLiteralBlockSize inputMargin
        omega
      have hsp : spanOf L ≤ S.length := by
        rcases hL with hL | hL
        · rw [hL]
          show (0 : Int) ≤ S.length
          omega
        · have := Parse_span _ L _ _ hL
          omega
      have hlen := length_le_spanOf L
      refine ⟨e', dst', h1, by rw [hS.1]; omega, by rw [hS.1]; omega, ?_⟩
      unfold written
      rw [if_neg hlt, hS.2.1]
      exact ⟨hlen, hsp⟩
  refine ⟨key, ?_⟩
  intro e' dst' h
  by_cases hmax : S.length ≤ maxStoreBlockSize
  · obtain ⟨e1, dst1, h1, h2, _⟩ := key hmax
    rw [h1] at h
    injection h with h
    have hd1 : dst1 = dst' := congrArg Prod.snd h
    rw [← hd1]
    exact h2
  · have := Encode_n_lt e dst S rnd e' dst' h (by rw [hd.1]; decide)
    unfold maxStoreBlockSize at hmax
    omega

/-- C20 witness: `C20_count_fits` applied to a concrete call, every hypothesis
discharged. -/
theorem C20_count_fits_witness :
    Reachable (freshEnc 65535 (fun _ => 0)) ∧ EmptySink emptyTokens ∧
    ((List.replicate 64 (65 : Byte)).length ≤ maxStoreBlockSize →
      ∃ e' dst', Encode (freshEnc 65535 (fun _ => 0)) emptyTokens (List.replicate 64 65) none =
          .ok (e', dst') ∧
        dst'.n ≤ (List.replicate 64 (65 : Byte)).length ∧ dst'.n ≤ maxStoreBlockSize ∧
        ((written (List.replicate 64 65) dst').length : Int) ≤
          spanOf (written (List.replicate 64 65) dst') ∧
        spanOf (written (List.replicate 64 65) dst') ≤
          (List.replicate 64 (65 : Byte)).length) ∧
    (∀ e' dst', Encode (freshEnc 65535 (fun _ => 0)) emptyTokens (List.replicate 64 65) none =
        .ok (e', dst') → dst'.n ≤ (List.replicate 64 (65 : Byte)).length) :=
  ⟨Reachable.fresh _ ⟨rfl, fun _ => rfl, fun _ => rfl, by decide, by decide⟩,
    ⟨rfl, fun _ => rfl⟩,
    C20_count_fits (freshEnc 65535 (fun _ => 0)) emptyTokens (List.replicate 64 65) none
      (Reachable.fresh _ ⟨rfl, fun _ => rfl, fun _ => rfl, by decide, by decide⟩) (Or.inl rfl)
      ⟨rfl, fun _ => rfl⟩⟩

end flate
